import Mathlib

/-!
Verification development for the dkr (registry v1) image pull orchestrator
of src/src/src/import/import-dkr.c.

The pure payload parsers and the orchestrator state machine are translated
from the C source.  External collaborators that are not part of the source
tree (the JSON tokenizer of json.c, the identifier predicates of
import-util.c and util.c, the HTTP job machinery of import-job.c, the btrfs
and tar helpers) are modelled from the specification; each such definition
carries a doc comment saying so.
-/

namespace Dkr

/-- Symbolic errno values as used (negated) by the C code. -/
inductive Errno where
  | EBADMSG
  | EFBIG
  | EINVAL
  | EBUSY
  | ENOENT
  | EEXIST
  | EPROTO
  | ENOMEM
deriving DecidableEq

/-- LAYERS_MAX from import-dkr.c. -/
def LAYERS_MAX : Nat := 2048

/-- Modelled from the spec: the layer-id predicate (dkr_id_is_valid of
import-util.c, which is not under src/): fixed-length (64 characters)
lowercase hex. -/
def dkr_id_is_valid (s : String) : Bool :=
  s.length == 64 && s.data.all fun c => c.isDigit || ('a' ≤ c && c ≤ 'f')

/-- Modelled from the spec: the repository-name predicate (dkr_name_is_valid,
not under src/): lowercase alphanumerics plus dash, underscore and slash,
non-empty, bounded length. -/
def dkr_name_is_valid (s : String) : Bool :=
  s ≠ "" && s.length ≤ 256 &&
    s.data.all fun c => c.isDigit || c.isLower || c = '-' || c = '_' || c = '/'

/-- Modelled from the spec: the tag predicate (dkr_tag_is_valid, not under
src/): alphanumerics plus dash, underscore and dot, non-empty, bounded. -/
def dkr_tag_is_valid (s : String) : Bool :=
  s ≠ "" && s.length ≤ 128 &&
    s.data.all fun c => c.isAlphanum || c = '-' || c = '_' || c = '.'

/-- Modelled from the spec: the machine-name predicate (machine_name_is_valid,
not under src/): DNS-label-like, bounded to 64 characters. -/
def machine_name_is_valid (s : String) : Bool :=
  s ≠ "" && s.length ≤ 64 && s.data.all fun c => c.isAlphanum || c = '-'

/-- Split a character list at a separator character. -/
def splitAtChar (sep : Char) : List Char → List (List Char)
  | [] => [[]]
  | c :: cs =>
    let r := splitAtChar sep cs
    if c = sep then [] :: r
    else match r with
      | [] => [[c]]
      | g :: gs => (c :: g) :: gs

/-- Modelled from the spec: the hostname predicate (hostname_is_valid, not
under src/): an RFC-1123 label sequence. -/
def hostname_is_valid (s : String) : Bool :=
  s ≠ "" && s.length ≤ 253 &&
    (splitAtChar '.' s.data).all fun l =>
      l ≠ [] && l.length ≤ 63 && l.all fun c => c.isAlphanum || c = '-'

/-- Modelled from the spec: http_url_is_valid (not under src/): the URL
starts with an http or https scheme and has a non-empty rest. -/
def http_url_is_valid (s : String) : Bool :=
  (listStarts "http://".data s.data && 7 < s.length) ||
  (listStarts "https://".data s.data && 8 < s.length)
where
  /-- Whether the first list starts the second. -/
  listStarts : List Char → List Char → Bool
    | [], _ => true
    | _ :: _, [] => false
    | a :: as, b :: bs => a = b && listStarts as bs

/-- The JSON tokens that the id and ancestry payloads can use. -/
inductive JsonToken where
  | arrayOpen
  | arrayClose
  | comma
  | str (s : String)
  | eof
deriving DecidableEq

/-- Modelled from the spec: string scanning inside the JSON tokenizer
(json.c, not under src/).  A string token runs to the next double quote;
escape sequences are not interpreted (ancestry ids are plain hex, so none
occur in conforming payloads).  Returns the content and the remainder after
the closing quote, or none when the input ends before the quote. -/
def scanJsonString : List Char → Option (List Char × List Char)
  | [] => none
  | c :: cs =>
    if c = '"' then some ([], cs)
    else
      match scanJsonString cs with
      | some (s, r) => some (c :: s, r)
      | none => none

/-- Whether a character is JSON whitespace. -/
def isJsonWs (c : Char) : Bool :=
  c = ' ' || c = '\t' || c = '\n' || c = '\r'

/-- Modelled from the spec: json_tokenize of json.c (not under src/),
restricted to the tokens that the id and ancestry payloads use.  Any other
JSON construct is a tokenization failure, which the payload parsers map to
a protocol error exactly as the full tokenizer would lead to a non-matching
token kind or a negative return. -/
def json_tokenize : List Char → Option (JsonToken × List Char)
  | [] => some (.eof, [])
  | c :: cs =>
    if isJsonWs c then json_tokenize cs
    else if c = '[' then some (.arrayOpen, cs)
    else if c = ']' then some (.arrayClose, cs)
    else if c = ',' then some (.comma, cs)
    else if c = '"' then
      match scanJsonString cs with
      | some (s, r) => some (.str (String.mk s), r)
      | none => none
    else none

theorem scanJsonString_shrink :
    ∀ cs s r, scanJsonString cs = some (s, r) → r.length < cs.length := by
  intro cs
  induction cs with
  | nil => intro s r h; simp [scanJsonString] at h
  | cons c cs ih =>
    intro s r h
    by_cases hc : c = '"'
    · simp [scanJsonString, hc] at h
      simp [← h.2]
    · simp only [scanJsonString, hc, if_false] at h
      cases hs : scanJsonString cs with
      | none => rw [hs] at h; simp at h
      | some p =>
        rw [hs] at h
        obtain ⟨s', r'⟩ := p
        simp at h
        have := ih s' r' hs
        simp [← h.2]
        omega

theorem json_tokenize_shrink :
    ∀ cs t r, json_tokenize cs = some (t, r) → t ≠ .eof → r.length < cs.length := by
  intro cs
  induction cs with
  | nil => intro t r h hne; simp [json_tokenize] at h; exact absurd h.1.symm hne
  | cons c cs ih =>
    intro t r h hne
    by_cases hws : isJsonWs c = true
    · simp only [json_tokenize, hws, if_true] at h
      have := ih t r h hne
      simp; omega
    · simp only [json_tokenize, hws, if_false, Bool.false_eq_true] at h
      by_cases h1 : c = '['
      · simp [h1] at h; simp [← h.2]
      · by_cases h2 : c = ']'
        · simp [h1, h2] at h; simp [← h.2]
        · by_cases h3 : c = ','
          · simp [h1, h2, h3] at h; simp [← h.2]
          · by_cases h4 : c = '"'
            · simp only [h1, h2, h3, h4, if_false, if_true] at h
              cases hs : scanJsonString cs with
              | none => rw [hs] at h; simp at h
              | some p =>
                rw [hs] at h
                obtain ⟨s', r'⟩ := p
                simp at h
                have := scanJsonString_shrink cs s' r' hs
                simp [← h.2]; omega
            · simp [h1, h2, h3, h4] at h

/-- The NUL character that the C parsers reject inside payloads. -/
def NUL : Char := Char.ofNat 0

/-- parse_id from import-dkr.c: a JSON document of exactly one quoted
string matching the layer-id predicate. -/
def parse_id (payload : List Char) : Except Errno String :=
  if payload.length = 0 then .error .EBADMSG
  else if payload.contains NUL then .error .EBADMSG
  else
    match json_tokenize payload with
    | none => .error .EBADMSG
    | some (.str id, rest) =>
      match json_tokenize rest with
      | none => .error .EBADMSG
      | some (.eof, _) =>
        if dkr_id_is_valid id then .ok id else .error .EBADMSG
      | some _ => .error .EBADMSG
    | some _ => .error .EBADMSG

/-- strv_is_uniq (strv.c, modelled from its contract): no string occurs
twice. -/
def strv_is_uniq : List String → Bool
  | [] => true
  | s :: l => !l.contains s && strv_is_uniq l

/-- The parser states of parse_ancestry in import-dkr.c. -/
inductive AncestryState where
  | STATE_BEGIN
  | STATE_ITEM
  | STATE_COMMA
  | STATE_END
deriving DecidableEq

/-- The token-consuming loop of parse_ancestry from import-dkr.c, translated
state for state.  l is the accumulated list (in payload order), n its
length as tracked by the C code.  fuel bounds the number of tokenization
steps; every non-final token consumes at least one character, so any fuel
above the character count is sufficient (parse_ancestry passes one more
than the payload length, and the exhaustion case is unreachable). -/
def parse_ancestry_loop : Nat → List Char → AncestryState → List String →
    Nat → Except Errno (List String)
  | 0, _, _, _, _ => .error .ENOMEM
  | fuel + 1, cs, st, l, n =>
    match json_tokenize cs with
    | none => .error .EBADMSG
    | some (t, rest) =>
      match st, t with
      | .STATE_BEGIN, .arrayOpen => parse_ancestry_loop fuel rest .STATE_ITEM l n
      | .STATE_BEGIN, _ => .error .EBADMSG
      | .STATE_ITEM, .str s =>
        if !dkr_id_is_valid s then .error .EBADMSG
        else if LAYERS_MAX < n + 1 then .error .EFBIG
        else parse_ancestry_loop fuel rest .STATE_COMMA (l ++ [s]) (n + 1)
      | .STATE_ITEM, .arrayClose => parse_ancestry_loop fuel rest .STATE_END l n
      | .STATE_ITEM, _ => .error .EBADMSG
      | .STATE_COMMA, .comma => parse_ancestry_loop fuel rest .STATE_ITEM l n
      | .STATE_COMMA, .arrayClose => parse_ancestry_loop fuel rest .STATE_END l n
      | .STATE_COMMA, _ => .error .EBADMSG
      | .STATE_END, .eof =>
        if l = [] then .error .EBADMSG
        else if !strv_is_uniq l then .error .EBADMSG
        else .ok l.reverse
      | .STATE_END, _ => .error .EBADMSG

/-- parse_ancestry from import-dkr.c. -/
def parse_ancestry (payload : List Char) : Except Errno (List String) :=
  if payload.length = 0 then .error .EBADMSG
  else if payload.contains NUL then .error .EBADMSG
  else parse_ancestry_loop (payload.length + 1) payload .STATE_BEGIN [] 0

/-! Token-level view of the ancestry payload, used to state the grammar of
the specification and to analyse parse_ancestry.  lexListF runs the
tokenizer to the end of input (or to a tokenization failure); the Bool is
true when the end of input was reached cleanly. -/

/-- Tokenize to the end of input; the flag records whether the end was
reached without a tokenization failure.  fuel as in parse_ancestry_loop. -/
def lexListF : Nat → List Char → List JsonToken × Bool
  | 0, _ => ([], false)
  | fuel + 1, cs =>
    match json_tokenize cs with
    | none => ([], false)
    | some (.eof, _) => ([], true)
    | some (t, rest) =>
      let r := lexListF fuel rest
      (t :: r.1, r.2)

/-- The token stream of a payload. -/
def lexList (cs : List Char) : List JsonToken × Bool :=
  lexListF (cs.length + 1) cs

/-- parse_ancestry_loop lifted to an already-tokenized stream: the token
list holds the tokens before end of input, the flag tells whether end of
input is reached cleanly after them (as in lexList). -/
def parseTokens : List JsonToken → Bool → AncestryState → List String → Nat →
    Except Errno (List String)
  | [], ok, st, l, _ =>
    if ok then
      match st with
      | .STATE_END =>
        if l = [] then .error .EBADMSG
        else if !strv_is_uniq l then .error .EBADMSG
        else .ok l.reverse
      | _ => .error .EBADMSG
    else .error .EBADMSG
  | t :: ts, ok, st, l, n =>
    match st, t with
    | .STATE_BEGIN, .arrayOpen => parseTokens ts ok .STATE_ITEM l n
    | .STATE_BEGIN, _ => .error .EBADMSG
    | .STATE_ITEM, .str s =>
      if !dkr_id_is_valid s then .error .EBADMSG
      else if LAYERS_MAX < n + 1 then .error .EFBIG
      else parseTokens ts ok .STATE_COMMA (l ++ [s]) (n + 1)
    | .STATE_ITEM, .arrayClose => parseTokens ts ok .STATE_END l n
    | .STATE_ITEM, _ => .error .EBADMSG
    | .STATE_COMMA, .comma => parseTokens ts ok .STATE_ITEM l n
    | .STATE_COMMA, .arrayClose => parseTokens ts ok .STATE_END l n
    | .STATE_COMMA, _ => .error .EBADMSG
    | .STATE_END, _ => .error .EBADMSG

/-- Separator-led token runs: for each string, a comma then the string. -/
def sepTokens : List String → List JsonToken
  | [] => []
  | s :: l => .comma :: .str s :: sepTokens l

/-- String-led token runs: for each string, the string then a comma. -/
def pairTokens : List String → List JsonToken
  | [] => []
  | s :: l => .str s :: .comma :: pairTokens l

/-- The token run of a comma-separated string sequence. -/
def idsTokens : List String → List JsonToken
  | [] => []
  | s :: l => .str s :: sepTokens l

/-- The token form of the grammar quoted by the specification for the
ancestry payload: an array of comma-separated strings, no trailing
comma. -/
def specAncestryTokens (ids : List String) : List JsonToken :=
  .arrayOpen :: (idsTokens ids ++ [.arrayClose])

/-- The trailing-comma variant that the implementation also accepts. -/
def specAncestryTokensTrailing (ids : List String) : List JsonToken :=
  .arrayOpen :: (idsTokens ids ++ [.comma, .arrayClose])

/-- The payload token stream starts with an array-open token followed by
LAYERS_MAX + 1 comma-separated valid layer ids: exactly the situations in
which parse_ancestry reports EFBIG (TooManyLayers). -/
def hugeAncestry (p : List Char) : Prop :=
  ∃ ids rest, ids.length = LAYERS_MAX + 1 ∧
    (∀ s ∈ ids, dkr_id_is_valid s = true) ∧
    (lexList p).1 = .arrayOpen :: (idsTokens ids ++ rest)

/-- The token sequences accepted from the ITEM and COMMA states of
parse_ancestry, together with the strings collected along the way. -/
inductive Accepts : AncestryState → List JsonToken → List String → Prop where
  | closeItem : Accepts .STATE_ITEM [.arrayClose] []
  | closeComma : Accepts .STATE_COMMA [.arrayClose] []
  | strStep (s : String) (ts : List JsonToken) (ids : List String) :
      Accepts .STATE_COMMA ts ids → Accepts .STATE_ITEM (.str s :: ts) (s :: ids)
  | commaStep (ts : List JsonToken) (ids : List String) :
      Accepts .STATE_ITEM ts ids → Accepts .STATE_COMMA (.comma :: ts) ids

/-! ## The pull orchestrator state machine

DkrImport mirrors struct DkrImport of import-dkr.c.  HTTP jobs are modelled
from the spec (import-job.c is not under src/): a job has a URL, a state
and a progress percentage; payloads arrive with the completion event.
Filesystem state is a set of directory paths plus read-only marks.  Every
callback of import-dkr.c becomes a case of handleEvent; the events an
event loop may deliver are constrained by evOK, and Reach collects the
states reachable from dkr_import_new and dkr_import_pull.  -/

/-- Modelled from the spec: the state of an HTTP job (import-job.c, not
under src/): running until its completion callback fires, then done on
success (IMPORT_JOB_DONE) or failed on error. -/
inductive JobState where
  | running
  | done
  | failed
deriving DecidableEq

/-- Modelled from the spec: an HTTP job (import-job.c, not under src/). -/
structure ImportJob where
  url : String
  state : JobState
  progress_percent : Nat
deriving DecidableEq

/-- The five job slots of struct DkrImport. -/
inductive JobId where
  | images
  | tags
  | ancestry
  | json
  | layer
deriving DecidableEq

/-- DkrProgress from import-dkr.c. -/
inductive DkrProgress where
  | DKR_SEARCHING
  | DKR_RESOLVING
  | DKR_METADATA
  | DKR_DOWNLOADING
  | DKR_COPYING
deriving DecidableEq

/-- The filesystem as the orchestrator observes it: existing directory
(subvolume) paths and read-only marks. -/
structure FS where
  dirs : List String
  ro : List String
deriving DecidableEq

/-- struct DkrImport from import-dkr.c (the event loop, curl glue and
callback pointers are carried by the semantics instead of the record; the
C field local is called localName because local is reserved in Lean). -/
structure DkrImport where
  index_url : String
  image_root : String
  images_job : Option ImportJob
  tags_job : Option ImportJob
  ancestry_job : Option ImportJob
  json_job : Option ImportJob
  layer_job : Option ImportJob
  name : Option String
  tag : Option String
  id : Option String
  response_token : Option String
  response_registries : List String
  ancestry : List String
  n_ancestry : Nat
  current_ancestry : Nat
  localName : Option String
  force_local : Bool
  temp_path : Option String
  final_path : Option String
  tar_pid : Nat
deriving DecidableEq

/-- Observable actions of a pull: requests issued, progress reports
(X_IMPORT_PROGRESS), the completion callback (none = success), and the
filesystem operations. -/
inductive Obs where
  | request (jid : JobId) (url : String)
  | progressReport (phase : DkrProgress) (percent : Nat)
  | finishedCb (r : Option Errno)
  | mkdirParents (path : String)
  | subvolSnapshot (src dst : String) (read_only : Bool)
  | subvolMake (path : String)
  | setReadOnly (path : String)
  | renamed (src dst : String)
  | renameFailed (src dst : String)
  | localCopy (src dst : String)
deriving DecidableEq

/-- Events the event loop can deliver to the orchestrator: response
headers (images request only), job progress, job completion (tarOk is the
tar child's exit status, used by the layer job only), the open-disk
callback of the streamed layer job (suffix is the random temp-name
suffix), and a directory appearing through an external actor (a racing
pull). -/
inductive Ev where
  | headerToken (tok : String)
  | headerRegistries (raw : String)
  | jobProgress (jid : JobId) (percent : Nat)
  | jobSucceeded (jid : JobId) (payload : List Char) (tarOk : Bool)
  | jobFailed (jid : JobId) (err : Errno)
  | openDisk (suffix : String)
  | externalMkdir (path : String)
deriving DecidableEq

/-- Read a job slot. -/
def getJob (i : DkrImport) : JobId → Option ImportJob
  | .images => i.images_job
  | .tags => i.tags_job
  | .ancestry => i.ancestry_job
  | .json => i.json_job
  | .layer => i.layer_job

/-- Write a job slot. -/
def setJob (i : DkrImport) (jid : JobId) (j : Option ImportJob) : DkrImport :=
  match jid with
  | .images => { i with images_job := j }
  | .tags => { i with tags_job := j }
  | .ancestry => { i with ancestry_job := j }
  | .json => { i with json_job := j }
  | .layer => { i with layer_job := j }

/-- A freshly begun job. -/
def newJob (url : String) : ImportJob :=
  { url := url, state := .running, progress_percent := 0 }

def jobPercent : Option ImportJob → Nat
  | none => 0
  | some j => j.progress_percent

def jobRunning : Option ImportJob → Bool
  | none => false
  | some j => j.state == .running

def jobDone : Option ImportJob → Bool
  | none => false
  | some j => j.state == .done

/-- dkr_import_report_progress from import-dkr.c: the percent value
published for a phase. -/
def dkr_import_report_progress (i : DkrImport) (p : DkrProgress) : Nat :=
  match p with
  | .DKR_SEARCHING => 0 + jobPercent i.images_job * 5 / 100
  | .DKR_RESOLVING => 5 + jobPercent i.tags_job * 5 / 100
  | .DKR_METADATA =>
    10 + jobPercent i.ancestry_job * 5 / 100 + jobPercent i.json_job * 5 / 100
  | .DKR_DOWNLOADING =>
    20 + 75 * i.current_ancestry / max 1 i.n_ancestry +
      (match i.layer_job with
       | none => 0
       | some j => j.progress_percent * 75 / max 1 i.n_ancestry / 100)
  | .DKR_COPYING => 95

/-- The progress observation a report produces. -/
def progressObs (i : DkrImport) (p : DkrProgress) : Obs :=
  .progressReport p (dkr_import_report_progress i p)

/-- dkr_import_current_layer from import-dkr.c. -/
def dkr_import_current_layer (i : DkrImport) : Option String :=
  if i.ancestry = [] then none else i.ancestry[i.current_ancestry]?

/-- dkr_import_current_base_layer from import-dkr.c. -/
def dkr_import_current_base_layer (i : DkrImport) : Option String :=
  if i.ancestry = [] then none
  else if i.current_ancestry = 0 then none
  else i.ancestry[i.current_ancestry - 1]?

/-- dkr_import_is_done from import-dkr.c. -/
def dkr_import_is_done (i : DkrImport) : Bool :=
  jobDone i.images_job && jobDone i.tags_job && jobDone i.ancestry_job &&
  jobDone i.json_job &&
  (match i.layer_job with
   | none => true
   | some j => j.state == .done) &&
  (dkr_import_current_layer i).isNone

/-- The final path of a layer id: image_root/.dkr-id. -/
def layerPath (root l : String) : String := root ++ "/.dkr-" ++ l

/-- The path of a local working copy: image_root/local. -/
def localPath (root l : String) : String := root ++ "/" ++ l

/-- Modelled from the spec: tempfn_random (not under src/): the path with
a random suffix appended. -/
def tempfn_random (p suffix : String) : String := p ++ "." ++ suffix

/-- Join path components back with slashes. -/
def joinWithSlash : List (List Char) → List Char
  | [] => []
  | [g] => g
  | g :: gs => g ++ '/' :: joinWithSlash gs

/-- The parent directory of a path (for the mkdir_parents_label call). -/
def parentDir (p : String) : String :=
  String.mk (joinWithSlash ((splitAtChar '/' p.data).dropLast))

/-- The registry endpoint used for all registry requests (the source
always uses entry 0). -/
def registry0 (i : DkrImport) : String :=
  i.response_registries.headD ""

def tagsUrl (i : DkrImport) : String :=
  "https://" ++ registry0 i ++ "/v1/repositories/" ++ i.name.getD "" ++
    "/tags/" ++ i.tag.getD ""

def ancestryUrl (i : DkrImport) : String :=
  "https://" ++ registry0 i ++ "/v1/images/" ++ i.id.getD "" ++ "/ancestry"

def jsonUrl (i : DkrImport) : String :=
  "https://" ++ registry0 i ++ "/v1/images/" ++ i.id.getD "" ++ "/json"

def layerUrl (i : DkrImport) (layer : String) : String :=
  "https://" ++ registry0 i ++ "/v1/images/" ++ layer ++ "/layer"

def imagesUrl (i : DkrImport) (name : String) : String :=
  i.index_url ++ "/v1/repositories/" ++ name ++ "/images"

/-- The loop of dkr_import_pull_layer from import-dkr.c: skip layers whose
final directory exists; for the first missing one record final_path and
start the streamed layer request.  fuel bounds the loop as in
parse_ancestry_loop (the wrapper passes more fuel than there are layers,
making exhaustion unreachable). -/
def dkr_import_pull_layer_loop : Nat → DkrImport → FS →
    Option Errno × DkrImport × List Obs
  | 0, i, _ => (some .ENOMEM, i, [])
  | fuel + 1, i, fs =>
    match dkr_import_current_layer i with
    | none => (none, i, [])
    | some layer =>
      let path := layerPath i.image_root layer
      if fs.dirs.contains path then
        dkr_import_pull_layer_loop fuel
          { i with current_ancestry := i.current_ancestry + 1 } fs
      else
        (none,
         { i with final_path := some path,
                  layer_job := some (newJob (layerUrl i layer)) },
         [.request .layer (layerUrl i layer)])

/-- dkr_import_pull_layer from import-dkr.c. -/
def dkr_import_pull_layer (i : DkrImport) (fs : FS) :
    Option Errno × DkrImport × List Obs :=
  dkr_import_pull_layer_loop (i.ancestry.length + 1) i fs

/-- Modelled from the spec: import_make_local_copy (import-common.c, not
under src/), the materialize operation: fails with EEXIST when the target
exists and force is unset, with ENOENT when the source is missing;
otherwise replaces the target with a working copy of the sealed layer. -/
def import_make_local_copy (fs : FS) (final root l : String) (force : Bool) :
    Option Errno × FS × List Obs :=
  if (fs.dirs.contains final) = false then (some .ENOENT, fs, [])
  else if fs.dirs.contains (localPath root l) && !force then
    (some .EEXIST, fs, [])
  else
    (none,
     { fs with dirs := localPath root l :: fs.dirs.erase (localPath root l) },
     [.localCopy final (localPath root l)])

/-- dkr_import_make_local_copy from import-dkr.c. -/
def dkr_import_make_local_copy (i : DkrImport) (fs : FS) :
    Option Errno × DkrImport × FS × List Obs :=
  match i.localName with
  | none => (none, i, fs, [])
  | some l =>
    let i2 :=
      if i.final_path.isNone then
        { i with final_path := some (layerPath i.image_root (i.id.getD "")) }
      else i
    match import_make_local_copy fs (i2.final_path.getD "") i2.image_root l
        i2.force_local with
    | (r, fs2, o) => (r, i2, fs2, o)

/-- The tail of dkr_import_job_on_finished: when all jobs are done, report
COPYING, make the optional local copy and fire the completion callback. -/
def dkr_import_maybe_done (i : DkrImport) (fs : FS) :
    DkrImport × FS × List Obs :=
  if dkr_import_is_done i then
    let rep := progressObs i .DKR_COPYING
    match dkr_import_make_local_copy i fs with
    | (some e, i2, fs2, o) => (i2, fs2, rep :: o ++ [.finishedCb (some e)])
    | (none, i2, fs2, o) => (i2, fs2, rep :: o ++ [.finishedCb none])
  else (i, fs, [])

/-- dkr_import_job_on_finished from import-dkr.c, successful-transfer
part, dispatched on the identity of the finished job (whose record has
already been marked done).  payload is the buffered response body; tarOk
stands for the tar child's clean exit (layer job only). -/
def dkr_import_job_on_finished (i : DkrImport) (fs : FS) (jid : JobId)
    (payload : List Char) (tarOk : Bool) : DkrImport × FS × List Obs :=
  match jid with
  | .images =>
    if i.response_registries = [] then (i, fs, [.finishedCb (some .EBADMSG)])
    else
      let rep := progressObs i .DKR_RESOLVING
      let url := tagsUrl i
      let i2 := { i with tags_job := some (newJob url) }
      match dkr_import_maybe_done i2 fs with
      | (i3, fs3, o) => (i3, fs3, rep :: .request .tags url :: o)
  | .tags =>
    match parse_id payload with
    | .error e => (i, fs, [.finishedCb (some e)])
    | .ok id =>
      let i2 := { i with id := some id }
      let rep := progressObs i2 .DKR_METADATA
      let aurl := ancestryUrl i2
      let jurl := jsonUrl i2
      let i3 := { i2 with ancestry_job := some (newJob aurl),
                          json_job := some (newJob jurl) }
      match dkr_import_maybe_done i3 fs with
      | (i4, fs4, o) =>
        (i4, fs4, rep :: .request .ancestry aurl :: .request .json jurl :: o)
  | .ancestry =>
    match parse_ancestry payload with
    | .error e => (i, fs, [.finishedCb (some e)])
    | .ok l =>
      if l.length = 0 || decide (l.getLast? ≠ i.id) then
        (i, fs, [.finishedCb (some .EBADMSG)])
      else
        let i2 := { i with ancestry := l, n_ancestry := l.length,
                           current_ancestry := 0 }
        let rep := progressObs i2 .DKR_DOWNLOADING
        match dkr_import_pull_layer i2 fs with
        | (some e, i3, o) => (i3, fs, rep :: o ++ [.finishedCb (some e)])
        | (none, i3, o) =>
          match dkr_import_maybe_done i3 fs with
          | (i4, fs4, o2) => (i4, fs4, rep :: o ++ o2)
  | .json => dkr_import_maybe_done i fs
  | .layer =>
    let hadTar := 0 < i.tar_pid
    let i2 := if hadTar then { i with tar_pid := 0 } else i
    if hadTar && !tarOk then (i2, fs, [.finishedCb (some .EPROTO)])
    else
      let temp := i2.temp_path.getD ""
      let final := i2.final_path.getD ""
      let fs2 : FS := { fs with ro := temp :: fs.ro }
      if fs2.dirs.contains final then
        (i2, fs2, [.setReadOnly temp, .renameFailed temp final,
                   .finishedCb none])
      else
        let fs3 : FS := { fs2 with dirs := final :: fs2.dirs.erase temp,
                                   ro := final :: fs2.ro.erase temp }
        let i3 := { i2 with layer_job := none, temp_path := none,
                            final_path := none,
                            current_ancestry := i2.current_ancestry + 1 }
        match dkr_import_pull_layer i3 fs3 with
        | (some e, i4, o) =>
          (i4, fs3, .setReadOnly temp :: .renamed temp final :: o ++
            [.finishedCb (some e)])
        | (none, i4, o) =>
          match dkr_import_maybe_done i4 fs3 with
          | (i5, fs5, o2) =>
            (i5, fs5, .setReadOnly temp :: .renamed temp final :: o ++ o2)

/-- dkr_import_job_on_open_disk from import-dkr.c: build the temp path,
ensure parent directories, snapshot the base layer into it (or make a
fresh subvolume), fork tar. -/
def dkr_import_job_on_open_disk (i : DkrImport) (fs : FS) (suffix : String) :
    Option Errno × DkrImport × FS × List Obs :=
  match i.final_path with
  | none => (some .EINVAL, i, fs, [])
  | some final =>
    let temp := tempfn_random final suffix
    let fs1 : FS := { fs with dirs := parentDir temp :: fs.dirs }
    let o1 : List Obs := [.mkdirParents (parentDir temp)]
    match dkr_import_current_base_layer i with
    | some base =>
      let base_path := layerPath i.image_root base
      if fs1.dirs.contains base_path then
        (none, { i with temp_path := some temp, tar_pid := 1 },
         { fs1 with dirs := temp :: fs1.dirs },
         o1 ++ [.subvolSnapshot base_path temp false])
      else (some .ENOENT, { i with temp_path := some temp }, fs1, o1)
    | none =>
      (none, { i with temp_path := some temp, tar_pid := 1 },
       { fs1 with dirs := temp :: fs1.dirs },
       o1 ++ [.subvolMake temp])

/-- Split a raw header value at commas, dropping empty entries
(strv_split semantics for a "," separator set). -/
def strv_split_comma (s : String) : List String :=
  ((splitAtChar ',' s.data).map String.mk).filter fun x => x ≠ ""

/-- Mark a job slot with a new state. -/
def setJobState (oj : Option ImportJob) (st : JobState) : Option ImportJob :=
  oj.map fun j => { j with state := st }

/-- Update a job slot's progress. -/
def setJobPercent (oj : Option ImportJob) (pct : Nat) : Option ImportJob :=
  oj.map fun j => { j with progress_percent := pct }

/-- One event delivered to the orchestrator: runs the matching callback of
import-dkr.c and returns the new session, the new filesystem and the
observations. -/
def handleEvent (i : DkrImport) (fs : FS) (e : Ev) :
    DkrImport × FS × List Obs :=
  match e with
  | .headerToken tok => ({ i with response_token := some tok }, fs, [])
  | .headerRegistries raw =>
    let l := strv_split_comma raw
    if l.all hostname_is_valid then
      ({ i with response_registries := l }, fs, [])
    else
      ({ i with images_job := setJobState i.images_job .failed }, fs,
       [.finishedCb (some .EBADMSG)])
  | .jobProgress jid pct =>
    let i2 := setJob i jid (setJobPercent (getJob i jid) pct)
    let phase :=
      match jid with
      | .images => DkrProgress.DKR_SEARCHING
      | .tags => DkrProgress.DKR_RESOLVING
      | .ancestry => DkrProgress.DKR_METADATA
      | .json => DkrProgress.DKR_METADATA
      | .layer => DkrProgress.DKR_DOWNLOADING
    (i2, fs, [progressObs i2 phase])
  | .jobSucceeded jid payload tarOk =>
    let i2 := setJob i jid (setJobState (getJob i jid) .done)
    dkr_import_job_on_finished i2 fs jid payload tarOk
  | .jobFailed jid err =>
    let i2 := setJob i jid (setJobState (getJob i jid) .failed)
    (i2, fs, [.finishedCb (some err)])
  | .openDisk suffix =>
    match dkr_import_job_on_open_disk i fs suffix with
    | (none, i2, fs2, o) => (i2, fs2, o)
    | (some e, i2, fs2, o) =>
      (setJob i2 .layer (setJobState (getJob i2 .layer) .failed), fs2,
       o ++ [.finishedCb (some e)])
  | .externalMkdir p => (i, { fs with dirs := p :: fs.dirs }, [])

/-- dkr_import_new from import-dkr.c: validates the index URL, defaults
the image root, strips one trailing slash. -/
def dkr_import_new (index_url : String) (image_root : Option String) :
    Option DkrImport :=
  if (http_url_is_valid index_url) = false then none
  else
    some
      { index_url :=
          if index_url.data.getLast? = some '/' then
            String.mk index_url.data.dropLast
          else index_url,
        image_root := image_root.getD "/var/lib/machines",
        images_job := none, tags_job := none, ancestry_job := none,
        json_job := none, layer_job := none,
        name := none, tag := none, id := none,
        response_token := none, response_registries := [],
        ancestry := [], n_ancestry := 0, current_ancestry := 0,
        localName := none, force_local := false,
        temp_path := none, final_path := none, tar_pid := 0 }

/-- dkr_import_pull from import-dkr.c: validate name, tag and local,
refuse a second pull, default the tag, record the arguments and start the
images request. -/
def dkr_import_pull (i : DkrImport) (name : String) (tag : Option String)
    (l : Option String) (force_local : Bool) :
    Option Errno × DkrImport × List Obs :=
  if (dkr_name_is_valid name) = false then (some .EINVAL, i, [])
  else if (match tag with
           | some t => !dkr_tag_is_valid t
           | none => false) then (some .EINVAL, i, [])
  else if (match l with
           | some s => !machine_name_is_valid s
           | none => false) then (some .EINVAL, i, [])
  else if i.images_job.isSome then (some .EBUSY, i, [])
  else
    let tag2 := tag.getD "latest"
    let url := imagesUrl i name
    (none,
     { i with localName := l, force_local := force_local,
              name := some name, tag := some tag2,
              images_job := some (newJob url) },
     [.request .images url])

/-- Whether no completion callback has fired yet (the session is still
live; after completion the caller destroys the session, so the loop
delivers no further events). -/
def aliveB (obs : List Obs) : Bool :=
  obs.all fun o =>
    match o with
    | .finishedCb _ => false
    | _ => true

/-- The event-validity conditions the HTTP job layer guarantees (modelled
from the spec, import-job.c not being under src/): callbacks only for
existing, still-running jobs; progress monotone within 0..100; open-disk
once, before any disk write, for the streamed layer job, with a fresh
temp path; the layer job finishes only after open-disk set up the paths
(the asserts of import-dkr.c). -/
def evOK (i : DkrImport) (fs : FS) (e : Ev) : Bool :=
  match e with
  | .headerToken _ => jobRunning i.images_job
  | .headerRegistries _ => jobRunning i.images_job
  | .jobProgress jid pct =>
    (match getJob i jid with
     | some j => j.state == .running && j.progress_percent ≤ pct && pct ≤ 100
     | none => false)
  | .jobSucceeded jid _ _ =>
    jobRunning (getJob i jid) &&
      (!(jid == .layer) || (i.temp_path.isSome && i.final_path.isSome))
  | .jobFailed jid _ => jobRunning (getJob i jid)
  | .openDisk suffix =>
    jobRunning i.layer_job && i.final_path.isSome && i.temp_path.isNone &&
      i.tar_pid == 0 && suffix ≠ "" &&
      (fs.dirs.contains (tempfn_random (i.final_path.getD "") suffix)) = false
  | .externalMkdir _ => true

/-- The reachable configurations of a pull session: a fresh session from
dkr_import_new with an arbitrary initial filesystem, a successful
dkr_import_pull call, and any event-loop step valid per evOK while no
completion callback has fired. -/
inductive Reach : DkrImport → FS → List Obs → Prop where
  | init (index_url : String) (image_root : Option String) (fs : FS)
      (i : DkrImport) (h : dkr_import_new index_url image_root = some i) :
      Reach i fs []
  | pull (i : DkrImport) (fs : FS) (obs : List Obs) (name : String)
      (tag l : Option String) (force : Bool) (i2 : DkrImport) (o : List Obs)
      (h : Reach i fs obs)
      (hp : dkr_import_pull i name tag l force = (none, i2, o)) :
      Reach i2 fs (obs ++ o)
  | step (i : DkrImport) (fs : FS) (obs : List Obs) (e : Ev) (i2 : DkrImport)
      (fs2 : FS) (o : List Obs) (h : Reach i fs obs)
      (halive : aliveB obs = true) (hok : evOK i fs e = true)
      (hstep : handleEvent i fs e = (i2, fs2, o)) :
      Reach i2 fs2 (obs ++ o)

/-! Derived observation views used by the progress claims. -/

/-- All progress reports, in order. -/
def reportsOf (obs : List Obs) : List (DkrProgress × Nat) :=
  obs.filterMap fun o =>
    match o with
    | .progressReport ph p => some (ph, p)
    | _ => none

/-- The percent values of the non-METADATA reports. -/
def nonMetaPcts (obs : List Obs) : List Nat :=
  obs.filterMap fun o =>
    match o with
    | .progressReport ph p =>
      if ph = .DKR_METADATA then none else some p
    | _ => none

/-- The percent values of the METADATA reports. -/
def metaPcts (obs : List Obs) : List Nat :=
  obs.filterMap fun o =>
    match o with
    | .progressReport ph p =>
      if ph = .DKR_METADATA then some p else none
    | _ => none

/-- Whether no rename-time conflict (the seal slip of import-dkr.c, see
the ConflictError claim) occurred. -/
def noRenameFail (obs : List Obs) : Prop :=
  ∀ s d, Obs.renameFailed s d ∉ obs

/-- The current value of the non-METADATA progress track: the value the
next non-METADATA report would have in the current phase. -/
def gFloor (i : DkrImport) : Nat :=
  if i.n_ancestry ≠ 0 then dkr_import_report_progress i .DKR_DOWNLOADING
  else if i.tags_job.isSome then dkr_import_report_progress i .DKR_RESOLVING
  else dkr_import_report_progress i .DKR_SEARCHING

/-- The current value of the METADATA progress track. -/
def metaFloor (i : DkrImport) : Nat :=
  dkr_import_report_progress i .DKR_METADATA

/-! ## Executable runs and concrete pull sessions -/

/-- Run a list of events through the orchestrator, checking each against
evOK and failing if the session already completed or an event is not one
the job layer could deliver. -/
def runEvents : DkrImport → FS → List Obs → List Ev →
    Option (DkrImport × FS × List Obs)
  | i, fs, obs, [] => some (i, fs, obs)
  | i, fs, obs, e :: es =>
    if aliveB obs && evOK i fs e then
      runEvents (handleEvent i fs e).1 (handleEvent i fs e).2.1
        (obs ++ (handleEvent i fs e).2.2) es
    else none

/-- The empty initial filesystem. -/
def fs0 : FS := { dirs := [], ro := [] }

/-- A 64-hex-digit layer id. -/
def idA : String := String.mk (List.replicate 64 'a')

/-- A second 64-hex-digit layer id. -/
def idB : String := String.mk (List.replicate 64 'b')

/-- A tags response resolving to idA. -/
def pIdA : List Char := ("\"" ++ idA ++ "\"").data

/-- An ancestry array holding exactly idA. -/
def pAncA : List Char := ("[\"" ++ idA ++ "\"]").data

/-- An ancestry array holding exactly idB. -/
def pAncB : List Char := ("[\"" ++ idB ++ "\"]").data

/-- An ancestry payload with a trailing comma. -/
def c3Payload : List Char := ("[\"" ++ idA ++ "\",]").data

/-- The session dkr_import_new returns for http://idx.example with the
default image root. -/
def sess0 : DkrImport :=
  { index_url := "http://idx.example", image_root := "/var/lib/machines",
    images_job := none, tags_job := none, ancestry_job := none,
    json_job := none, layer_job := none,
    name := none, tag := none, id := none,
    response_token := none, response_registries := [],
    ancestry := [], n_ancestry := 0, current_ancestry := 0,
    localName := none, force_local := false,
    temp_path := none, final_path := none, tar_pid := 0 }

/-- The result of pulling foo (default tag, no local copy) on sess0. -/
def pull0 : Option Errno × DkrImport × List Obs :=
  dkr_import_pull sess0 "foo" none none false

/-- The configuration after pull0 and a list of events on filesystem fs. -/
def runFrom (fs : FS) (evs : List Ev) : Option (DkrImport × FS × List Obs) :=
  runEvents pull0.2.1 fs pull0.2.2 evs

/-- The same, with a dummy default for failed runs. -/
def cfgOf (fs : FS) (evs : List Ev) : DkrImport × FS × List Obs :=
  (runFrom fs evs).getD (sess0, fs0, [])

/-- The metadata phase shared by the concrete traces: registry header,
images response, tags response resolving idA. -/
def evsMeta : List Ev :=
  [.headerRegistries "reg.example", .jobSucceeded .images [] true,
   .jobSucceeded .tags pIdA true]

/-- Through the ancestry response: the layer request fires while the json
job is still running. -/
def evsC1 : List Ev := evsMeta ++ [.jobSucceeded .ancestry pAncA true]

/-- Through open-disk, with a racing actor creating the final directory
before the layer download finishes. -/
def evsC2 : List Ev :=
  evsMeta ++ [.jobSucceeded .ancestry pAncA true, .openDisk "rnd",
    .externalMkdir (layerPath "/var/lib/machines" idA)]

/-- A full successful pull with json progress arriving after the
DOWNLOADING phase began. -/
def evsC5 : List Ev :=
  [.headerRegistries "reg.example", .jobSucceeded .images [] true,
   .jobSucceeded .tags pIdA true, .jobProgress .json 40,
   .jobSucceeded .ancestry pAncA true, .jobProgress .json 60,
   .jobSucceeded .json [] true, .openDisk "rnd",
   .jobSucceeded .layer [] true]

/-- A filesystem already holding layer idA (a completed earlier pull). -/
def fsC6 : FS :=
  { dirs := [layerPath "/var/lib/machines" idA],
    ro := [layerPath "/var/lib/machines" idA] }

/-- The second pull's metadata with the json response arriving before the
ancestry response: the ancestry completion is then the last outstanding
transfer. -/
def evsC6 : List Ev := evsMeta ++ [.jobSucceeded .json [] true]

/-- Through open-disk only: the tar child is alive, temp_path set. -/
def evsC8w : List Ev :=
  evsMeta ++ [.jobSucceeded .ancestry pAncA true, .openDisk "rnd"]

/-- Through a failed tar extraction: EPROTO is reported with temp_path
still set and no tar child. -/
def evsC8 : List Ev :=
  evsMeta ++ [.jobSucceeded .ancestry pAncA true, .openDisk "rnd",
    .jobSucceeded .layer [] false]


/-! ### Arithmetic and observation helpers -/

theorem nat_div_add_div_le (a b c : Nat) (hc : 0 < c) :
    a / c + b / c ≤ (a + b) / c := by
  rw [Nat.le_div_iff_mul_le hc, Nat.add_mul]
  exact Nat.add_le_add (Nat.div_mul_le_self a c) (Nat.div_mul_le_self b c)

theorem layer_term_le (p n : Nat) (hp : p ≤ 100) :
    p * 75 / max 1 n / 100 ≤ 75 / max 1 n := by
  have h1 : p * 75 / max 1 n / 100 ≤ 7500 / max 1 n / 100 :=
    Nat.div_le_div_right (Nat.div_le_div_right (by omega))
  have h2 : 7500 / max 1 n / 100 = 75 / max 1 n := by
    rw [Nat.div_div_eq_div_mul]
    have h75 : (7500 : Nat) = 100 * 75 := by norm_num
    rw [h75, Nat.mul_comm (max 1 n) 100]
    exact Nat.mul_div_mul_left 75 (max 1 n) (by omega)
  exact h2 ▸ h1

theorem dl_cursor_bound (cur n : Nat) (h : cur ≤ n) :
    75 * cur / max 1 n ≤ 75 := by
  rcases Nat.eq_zero_or_pos n with rfl | hn
  · interval_cases cur
    simp
  · have hmax : max 1 n = n := by omega
    rw [hmax]
    calc 75 * cur / n ≤ 75 * n / n := Nat.div_le_div_right (by omega)
    _ = 75 := Nat.mul_div_cancel 75 hn

theorem dl_progress_le (n cur cur2 p : Nat) (hp : p ≤ 100) (hlt : cur < cur2) :
    75 * cur / max 1 n + p * 75 / max 1 n / 100 ≤ 75 * cur2 / max 1 n := by
  have h1 := layer_term_le p n hp
  have h2 : 75 * cur / max 1 n + 75 / max 1 n ≤ 75 * cur2 / max 1 n := by
    calc 75 * cur / max 1 n + 75 / max 1 n ≤ (75 * cur + 75) / max 1 n :=
          nat_div_add_div_le _ _ _ (by omega)
    _ = 75 * (cur + 1) / max 1 n := by ring_nf
    _ ≤ 75 * cur2 / max 1 n := Nat.div_le_div_right (by omega)
  omega

theorem dl_full_bound (n cur p : Nat) (hcur : cur < n) (hp : p ≤ 100) :
    75 * cur / max 1 n + p * 75 / max 1 n / 100 ≤ 75 := by
  have := dl_progress_le n cur n p hp hcur
  have := dl_cursor_bound n n (le_refl n)
  omega

/-- Observations that carry no report, completion, request or rename
failure. -/
def isPlain : Obs → Bool
  | .progressReport _ _ => false
  | .finishedCb _ => false
  | .request _ _ => false
  | .renameFailed _ _ => false
  | _ => true

theorem plain_obs_spec (o : List Obs) (h : o.all isPlain = true) :
    nonMetaPcts o = [] ∧ metaPcts o = [] ∧ reportsOf o = [] ∧
    aliveB o = true ∧ (∀ jid u, Obs.request jid u ∉ o) ∧
    (∀ s d, Obs.renameFailed s d ∉ o) := by
  induction o with
  | nil => simp [nonMetaPcts, metaPcts, reportsOf, aliveB]
  | cons x o ih =>
    simp only [List.all_cons, Bool.and_eq_true] at h
    obtain ⟨hx, ho⟩ := h
    obtain ⟨h1, h2, h3, h4, h5, h6⟩ := ih ho
    cases x <;> simp [isPlain] at hx <;>
      simp_all [nonMetaPcts, metaPcts, reportsOf, aliveB]

theorem aliveB_append (a b : List Obs) :
    aliveB (a ++ b) = (aliveB a && aliveB b) := List.all_append

theorem nonMetaPcts_append (a b : List Obs) :
    nonMetaPcts (a ++ b) = nonMetaPcts a ++ nonMetaPcts b :=
  List.filterMap_append a b _

theorem metaPcts_append (a b : List Obs) :
    metaPcts (a ++ b) = metaPcts a ++ metaPcts b :=
  List.filterMap_append a b _

theorem reportsOf_append (a b : List Obs) :
    reportsOf (a ++ b) = reportsOf a ++ reportsOf b :=
  List.filterMap_append a b _

/-- Appending a weakly larger tail keeps a percent chain monotone. -/
theorem chain_append_le (a b : List Nat)
    (ha : List.Chain' (· ≤ ·) a) (hb : List.Chain' (· ≤ ·) b)
    (hlink : ∀ y ∈ b.head?, a.getLast?.getD 0 ≤ y) :
    List.Chain' (· ≤ ·) (a ++ b) := by
  apply List.Chain'.append ha hb
  intro x hx y hy
  have := hlink y hy
  rw [hx] at *
  simpa using this

theorem getLast_append_cases (a b : List Nat) :
    (a ++ b).getLast? = if b = [] then a.getLast? else b.getLast? := by
  by_cases hb : b = []
  · subst hb; simp
  · rw [if_neg hb]
    have hs : b.getLast?.isSome := List.getLast?_isSome.mpr hb
    cases hbl : b.getLast? with
    | none => simp [hbl] at hs
    | some x => simp [List.getLast?_append, hbl]

/-! ### Report bounds and component specifications -/

theorem report_searching_le (i : DkrImport) (h : jobPercent i.images_job ≤ 100) :
    dkr_import_report_progress i .DKR_SEARCHING ≤ 5 := by
  simp only [dkr_import_report_progress, Nat.zero_add]
  calc jobPercent i.images_job * 5 / 100 ≤ 500 / 100 :=
        Nat.div_le_div_right (by omega)
  _ = 5 := by norm_num

theorem report_resolving_le (i : DkrImport) (h : jobPercent i.tags_job ≤ 100) :
    dkr_import_report_progress i .DKR_RESOLVING ≤ 10 := by
  simp only [dkr_import_report_progress]
  have : jobPercent i.tags_job * 5 / 100 ≤ 500 / 100 :=
    Nat.div_le_div_right (by omega)
  omega

theorem report_metadata_le (i : DkrImport)
    (h1 : jobPercent i.ancestry_job ≤ 100) (h2 : jobPercent i.json_job ≤ 100) :
    dkr_import_report_progress i .DKR_METADATA ≤ 20 := by
  simp only [dkr_import_report_progress]
  have ha : jobPercent i.ancestry_job * 5 / 100 ≤ 500 / 100 :=
    Nat.div_le_div_right (by omega)
  have hb : jobPercent i.json_job * 5 / 100 ≤ 500 / 100 :=
    Nat.div_le_div_right (by omega)
  omega

theorem report_downloading_le (i : DkrImport)
    (hcur : i.current_ancestry ≤ i.ancestry.length)
    (hn : i.n_ancestry = i.ancestry.length)
    (hl : ∀ j, i.layer_job = some j →
      j.progress_percent ≤ 100 ∧ i.current_ancestry < i.ancestry.length) :
    dkr_import_report_progress i .DKR_DOWNLOADING ≤ 95 := by
  cases hj : i.layer_job with
  | none =>
    simp only [dkr_import_report_progress, hj]
    have := dl_cursor_bound i.current_ancestry i.n_ancestry (by omega)
    omega
  | some j =>
    obtain ⟨hp, hc⟩ := hl j hj
    simp only [dkr_import_report_progress, hj]
    have := dl_full_bound i.n_ancestry i.current_ancestry j.progress_percent
      (by omega) hp
    omega

/-- gFloor is bounded by 95 under the session invariants. -/
theorem gFloor_le_95 (i : DkrImport)
    (hpct : ∀ jid, jobPercent (getJob i jid) ≤ 100)
    (hcur : i.current_ancestry ≤ i.ancestry.length)
    (hn : i.n_ancestry = i.ancestry.length)
    (hl : ∀ j, i.layer_job = some j →
      i.current_ancestry < i.ancestry.length) :
    gFloor i ≤ 95 := by
  unfold gFloor
  split
  · exact report_downloading_le i hcur hn fun j hj =>
      ⟨by have := hpct .layer; simpa [getJob, hj, jobPercent] using this, hl j hj⟩
  · split
    · have := report_resolving_le i (by have := hpct .tags; simpa [getJob] using this)
      omega
    · have := report_searching_le i (by have := hpct .images; simpa [getJob] using this)
      omega

theorem current_layer_some {i : DkrImport} {lay : String}
    (h : dkr_import_current_layer i = some lay) :
    i.current_ancestry < i.ancestry.length ∧
    i.ancestry[i.current_ancestry]? = some lay := by
  unfold dkr_import_current_layer at h
  split at h
  · exact absurd h (by simp)
  · exact ⟨(List.getElem?_eq_some.mp h).1, h⟩

/-- The behaviour of the pull_layer loop. -/
theorem pull_layer_loop_spec :
    ∀ fuel : Nat, ∀ i : DkrImport, ∀ fs : FS,
      i.ancestry.length - i.current_ancestry < fuel →
      ∃ i2 o, dkr_import_pull_layer_loop fuel i fs = (none, i2, o) ∧
        i2 = { i with current_ancestry := i2.current_ancestry,
                      final_path := i2.final_path,
                      layer_job := i2.layer_job } ∧
        i.current_ancestry ≤ i2.current_ancestry ∧
        (i.current_ancestry ≤ i.ancestry.length →
          i2.current_ancestry ≤ i.ancestry.length) ∧
        (i.current_ancestry < i2.current_ancestry →
          ∃ b, i.ancestry[i2.current_ancestry - 1]? = some b ∧
            fs.dirs.contains (layerPath i.image_root b) = true) ∧
        ((o = [] ∧ i2.layer_job = i.layer_job ∧ i2.final_path = i.final_path ∧
           dkr_import_current_layer i2 = none) ∨
         (∃ lay, i.ancestry[i2.current_ancestry]? = some lay ∧
           (fs.dirs.contains (layerPath i.image_root lay)) = false ∧
           i2.final_path = some (layerPath i.image_root lay) ∧
           i2.layer_job = some (newJob (layerUrl i lay)) ∧
           o = [.request .layer (layerUrl i lay)] ∧
           i2.current_ancestry < i.ancestry.length)) := by
  intro fuel
  induction fuel with
  | zero => intro i fs h; omega
  | succ f ih =>
    intro i fs h
    simp only [dkr_import_pull_layer_loop]
    cases hcl : dkr_import_current_layer i with
    | none =>
      refine ⟨i, [], rfl, rfl, le_refl _, fun h2 => h2, ?_, Or.inl ⟨rfl, rfl, rfl, hcl⟩⟩
      intro hlt; omega
    | some lay =>
      obtain ⟨hlt, hget⟩ := current_layer_some hcl
      by_cases hex : fs.dirs.contains (layerPath i.image_root lay) = true
      · simp only [hex, if_true]
        have hfuel : i.ancestry.length - (i.current_ancestry + 1) < f := by omega
        obtain ⟨i2, o, heq, hupd, hmono, hbound, hparent, hdich⟩ :=
          ih { i with current_ancestry := i.current_ancestry + 1 } fs hfuel
        refine ⟨i2, o, heq, ?_, by simpa using Nat.le_of_succ_le hmono, ?_, ?_, ?_⟩
        · rw [hupd]
        · intro _; simpa using hbound (by simpa using hlt)
        · intro hlt2
          by_cases hc2 : i.current_ancestry + 1 < i2.current_ancestry
          · obtain ⟨b, hb1, hb2⟩ := hparent (by simpa using hc2)
            exact ⟨b, by simpa using hb1, by simpa using hb2⟩
          · have hcc : i2.current_ancestry = i.current_ancestry + 1 := by
              simp only at hmono
              omega
            refine ⟨lay, ?_, hex⟩
            rw [hcc]
            simpa using hget
        · rcases hdich with ⟨h1, h2, h3, h4⟩ | ⟨lay2, h1, h2, h3, h4, h5, h6⟩
          · exact Or.inl ⟨h1, h2, by simpa using h3, h4⟩
          · exact Or.inr ⟨lay2, by simpa using h1, by simpa using h2,
              by simpa using h3, by simpa using h4, by simpa using h5,
              by simpa using h6⟩
      · have hex2 : fs.dirs.contains (layerPath i.image_root lay) = false := by
          cases hxx : fs.dirs.contains (layerPath i.image_root lay) with
          | false => rfl
          | true => exact absurd hxx hex
        simp only [hex2, Bool.false_eq_true, if_false]
        refine ⟨_, _, rfl, rfl, le_refl _, fun h2 => h2, ?_, ?_⟩
        · intro hcc; simp at hcc
        · exact Or.inr ⟨lay, hget, hex2, rfl, rfl, rfl, hlt⟩

/-- dkr_import_pull_layer always has enough fuel. -/
theorem pull_layer_spec (i : DkrImport) (fs : FS) :
    ∃ i2 o, dkr_import_pull_layer i fs = (none, i2, o) ∧
      i2 = { i with current_ancestry := i2.current_ancestry,
                    final_path := i2.final_path,
                    layer_job := i2.layer_job } ∧
      i.current_ancestry ≤ i2.current_ancestry ∧
      (i.current_ancestry ≤ i.ancestry.length →
        i2.current_ancestry ≤ i.ancestry.length) ∧
      (i.current_ancestry < i2.current_ancestry →
        ∃ b, i.ancestry[i2.current_ancestry - 1]? = some b ∧
          fs.dirs.contains (layerPath i.image_root b) = true) ∧
      ((o = [] ∧ i2.layer_job = i.layer_job ∧ i2.final_path = i.final_path ∧
         dkr_import_current_layer i2 = none) ∨
       (∃ lay, i.ancestry[i2.current_ancestry]? = some lay ∧
         (fs.dirs.contains (layerPath i.image_root lay)) = false ∧
         i2.final_path = some (layerPath i.image_root lay) ∧
         i2.layer_job = some (newJob (layerUrl i lay)) ∧
         o = [.request .layer (layerUrl i lay)] ∧
         i2.current_ancestry < i.ancestry.length)) :=
  pull_layer_loop_spec (i.ancestry.length + 1) i fs (by omega)

theorem maybe_done_false {i : DkrImport} {fs : FS}
    (h : dkr_import_is_done i = false) :
    dkr_import_maybe_done i fs = (i, fs, []) := by
  simp [dkr_import_maybe_done, h]

theorem make_local_copy_obs (fs : FS) (final root l : String) (force : Bool) :
    ∃ r fs2 o, import_make_local_copy fs final root l force = (r, fs2, o) ∧
      o.all isPlain = true := by
  unfold import_make_local_copy
  split
  · exact ⟨some .ENOENT, fs, [], rfl, rfl⟩
  · split
    · exact ⟨some .EEXIST, fs, [], rfl, rfl⟩
    · exact ⟨none, _, [.localCopy final (localPath root l)], rfl, rfl⟩

theorem dkr_make_local_copy_obs (i : DkrImport) (fs : FS) :
    ∃ r i2 fs2 o, dkr_import_make_local_copy i fs = (r, i2, fs2, o) ∧
      o.all isPlain = true ∧
      i2.images_job = i.images_job ∧ i2.tags_job = i.tags_job ∧
      i2.ancestry_job = i.ancestry_job ∧ i2.json_job = i.json_job ∧
      i2.layer_job = i.layer_job := by
  cases hl : i.localName with
  | none =>
    refine ⟨none, i, fs, [], ?_, rfl, rfl, rfl, rfl, rfl, rfl⟩
    simp [dkr_import_make_local_copy, hl]
  | some l =>
    have hgetD : ∀ X : String,
        ({ i with final_path := some X } : DkrImport).final_path.getD "" = X :=
      fun X => rfl
    by_cases hfp : i.final_path.isNone = true
    · obtain ⟨r, fs2, o, hmk, hplain⟩ := make_local_copy_obs fs
        (layerPath i.image_root (i.id.getD "")) i.image_root l i.force_local
      refine ⟨r, ({ i with final_path := some (layerPath i.image_root (i.id.getD "")) } : DkrImport), fs2, o, ?_, hplain, rfl, rfl, rfl, rfl, rfl⟩
      simp only [dkr_import_make_local_copy, hl, hfp, if_true, hgetD, hmk]
    · obtain ⟨r, fs2, o, hmk, hplain⟩ := make_local_copy_obs fs
        (i.final_path.getD "") i.image_root l i.force_local
      refine ⟨r, i, fs2, o, ?_, hplain, rfl, rfl, rfl, rfl, rfl⟩
      simp only [dkr_import_make_local_copy, hl, hfp, Bool.false_eq_true,
        if_false, hmk]

/-- When the pull is done: one COPYING report at 95, some local-copy
activity, then the completion callback; the job slots are unchanged. -/
theorem maybe_done_done {i : DkrImport} {fs : FS}
    (h : dkr_import_is_done i = true) :
    ∃ i2 fs2 o2 r,
      dkr_import_maybe_done i fs =
        (i2, fs2, Obs.progressReport .DKR_COPYING 95 :: o2 ++
          [.finishedCb r]) ∧
      o2.all isPlain = true ∧
      i2.images_job = i.images_job ∧ i2.tags_job = i.tags_job ∧
      i2.ancestry_job = i.ancestry_job ∧ i2.json_job = i.json_job ∧
      i2.layer_job = i.layer_job := by
  have hrep : progressObs i .DKR_COPYING = Obs.progressReport .DKR_COPYING 95 := rfl
  obtain ⟨r, i2, fs2, o, hmk, hplain, hj1, hj2, hj3, hj4, hj5⟩ :=
    dkr_make_local_copy_obs i fs
  simp only [dkr_import_maybe_done, h, if_true, hrep, hmk]
  cases r with
  | none => exact ⟨i2, fs2, o, none, rfl, hplain, hj1, hj2, hj3, hj4, hj5⟩
  | some e => exact ⟨i2, fs2, o, some e, rfl, hplain, hj1, hj2, hj3, hj4, hj5⟩

/-! ### The session invariant -/

/-- The invariant of reachable pull-session configurations.  Conjuncts
guarded by aliveB hold while the completion callback has not fired (after
it the caller destroys the session). -/
structure Inv (i : DkrImport) (fs : FS) (obs : List Obs) : Prop where
  pct100 : aliveB obs = true → ∀ jid, jobPercent (getJob i jid) ≤ 100
  lenA : aliveB obs = true → i.n_ancestry = i.ancestry.length
  curLe : aliveB obs = true → i.current_ancestry ≤ i.ancestry.length
  obsEmpty : i.images_job = none → obs = [] ∧ i.n_ancestry = 0
  jobsImages : i.tags_job.isSome = true ∨ i.ancestry_job.isSome = true ∨
    i.json_job.isSome = true ∨ i.layer_job.isSome = true →
    i.images_job.isSome = true
  cbImages : (∃ r, Obs.finishedCb r ∈ obs) → i.images_job.isSome = true
  imagesRun : aliveB obs = true → jobRunning i.images_job = true →
    i.tags_job = none ∧ i.ancestry_job = none ∧ i.json_job = none ∧
    i.layer_job = none ∧ i.n_ancestry = 0
  tagsRun : aliveB obs = true → jobRunning i.tags_job = true →
    i.ancestry_job = none ∧ i.json_job = none ∧ i.layer_job = none ∧
    i.n_ancestry = 0
  ancRun : aliveB obs = true → jobRunning i.ancestry_job = true →
    i.layer_job = none ∧ i.n_ancestry = 0
  layerSome : aliveB obs = true → i.layer_job.isSome = true →
    jobDone i.ancestry_job = true ∧ i.n_ancestry ≠ 0 ∧
    i.current_ancestry < i.ancestry.length ∧
    ∃ lay, i.ancestry[i.current_ancestry]? = some lay ∧
      i.final_path = some (layerPath i.image_root lay)
  layerReqAnc : (∃ u, Obs.request .layer u ∈ obs) →
    jobDone i.ancestry_job = true
  tempTar : aliveB obs = true →
    (i.temp_path.isSome = true ↔ 0 < i.tar_pid) ∧
    (i.temp_path.isSome = true → i.layer_job.isSome = true)
  parentIn : aliveB obs = true → i.layer_job.isSome = true →
    0 < i.current_ancestry →
    ∃ b, i.ancestry[i.current_ancestry - 1]? = some b ∧
      fs.dirs.contains (layerPath i.image_root b) = true
  chainNM : List.Chain' (· ≤ ·) (nonMetaPcts obs)
  chainM : List.Chain' (· ≤ ·) (metaPcts obs)
  lastNM : aliveB obs = true → (nonMetaPcts obs).getLast?.getD 0 ≤ gFloor i
  lastM : aliveB obs = true → (metaPcts obs).getLast?.getD 0 ≤ metaFloor i
  lastRep95 : Obs.finishedCb none ∈ obs → noRenameFail obs →
    (reportsOf obs).getLast? = some (.DKR_COPYING, 95)

theorem chains_extend_nil {obs o : List Obs}
    (hNM : List.Chain' (· ≤ ·) (nonMetaPcts obs)) (ho : nonMetaPcts o = []) :
    List.Chain' (· ≤ ·) (nonMetaPcts (obs ++ o)) ∧
    (nonMetaPcts (obs ++ o)).getLast? = (nonMetaPcts obs).getLast? := by
  rw [nonMetaPcts_append, ho, List.append_nil]
  exact ⟨hNM, rfl⟩

theorem chains_extend_nil_m {obs o : List Obs}
    (hM : List.Chain' (· ≤ ·) (metaPcts obs)) (ho : metaPcts o = []) :
    List.Chain' (· ≤ ·) (metaPcts (obs ++ o)) ∧
    (metaPcts (obs ++ o)).getLast? = (metaPcts obs).getLast? := by
  rw [metaPcts_append, ho, List.append_nil]
  exact ⟨hM, rfl⟩

theorem chains_extend_one {obs o : List Obs} {v : Nat}
    (hNM : List.Chain' (· ≤ ·) (nonMetaPcts obs)) (ho : nonMetaPcts o = [v])
    (hge : (nonMetaPcts obs).getLast?.getD 0 ≤ v) :
    List.Chain' (· ≤ ·) (nonMetaPcts (obs ++ o)) ∧
    (nonMetaPcts (obs ++ o)).getLast? = some v := by
  rw [nonMetaPcts_append, ho]
  refine ⟨chain_append_le _ _ hNM (by simp) ?_, ?_⟩
  · intro y hy
    simp at hy
    omega
  · rw [getLast_append_cases]
    simp

theorem chains_extend_one_m {obs o : List Obs} {v : Nat}
    (hM : List.Chain' (· ≤ ·) (metaPcts obs)) (ho : metaPcts o = [v])
    (hge : (metaPcts obs).getLast?.getD 0 ≤ v) :
    List.Chain' (· ≤ ·) (metaPcts (obs ++ o)) ∧
    (metaPcts (obs ++ o)).getLast? = some v := by
  rw [metaPcts_append, ho]
  refine ⟨chain_append_le _ _ hM (by simp) ?_, ?_⟩
  · intro y hy
    simp at hy
    omega
  · rw [getLast_append_cases]
    simp

theorem inv_step_headerToken {i : DkrImport} {fs : FS} {obs : List Obs}
    {tok : String} (hInv : Inv i fs obs) (halive : aliveB obs = true)
    (hok : evOK i fs (.headerToken tok) = true) :
    Inv { i with response_token := some tok } fs (obs ++ []) := by
  rw [List.append_nil]
  obtain ⟨p1, p2, p3, p4, p5, p6, p7, p8, p9, p10, p11, p12, p13, p14, p15,
    p16, p17, p18⟩ := hInv
  exact ⟨p1, p2, p3, p4, p5, p6, p7, p8, p9, p10, p11, p12, p13, p14, p15,
    p16, p17, p18⟩

theorem inv_step_external {i : DkrImport} {fs : FS} {obs : List Obs}
    {p : String} (hInv : Inv i fs obs) (halive : aliveB obs = true) :
    Inv i { fs with dirs := p :: fs.dirs } (obs ++ []) := by
  rw [List.append_nil]
  obtain ⟨p1, p2, p3, p4, p5, p6, p7, p8, p9, p10, p11, p12, p13, p14, p15,
    p16, p17, p18⟩ := hInv
  refine ⟨p1, p2, p3, p4, p5, p6, p7, p8, p9, p10, p11, p12, ?_, p14, p15,
    p16, p17, p18⟩
  intro ha hl hc
  obtain ⟨b, hb1, hb2⟩ := p13 ha hl hc
  refine ⟨b, hb1, ?_⟩
  simp only [List.contains_cons, hb2, Bool.or_true]

theorem alive_no_cb {obs : List Obs} (h : aliveB obs = true)
    (r : Option Errno) : Obs.finishedCb r ∉ obs := by
  intro hm
  have := List.all_eq_true.mp h _ hm
  simp at this

theorem setJob_other (i : DkrImport) (jid : JobId) (j : Option ImportJob) :
    ∀ jid2, jid2 ≠ jid → getJob (setJob i jid j) jid2 = getJob i jid2 := by
  intro jid2 hne
  cases jid <;> cases jid2 <;> simp_all [setJob, getJob]

theorem setJob_same (i : DkrImport) (jid : JobId) (j : Option ImportJob) :
    getJob (setJob i jid j) jid = j := by
  cases jid <;> simp [setJob, getJob]

theorem setJobState_isSome (oj : Option ImportJob) (st : JobState) :
    (setJobState oj st).isSome = oj.isSome := by
  cases oj <;> simp [setJobState]

theorem setJob_fields (i : DkrImport) (jid : JobId) (j : Option ImportJob) :
    (setJob i jid j).ancestry = i.ancestry ∧
    (setJob i jid j).n_ancestry = i.n_ancestry ∧
    (setJob i jid j).current_ancestry = i.current_ancestry ∧
    (setJob i jid j).temp_path = i.temp_path ∧
    (setJob i jid j).final_path = i.final_path ∧
    (setJob i jid j).tar_pid = i.tar_pid ∧
    (setJob i jid j).image_root = i.image_root ∧
    (setJob i jid j).localName = i.localName := by
  cases jid <;> exact ⟨rfl, rfl, rfl, rfl, rfl, rfl, rfl, rfl⟩

theorem jobRunning_not_done {oj : Option ImportJob}
    (h1 : jobRunning oj = true) (h2 : jobDone oj = true) : False := by
  cases oj with
  | none => simp [jobRunning] at h1
  | some j =>
    simp [jobRunning] at h1
    simp [jobDone] at h2
    rw [h1] at h2
    exact JobState.noConfusion h2

theorem jobRunning_isSome {oj : Option ImportJob}
    (h : jobRunning oj = true) : oj.isSome = true := by
  cases oj with
  | none => simp [jobRunning] at h
  | some j => rfl

/-- A step whose observations end the session (a completion callback is
among them) preserves the invariant as soon as the unguarded conjuncts are
re-established. -/
theorem inv_dead_step {i2 : DkrImport} {fs2 : FS} {obs o : List Obs}
    (hdead : aliveB o = false)
    (himg : i2.images_job.isSome = true)
    (hreq : (∃ u, Obs.request .layer u ∈ obs ++ o) →
      jobDone i2.ancestry_job = true)
    (hNM : List.Chain' (· ≤ ·) (nonMetaPcts (obs ++ o)))
    (hM : List.Chain' (· ≤ ·) (metaPcts (obs ++ o)))
    (h95 : Obs.finishedCb none ∈ obs ++ o → noRenameFail (obs ++ o) →
      (reportsOf (obs ++ o)).getLast? = some (.DKR_COPYING, 95)) :
    Inv i2 fs2 (obs ++ o) := by
  have hdead2 : aliveB (obs ++ o) = false := by
    rw [aliveB_append, hdead]
    simp
  refine ⟨?_, ?_, ?_, ?_, ?_, ?_, ?_, ?_, ?_, ?_, hreq, ?_, ?_, hNM, hM,
    ?_, ?_, h95⟩
  · intro ha; rw [hdead2] at ha; exact absurd ha (by simp)
  · intro ha; rw [hdead2] at ha; exact absurd ha (by simp)
  · intro ha; rw [hdead2] at ha; exact absurd ha (by simp)
  · intro hni; rw [hni] at himg; exact absurd himg (by simp)
  · intro _; exact himg
  · intro _; exact himg
  · intro ha; rw [hdead2] at ha; exact absurd ha (by simp)
  · intro ha; rw [hdead2] at ha; exact absurd ha (by simp)
  · intro ha; rw [hdead2] at ha; exact absurd ha (by simp)
  · intro ha; rw [hdead2] at ha; exact absurd ha (by simp)
  · intro ha; rw [hdead2] at ha; exact absurd ha (by simp)
  · intro ha; rw [hdead2] at ha; exact absurd ha (by simp)
  · intro ha; rw [hdead2] at ha; exact absurd ha (by simp)
  · intro ha; rw [hdead2] at ha; exact absurd ha (by simp)

theorem inv_step_jobFailed {i : DkrImport} {fs : FS} {obs : List Obs}
    {jid : JobId} {err : Errno} (hInv : Inv i fs obs)
    (halive : aliveB obs = true)
    (hok : evOK i fs (.jobFailed jid err) = true) :
    Inv (setJob i jid (setJobState (getJob i jid) .failed)) fs
      (obs ++ [.finishedCb (some err)]) := by
  have hrun : jobRunning (getJob i jid) = true := by simpa [evOK] using hok
  have hsome := jobRunning_isSome hrun
  set i2 := setJob i jid (setJobState (getJob i jid) .failed) with hi2
  have himg : i2.images_job.isSome = true := by
    cases jid with
    | images =>
      have h1 := setJob_same i .images (setJobState (getJob i .images) .failed)
      have : i2.images_job = setJobState (getJob i .images) .failed := h1
      rw [this, setJobState_isSome]
      exact hsome
    | tags =>
      have : i2.images_job = i.images_job :=
        setJob_other i .tags _ .images (by simp)
      rw [this]
      exact hInv.jobsImages (Or.inl hsome)
    | ancestry =>
      have : i2.images_job = i.images_job :=
        setJob_other i .ancestry _ .images (by simp)
      rw [this]
      exact hInv.jobsImages (Or.inr (Or.inl hsome))
    | json =>
      have : i2.images_job = i.images_job :=
        setJob_other i .json _ .images (by simp)
      rw [this]
      exact hInv.jobsImages (Or.inr (Or.inr (Or.inl hsome)))
    | layer =>
      have : i2.images_job = i.images_job :=
        setJob_other i .layer _ .images (by simp)
      rw [this]
      exact hInv.jobsImages (Or.inr (Or.inr (Or.inr hsome)))
  apply inv_dead_step (by simp [aliveB]) himg
  · rintro ⟨u, hu⟩
    have hu2 : Obs.request .layer u ∈ obs := by
      rcases List.mem_append.mp hu with h2 | h2
      · exact h2
      · simp at h2
    have hanc := hInv.layerReqAnc ⟨u, hu2⟩
    cases jid with
    | ancestry => exact absurd hanc (fun h2 => jobRunning_not_done hrun h2)
    | images =>
      have heq : i2.ancestry_job = i.ancestry_job :=
        setJob_other i .images _ .ancestry (by simp)
      rw [heq]; exact hanc
    | tags =>
      have heq : i2.ancestry_job = i.ancestry_job :=
        setJob_other i .tags _ .ancestry (by simp)
      rw [heq]; exact hanc
    | json =>
      have heq : i2.ancestry_job = i.ancestry_job :=
        setJob_other i .json _ .ancestry (by simp)
      rw [heq]; exact hanc
    | layer =>
      have heq : i2.ancestry_job = i.ancestry_job :=
        setJob_other i .layer _ .ancestry (by simp)
      rw [heq]; exact hanc
  · exact (chains_extend_nil hInv.chainNM (by simp [nonMetaPcts])).1
  · exact (chains_extend_nil_m hInv.chainM (by simp [metaPcts])).1
  · intro hcb
    exfalso
    rcases List.mem_append.mp hcb with h2 | h2
    · exact alive_no_cb halive none h2
    · simp at h2

theorem inv_step_headerRegistries {i : DkrImport} {fs : FS} {obs : List Obs}
    {raw : String} (hInv : Inv i fs obs) (halive : aliveB obs = true)
    (hok : evOK i fs (.headerRegistries raw) = true) :
    Inv (handleEvent i fs (.headerRegistries raw)).1
      (handleEvent i fs (.headerRegistries raw)).2.1
      (obs ++ (handleEvent i fs (.headerRegistries raw)).2.2) := by
  have hrun : jobRunning i.images_job = true := by simpa [evOK] using hok
  simp only [handleEvent]
  by_cases hval : (strv_split_comma raw).all hostname_is_valid = true
  · simp only [hval, if_true]
    rw [List.append_nil]
    obtain ⟨p1, p2, p3, p4, p5, p6, p7, p8, p9, p10, p11, p12, p13, p14,
      p15, p16, p17, p18⟩ := hInv
    exact ⟨p1, p2, p3, p4, p5, p6, p7, p8, p9, p10, p11, p12, p13, p14,
      p15, p16, p17, p18⟩
  · simp only [hval, Bool.false_eq_true, if_false]
    apply inv_dead_step (by simp [aliveB])
    · rw [show ({ i with images_job := setJobState i.images_job .failed } :
        DkrImport).images_job = setJobState i.images_job .failed from rfl,
        setJobState_isSome]
      exact jobRunning_isSome hrun
    · rintro ⟨u, hu⟩
      have hu2 : Obs.request .layer u ∈ obs := by
        rcases List.mem_append.mp hu with h2 | h2
        · exact h2
        · simp at h2
      exact hInv.layerReqAnc ⟨u, hu2⟩
    · exact (chains_extend_nil hInv.chainNM (by simp [nonMetaPcts])).1
    · exact (chains_extend_nil_m hInv.chainM (by simp [metaPcts])).1
    · intro hcb
      exfalso
      rcases List.mem_append.mp hcb with h2 | h2
      · exact alive_no_cb halive none h2
      · simp at h2

theorem jobRunning_setJobPercent (oj : Option ImportJob) (pct : Nat) :
    jobRunning (setJobPercent oj pct) = jobRunning oj := by
  cases oj <;> simp [jobRunning, setJobPercent]

theorem aliveB_report (obs : List Obs) (ph : DkrProgress) (v : Nat) :
    aliveB (obs ++ [Obs.progressReport ph v]) = aliveB obs := by
  rw [aliveB_append]
  simp [aliveB]

theorem pct_term_mono (a b k m : Nat) (h : a ≤ b) : a * k / m ≤ b * k / m :=
  Nat.div_le_div_right (Nat.mul_le_mul_right k h)

theorem no_cb_in_report {obs : List Obs} {ph : DkrProgress} {v : Nat}
    {r : Option Errno} (halive : aliveB obs = true)
    (h : Obs.finishedCb r ∈ obs ++ [Obs.progressReport ph v]) : False := by
  rcases List.mem_append.mp h with h2 | h2
  · exact alive_no_cb halive r h2
  · simp at h2

theorem req_of_mem_report {obs : List Obs} {ph : DkrProgress} {v : Nat}
    {jid : JobId} {u : String}
    (h : Obs.request jid u ∈ obs ++ [Obs.progressReport ph v]) :
    Obs.request jid u ∈ obs := by
  rcases List.mem_append.mp h with h2 | h2
  · exact h2
  · simp at h2

theorem jobPercent_some (j : ImportJob) :
    jobPercent (some j) = j.progress_percent := rfl

theorem inv_step_progress {i : DkrImport} {fs : FS} {obs : List Obs}
    {jid : JobId} {pct : Nat} (hInv : Inv i fs obs)
    (halive : aliveB obs = true)
    (hok : evOK i fs (.jobProgress jid pct) = true) :
    Inv (handleEvent i fs (.jobProgress jid pct)).1
      (handleEvent i fs (.jobProgress jid pct)).2.1
      (obs ++ (handleEvent i fs (.jobProgress jid pct)).2.2) := by
  have hpct := hInv.pct100 halive
  cases jid with
  | images =>
    obtain ⟨j, hj, hjrun, hjle, hple⟩ :
        ∃ j, i.images_job = some j ∧ j.state = .running ∧
          j.progress_percent ≤ pct ∧ pct ≤ 100 := by
      simp only [evOK, getJob] at hok
      cases hgj : i.images_job with
      | none => rw [hgj] at hok; simp at hok
      | some j =>
        rw [hgj] at hok; simp at hok
        exact ⟨j, rfl, hok.1.1, hok.1.2, hok.2⟩
    obtain ⟨ht0, ha0, hjs0, hl0, hn0⟩ := hInv.imagesRun halive
      (by simp [jobRunning, hj, hjrun])
    have hred : handleEvent i fs (.jobProgress .images pct) =
        ({ i with images_job := some { j with progress_percent := pct } }, fs,
         [Obs.progressReport .DKR_SEARCHING (pct * 5 / 100)]) := by
      simp [handleEvent, setJob, getJob, hj, setJobPercent, progressObs,
        dkr_import_report_progress, jobPercent]
    rw [hred]
    have hgf : gFloor i = j.progress_percent * 5 / 100 := by
      simp [gFloor, hn0, ht0, dkr_import_report_progress, hj, jobPercent]
    have hge : (nonMetaPcts obs).getLast?.getD 0 ≤ pct * 5 / 100 := by
      have := hInv.lastNM halive
      have h2 := pct_term_mono j.progress_percent pct 5 100 hjle
      omega
    have hch := chains_extend_one hInv.chainNM
      (show nonMetaPcts [Obs.progressReport .DKR_SEARCHING (pct * 5 / 100)] =
        [pct * 5 / 100] by simp [nonMetaPcts]) hge
    have hchm := chains_extend_nil_m hInv.chainM
      (show metaPcts [Obs.progressReport .DKR_SEARCHING (pct * 5 / 100)] = []
        by simp [metaPcts])
    refine ⟨?_, ?_, ?_, ?_, ?_, ?_, ?_, ?_, ?_, ?_, ?_, ?_, ?_, hch.1,
      hchm.1, ?_, ?_, ?_⟩
    · intro _ jid2
      cases jid2 with
      | images => simpa [getJob, jobPercent] using hple
      | tags => exact hpct .tags
      | ancestry => exact hpct .ancestry
      | json => exact hpct .json
      | layer => exact hpct .layer
    · intro _; exact hInv.lenA halive
    · intro _; exact hInv.curLe halive
    · intro hni; exfalso; simp at hni
    · intro _; rfl
    · intro _; rfl
    · intro _ _; exact ⟨ht0, ha0, hjs0, hl0, hn0⟩
    · intro _ h2; exfalso; simp [ht0, jobRunning] at h2
    · intro _ h2; exfalso; simp [ha0, jobRunning] at h2
    · intro _ h2; exfalso; simp [hl0] at h2
    · rintro ⟨u, hu⟩
      exact hInv.layerReqAnc ⟨u, req_of_mem_report hu⟩
    · intro _; exact hInv.tempTar halive
    · intro _ h2 h3; exact hInv.parentIn halive h2 h3
    · intro _
      rw [hch.2]
      have : gFloor { i with images_job := some { j with progress_percent := pct } } =
          pct * 5 / 100 := by
        simp [gFloor, hn0, ht0, dkr_import_report_progress, jobPercent]
      rw [this]
      simp
    · intro _
      rw [hchm.2]
      exact hInv.lastM halive
    · intro hcb; exact absurd hcb fun h2 => no_cb_in_report halive h2
  | tags =>
    obtain ⟨j, hj, hjrun, hjle, hple⟩ :
        ∃ j, i.tags_job = some j ∧ j.state = .running ∧
          j.progress_percent ≤ pct ∧ pct ≤ 100 := by
      simp only [evOK, getJob] at hok
      cases hgj : i.tags_job with
      | none => rw [hgj] at hok; simp at hok
      | some j =>
        rw [hgj] at hok; simp at hok
        exact ⟨j, rfl, hok.1.1, hok.1.2, hok.2⟩
    obtain ⟨ha0, hjs0, hl0, hn0⟩ := hInv.tagsRun halive
      (by simp [jobRunning, hj, hjrun])
    have hred : handleEvent i fs (.jobProgress .tags pct) =
        ({ i with tags_job := some { j with progress_percent := pct } }, fs,
         [Obs.progressReport .DKR_RESOLVING (5 + pct * 5 / 100)]) := by
      simp [handleEvent, setJob, getJob, hj, setJobPercent, progressObs,
        dkr_import_report_progress, jobPercent]
    rw [hred]
    have hgf : gFloor i = 5 + j.progress_percent * 5 / 100 := by
      simp [gFloor, hn0, hj, dkr_import_report_progress, jobPercent]
    have hge : (nonMetaPcts obs).getLast?.getD 0 ≤ 5 + pct * 5 / 100 := by
      have := hInv.lastNM halive
      have h2 := pct_term_mono j.progress_percent pct 5 100 hjle
      omega
    have hch := chains_extend_one hInv.chainNM
      (show nonMetaPcts [Obs.progressReport .DKR_RESOLVING (5 + pct * 5 / 100)] =
        [5 + pct * 5 / 100] by simp [nonMetaPcts]) hge
    have hchm := chains_extend_nil_m hInv.chainM
      (show metaPcts [Obs.progressReport .DKR_RESOLVING (5 + pct * 5 / 100)] = []
        by simp [metaPcts])
    refine ⟨?_, ?_, ?_, ?_, ?_, ?_, ?_, ?_, ?_, ?_, ?_, ?_, ?_, hch.1,
      hchm.1, ?_, ?_, ?_⟩
    · intro _ jid2
      cases jid2 with
      | tags => simpa [getJob, jobPercent] using hple
      | images => exact hpct .images
      | ancestry => exact hpct .ancestry
      | json => exact hpct .json
      | layer => exact hpct .layer
    · intro _; exact hInv.lenA halive
    · intro _; exact hInv.curLe halive
    · intro hni
      exfalso
      have himg2 := hInv.jobsImages (Or.inl (by simp [hj]))
      have hni2 : i.images_job = none := hni
      rw [hni2] at himg2
      simp at himg2
    · intro _; exact hInv.jobsImages (Or.inl (by simp [hj]))
    · intro _; exact hInv.jobsImages (Or.inl (by simp [hj]))
    · intro _ h2
      exfalso
      obtain ⟨hc, -⟩ := hInv.imagesRun halive h2
      rw [hj] at hc
      exact Option.noConfusion hc
    · intro _ _; exact ⟨ha0, hjs0, hl0, hn0⟩
    · intro _ h2; exfalso; simp [ha0, jobRunning] at h2
    · intro _ h2; exfalso; simp [hl0] at h2
    · rintro ⟨u, hu⟩
      exact hInv.layerReqAnc ⟨u, req_of_mem_report hu⟩
    · intro _; exact hInv.tempTar halive
    · intro _ h2 h3; exact hInv.parentIn halive h2 h3
    · intro _
      rw [hch.2]
      have : gFloor { i with tags_job := some { j with progress_percent := pct } } =
          5 + pct * 5 / 100 := by
        simp [gFloor, hn0, dkr_import_report_progress, jobPercent]
      rw [this]
      simp
    · intro _
      rw [hchm.2]
      exact hInv.lastM halive
    · intro hcb; exact absurd hcb fun h2 => no_cb_in_report halive h2
  | ancestry =>
    obtain ⟨j, hj, hjrun, hjle, hple⟩ :
        ∃ j, i.ancestry_job = some j ∧ j.state = .running ∧
          j.progress_percent ≤ pct ∧ pct ≤ 100 := by
      simp only [evOK, getJob] at hok
      cases hgj : i.ancestry_job with
      | none => rw [hgj] at hok; simp at hok
      | some j =>
        rw [hgj] at hok; simp at hok
        exact ⟨j, rfl, hok.1.1, hok.1.2, hok.2⟩
    obtain ⟨hl0, hn0⟩ := hInv.ancRun halive (by simp [jobRunning, hj, hjrun])
    have hred : handleEvent i fs (.jobProgress .ancestry pct) =
        ({ i with ancestry_job := some { j with progress_percent := pct } }, fs,
         [Obs.progressReport .DKR_METADATA
           (10 + pct * 5 / 100 + jobPercent i.json_job * 5 / 100)]) := by
      simp [handleEvent, setJob, getJob, hj, setJobPercent, progressObs,
        dkr_import_report_progress, jobPercent]
    rw [hred]
    have hge : (metaPcts obs).getLast?.getD 0 ≤
        10 + pct * 5 / 100 + jobPercent i.json_job * 5 / 100 := by
      have := hInv.lastM halive
      have h2 := pct_term_mono j.progress_percent pct 5 100 hjle
      simp only [metaFloor, dkr_import_report_progress, hj, jobPercent_some] at this
      omega
    have hch := chains_extend_nil hInv.chainNM
      (show nonMetaPcts [Obs.progressReport .DKR_METADATA
        (10 + pct * 5 / 100 + jobPercent i.json_job * 5 / 100)] = []
        by simp [nonMetaPcts])
    have hchm := chains_extend_one_m hInv.chainM
      (show metaPcts [Obs.progressReport .DKR_METADATA
        (10 + pct * 5 / 100 + jobPercent i.json_job * 5 / 100)] =
        [10 + pct * 5 / 100 + jobPercent i.json_job * 5 / 100]
        by simp [metaPcts]) hge
    refine ⟨?_, ?_, ?_, ?_, ?_, ?_, ?_, ?_, ?_, ?_, ?_, ?_, ?_, hch.1,
      hchm.1, ?_, ?_, ?_⟩
    · intro _ jid2
      cases jid2 with
      | ancestry => simpa [getJob, jobPercent] using hple
      | images => exact hpct .images
      | tags => exact hpct .tags
      | json => exact hpct .json
      | layer => exact hpct .layer
    · intro _; exact hInv.lenA halive
    · intro _; exact hInv.curLe halive
    · intro hni
      exfalso
      have himg2 := hInv.jobsImages (Or.inr (Or.inl (by simp [hj])))
      have hni2 : i.images_job = none := hni
      rw [hni2] at himg2
      simp at himg2
    · intro _; exact hInv.jobsImages (Or.inr (Or.inl (by simp [hj])))
    · intro _; exact hInv.jobsImages (Or.inr (Or.inl (by simp [hj])))
    · intro _ h2
      exfalso
      obtain ⟨-, hc, -⟩ := hInv.imagesRun halive h2
      rw [hj] at hc
      exact Option.noConfusion hc
    · intro _ h2
      exfalso
      obtain ⟨hc, -⟩ := hInv.tagsRun halive h2
      rw [hj] at hc
      exact Option.noConfusion hc
    · intro _ h2; exact ⟨hl0, hn0⟩
    · intro _ h2; exfalso; simp [hl0] at h2
    · rintro ⟨u, hu⟩
      exfalso
      have hanc := hInv.layerReqAnc ⟨u, req_of_mem_report hu⟩
      rw [hj] at hanc
      simp [jobDone, hjrun] at hanc
    · intro _; exact hInv.tempTar halive
    · intro _ h2 h3; exact hInv.parentIn halive h2 h3
    · intro _
      rw [hch.2]
      exact hInv.lastNM halive
    · intro _
      rw [hchm.2]
      simp [metaFloor, dkr_import_report_progress, jobPercent]
    · intro hcb; exact absurd hcb fun h2 => no_cb_in_report halive h2
  | json =>
    obtain ⟨j, hj, hjrun, hjle, hple⟩ :
        ∃ j, i.json_job = some j ∧ j.state = .running ∧
          j.progress_percent ≤ pct ∧ pct ≤ 100 := by
      simp only [evOK, getJob] at hok
      cases hgj : i.json_job with
      | none => rw [hgj] at hok; simp at hok
      | some j =>
        rw [hgj] at hok; simp at hok
        exact ⟨j, rfl, hok.1.1, hok.1.2, hok.2⟩
    have hred : handleEvent i fs (.jobProgress .json pct) =
        ({ i with json_job := some { j with progress_percent := pct } }, fs,
         [Obs.progressReport .DKR_METADATA
           (10 + jobPercent i.ancestry_job * 5 / 100 + pct * 5 / 100)]) := by
      simp [handleEvent, setJob, getJob, hj, setJobPercent, progressObs,
        dkr_import_report_progress, jobPercent]
    rw [hred]
    have hge : (metaPcts obs).getLast?.getD 0 ≤
        10 + jobPercent i.ancestry_job * 5 / 100 + pct * 5 / 100 := by
      have := hInv.lastM halive
      have h2 := pct_term_mono j.progress_percent pct 5 100 hjle
      simp only [metaFloor, dkr_import_report_progress, hj, jobPercent_some] at this
      omega
    have hch := chains_extend_nil hInv.chainNM
      (show nonMetaPcts [Obs.progressReport .DKR_METADATA
        (10 + jobPercent i.ancestry_job * 5 / 100 + pct * 5 / 100)] = []
        by simp [nonMetaPcts])
    have hchm := chains_extend_one_m hInv.chainM
      (show metaPcts [Obs.progressReport .DKR_METADATA
        (10 + jobPercent i.ancestry_job * 5 / 100 + pct * 5 / 100)] =
        [10 + jobPercent i.ancestry_job * 5 / 100 + pct * 5 / 100]
        by simp [metaPcts]) hge
    refine ⟨?_, ?_, ?_, ?_, ?_, ?_, ?_, ?_, ?_, ?_, ?_, ?_, ?_, hch.1,
      hchm.1, ?_, ?_, ?_⟩
    · intro _ jid2
      cases jid2 with
      | json => simpa [getJob, jobPercent] using hple
      | images => exact hpct .images
      | tags => exact hpct .tags
      | ancestry => exact hpct .ancestry
      | layer => exact hpct .layer
    · intro _; exact hInv.lenA halive
    · intro _; exact hInv.curLe halive
    · intro hni
      exfalso
      have himg2 := hInv.jobsImages (Or.inr (Or.inr (Or.inl (by simp [hj]))))
      have hni2 : i.images_job = none := hni
      rw [hni2] at himg2
      simp at himg2
    · intro _; exact hInv.jobsImages (Or.inr (Or.inr (Or.inl (by simp [hj]))))
    · intro _; exact hInv.jobsImages (Or.inr (Or.inr (Or.inl (by simp [hj]))))
    · intro _ h2
      exfalso
      obtain ⟨-, -, hc, -⟩ := hInv.imagesRun halive h2
      rw [hj] at hc
      exact Option.noConfusion hc
    · intro _ h2
      exfalso
      obtain ⟨-, hc, -⟩ := hInv.tagsRun halive h2
      rw [hj] at hc
      exact Option.noConfusion hc
    · intro _ h2; exact hInv.ancRun halive h2
    · intro _ h2; exact hInv.layerSome halive h2
    · rintro ⟨u, hu⟩
      exact hInv.layerReqAnc ⟨u, req_of_mem_report hu⟩
    · intro _; exact hInv.tempTar halive
    · intro _ h2 h3; exact hInv.parentIn halive h2 h3
    · intro _
      rw [hch.2]
      exact hInv.lastNM halive
    · intro _
      rw [hchm.2]
      simp [metaFloor, dkr_import_report_progress, jobPercent]
    · intro hcb; exact absurd hcb fun h2 => no_cb_in_report halive h2
  | layer =>
    obtain ⟨j, hj, hjrun, hjle, hple⟩ :
        ∃ j, i.layer_job = some j ∧ j.state = .running ∧
          j.progress_percent ≤ pct ∧ pct ≤ 100 := by
      simp only [evOK, getJob] at hok
      cases hgj : i.layer_job with
      | none => rw [hgj] at hok; simp at hok
      | some j =>
        rw [hgj] at hok; simp at hok
        exact ⟨j, rfl, hok.1.1, hok.1.2, hok.2⟩
    obtain ⟨hancd, hn0, hclt, lay, hlay, hfp⟩ := hInv.layerSome halive (by simp [hj])
    have hred : handleEvent i fs (.jobProgress .layer pct) =
        ({ i with layer_job := some { j with progress_percent := pct } }, fs,
         [Obs.progressReport .DKR_DOWNLOADING
           (20 + 75 * i.current_ancestry / max 1 i.n_ancestry +
             pct * 75 / max 1 i.n_ancestry / 100)]) := by
      simp [handleEvent, setJob, getJob, hj, setJobPercent, progressObs,
        dkr_import_report_progress, jobPercent]
    rw [hred]
    have hge : (nonMetaPcts obs).getLast?.getD 0 ≤
        20 + 75 * i.current_ancestry / max 1 i.n_ancestry +
          pct * 75 / max 1 i.n_ancestry / 100 := by
      have := hInv.lastNM halive
      simp only [gFloor, hn0, if_true, ne_eq, not_false_iff,
        dkr_import_report_progress, hj] at this
      have h2 : j.progress_percent * 75 / max 1 i.n_ancestry / 100 ≤
          pct * 75 / max 1 i.n_ancestry / 100 :=
        Nat.div_le_div_right (pct_term_mono _ _ _ _ hjle)
      omega
    have hch := chains_extend_one hInv.chainNM
      (show nonMetaPcts [Obs.progressReport .DKR_DOWNLOADING
        (20 + 75 * i.current_ancestry / max 1 i.n_ancestry +
          pct * 75 / max 1 i.n_ancestry / 100)] =
        [20 + 75 * i.current_ancestry / max 1 i.n_ancestry +
          pct * 75 / max 1 i.n_ancestry / 100] by simp [nonMetaPcts]) hge
    have hchm := chains_extend_nil_m hInv.chainM
      (show metaPcts [Obs.progressReport .DKR_DOWNLOADING
        (20 + 75 * i.current_ancestry / max 1 i.n_ancestry +
          pct * 75 / max 1 i.n_ancestry / 100)] = [] by simp [metaPcts])
    refine ⟨?_, ?_, ?_, ?_, ?_, ?_, ?_, ?_, ?_, ?_, ?_, ?_, ?_, hch.1,
      hchm.1, ?_, ?_, ?_⟩
    · intro _ jid2
      cases jid2 with
      | layer => simpa [getJob, jobPercent] using hple
      | images => exact hpct .images
      | tags => exact hpct .tags
      | ancestry => exact hpct .ancestry
      | json => exact hpct .json
    · intro _; exact hInv.lenA halive
    · intro _; exact hInv.curLe halive
    · intro hni
      exfalso
      have himg2 := hInv.jobsImages (Or.inr (Or.inr (Or.inr (by simp [hj]))))
      have hni2 : i.images_job = none := hni
      rw [hni2] at himg2
      simp at himg2
    · intro _; exact hInv.jobsImages (Or.inr (Or.inr (Or.inr (by simp [hj]))))
    · intro _; exact hInv.jobsImages (Or.inr (Or.inr (Or.inr (by simp [hj]))))
    · intro _ h2
      exfalso
      obtain ⟨-, -, -, hc, -⟩ := hInv.imagesRun halive h2
      rw [hj] at hc
      exact Option.noConfusion hc
    · intro _ h2
      exfalso
      obtain ⟨-, -, hc, -⟩ := hInv.tagsRun halive h2
      rw [hj] at hc
      exact Option.noConfusion hc
    · intro _ h2
      exfalso
      obtain ⟨hc, -⟩ := hInv.ancRun halive h2
      rw [hj] at hc
      exact Option.noConfusion hc
    · intro _ _; exact ⟨hancd, hn0, hclt, lay, hlay, hfp⟩
    · rintro ⟨u, hu⟩
      exact hInv.layerReqAnc ⟨u, req_of_mem_report hu⟩
    · intro _
      have := hInv.tempTar halive
      exact ⟨this.1, fun _ => rfl⟩
    · intro _ _ h3
      exact hInv.parentIn halive (by simp [hj]) h3
    · intro _
      rw [hch.2]
      have : gFloor { i with layer_job := some { j with progress_percent := pct } } =
          20 + 75 * i.current_ancestry / max 1 i.n_ancestry +
            pct * 75 / max 1 i.n_ancestry / 100 := by
        simp [gFloor, hn0, dkr_import_report_progress, jobPercent]
      rw [this]
      simp
    · intro _
      rw [hchm.2]
      exact hInv.lastM halive
    · intro hcb; exact absurd hcb fun h2 => no_cb_in_report halive h2

theorem no_cb_in_plain {obs o : List Obs} {r : Option Errno}
    (halive : aliveB obs = true) (hpl : o.all isPlain = true)
    (h : Obs.finishedCb r ∈ obs ++ o) : False := by
  rcases List.mem_append.mp h with h2 | h2
  · exact alive_no_cb halive r h2
  · have := List.all_eq_true.mp hpl _ h2
    simp [isPlain] at this

theorem req_of_mem_plain {obs o : List Obs} {jid : JobId} {u : String}
    (hpl : o.all isPlain = true) (h : Obs.request jid u ∈ obs ++ o) :
    Obs.request jid u ∈ obs := by
  rcases List.mem_append.mp h with h2 | h2
  · exact h2
  · have := List.all_eq_true.mp hpl _ h2
    simp [isPlain] at this

theorem aliveB_append_plain {obs o : List Obs} (hpl : o.all isPlain = true) :
    aliveB (obs ++ o) = aliveB obs := by
  rw [aliveB_append, (plain_obs_spec o hpl).2.2.2.1, Bool.and_true]

theorem inv_step_openDisk {i : DkrImport} {fs : FS} {obs : List Obs}
    {suffix : String} (hInv : Inv i fs obs) (halive : aliveB obs = true)
    (hok : evOK i fs (.openDisk suffix) = true) :
    Inv (handleEvent i fs (.openDisk suffix)).1
      (handleEvent i fs (.openDisk suffix)).2.1
      (obs ++ (handleEvent i fs (.openDisk suffix)).2.2) := by
  have hok2 := hok
  simp only [evOK, Bool.and_eq_true] at hok2
  obtain ⟨⟨⟨⟨⟨hlrun, hfs⟩, htn⟩, htar⟩, hsuf⟩, hfresh⟩ := hok2
  obtain ⟨final, hfinal⟩ : ∃ f, i.final_path = some f := by
    cases hf : i.final_path with
    | none => rw [hf] at hfs; simp at hfs
    | some f => exact ⟨f, rfl⟩
  obtain ⟨hancd, hn0, hclt, lay, hlay, hfp⟩ := hInv.layerSome halive
    (jobRunning_isSome hlrun)
  have hanc_ne : i.ancestry ≠ [] := by
    intro hh
    rw [hh] at hlay
    simp at hlay
  by_cases hc0 : i.current_ancestry = 0
  · -- base layer is none: fresh subvolume
    have hbase : dkr_import_current_base_layer i = none := by
      simp [dkr_import_current_base_layer, hanc_ne, hc0]
    have hred : handleEvent i fs (.openDisk suffix) =
        (({ i with temp_path := some (tempfn_random final suffix), tar_pid := 1 } : DkrImport), ({ fs with dirs := tempfn_random final suffix :: parentDir (tempfn_random final suffix) :: fs.dirs } : FS), [.mkdirParents (parentDir (tempfn_random final suffix)), .subvolMake (tempfn_random final suffix)]) := by
      simp [handleEvent, dkr_import_job_on_open_disk, hfinal, hbase]
    rw [hred]
    have hplain : ([Obs.mkdirParents (parentDir (tempfn_random final suffix)),
        Obs.subvolMake (tempfn_random final suffix)]).all isPlain = true := by
      simp [isPlain]
    have halive2 := @aliveB_append_plain obs _ hplain
    have hchn := chains_extend_nil hInv.chainNM ((plain_obs_spec _ hplain).1)
    have hchm := chains_extend_nil_m hInv.chainM ((plain_obs_spec _ hplain).2.1)
    refine ⟨?_, ?_, ?_, ?_, ?_, ?_, ?_, ?_, ?_, ?_, ?_, ?_, ?_, hchn.1,
      hchm.1, ?_, ?_, ?_⟩
    · intro _; exact hInv.pct100 halive
    · intro _; exact hInv.lenA halive
    · intro _; exact hInv.curLe halive
    · intro hni
      exfalso
      have himg2 := hInv.jobsImages (Or.inr (Or.inr (Or.inr
        (jobRunning_isSome hlrun))))
      have hni2 : i.images_job = none := hni
      rw [hni2] at himg2
      simp at himg2
    · intro _
      exact hInv.jobsImages (Or.inr (Or.inr (Or.inr (jobRunning_isSome hlrun))))
    · intro _
      exact hInv.jobsImages (Or.inr (Or.inr (Or.inr (jobRunning_isSome hlrun))))
    · intro _ h2
      exfalso
      obtain ⟨-, -, -, hc, -⟩ := hInv.imagesRun halive h2
      rw [hc] at hlrun
      simp [jobRunning] at hlrun
    · intro _ h2
      exfalso
      obtain ⟨-, -, hc, -⟩ := hInv.tagsRun halive h2
      rw [hc] at hlrun
      simp [jobRunning] at hlrun
    · intro _ h2
      exfalso
      obtain ⟨hc, -⟩ := hInv.ancRun halive h2
      rw [hc] at hlrun
      simp [jobRunning] at hlrun
    · intro _ _; exact ⟨hancd, hn0, hclt, lay, hlay, hfp⟩
    · rintro ⟨u, hu⟩
      exact hInv.layerReqAnc ⟨u, req_of_mem_plain hplain hu⟩
    · intro _
      constructor
      · constructor
        · intro _; simp
        · intro _; simp
      · intro _; exact jobRunning_isSome hlrun
    · intro _ _ h3
      obtain ⟨b, hb1, hb2⟩ := hInv.parentIn halive (jobRunning_isSome hlrun) h3
      refine ⟨b, hb1, ?_⟩
      simp only [List.contains_cons, hb2, Bool.or_true]
    · intro _
      rw [hchn.2]
      exact hInv.lastNM halive
    · intro _
      rw [hchm.2]
      exact hInv.lastM halive
    · intro hcb
      exact absurd hcb fun h2 => no_cb_in_plain halive hplain h2
  · -- cursor > 0: snapshot from base layer
    have hcpos : 0 < i.current_ancestry := Nat.pos_of_ne_zero hc0
    obtain ⟨b, hb1, hb2⟩ := hInv.parentIn halive (jobRunning_isSome hlrun) hcpos
    have hbase : dkr_import_current_base_layer i = some b := by
      simp [dkr_import_current_base_layer, hanc_ne, hc0, hb1]
    have hcont : layerPath i.image_root b ∈ fs.dirs := by
      simpa using hb2
    have hred : handleEvent i fs (.openDisk suffix) =
        (({ i with temp_path := some (tempfn_random final suffix), tar_pid := 1 } : DkrImport), ({ fs with dirs := tempfn_random final suffix :: parentDir (tempfn_random final suffix) :: fs.dirs } : FS), [.mkdirParents (parentDir (tempfn_random final suffix)), .subvolSnapshot (layerPath i.image_root b) (tempfn_random final suffix) false]) := by
      simp [handleEvent, dkr_import_job_on_open_disk, hfinal, hbase, hcont]
    rw [hred]
    have hplain : ([Obs.mkdirParents (parentDir (tempfn_random final suffix)),
        Obs.subvolSnapshot (layerPath i.image_root b)
          (tempfn_random final suffix) false]).all isPlain = true := by
      simp [isPlain]
    have hchn := chains_extend_nil hInv.chainNM ((plain_obs_spec _ hplain).1)
    have hchm := chains_extend_nil_m hInv.chainM ((plain_obs_spec _ hplain).2.1)
    refine ⟨?_, ?_, ?_, ?_, ?_, ?_, ?_, ?_, ?_, ?_, ?_, ?_, ?_, hchn.1,
      hchm.1, ?_, ?_, ?_⟩
    · intro _; exact hInv.pct100 halive
    · intro _; exact hInv.lenA halive
    · intro _; exact hInv.curLe halive
    · intro hni
      exfalso
      have himg2 := hInv.jobsImages (Or.inr (Or.inr (Or.inr
        (jobRunning_isSome hlrun))))
      have hni2 : i.images_job = none := hni
      rw [hni2] at himg2
      simp at himg2
    · intro _
      exact hInv.jobsImages (Or.inr (Or.inr (Or.inr (jobRunning_isSome hlrun))))
    · intro _
      exact hInv.jobsImages (Or.inr (Or.inr (Or.inr (jobRunning_isSome hlrun))))
    · intro _ h2
      exfalso
      obtain ⟨-, -, -, hc, -⟩ := hInv.imagesRun halive h2
      rw [hc] at hlrun
      simp [jobRunning] at hlrun
    · intro _ h2
      exfalso
      obtain ⟨-, -, hc, -⟩ := hInv.tagsRun halive h2
      rw [hc] at hlrun
      simp [jobRunning] at hlrun
    · intro _ h2
      exfalso
      obtain ⟨hc, -⟩ := hInv.ancRun halive h2
      rw [hc] at hlrun
      simp [jobRunning] at hlrun
    · intro _ _; exact ⟨hancd, hn0, hclt, lay, hlay, hfp⟩
    · rintro ⟨u, hu⟩
      exact hInv.layerReqAnc ⟨u, req_of_mem_plain hplain hu⟩
    · intro _
      constructor
      · constructor
        · intro _; simp
        · intro _; simp
      · intro _; exact jobRunning_isSome hlrun
    · intro _ _ h3
      refine ⟨b, hb1, ?_⟩
      simp only [List.contains_cons, hb2, Bool.or_true]
    · intro _
      rw [hchn.2]
      exact hInv.lastNM halive
    · intro _
      rw [hchm.2]
      exact hInv.lastM halive
    · intro hcb
      exact absurd hcb fun h2 => no_cb_in_plain halive hplain h2

theorem inv_step_succ_images {i : DkrImport} {fs : FS} {obs : List Obs}
    {payload : List Char} {tarOk : Bool} (hInv : Inv i fs obs)
    (halive : aliveB obs = true)
    (hok : evOK i fs (.jobSucceeded .images payload tarOk) = true) :
    Inv (handleEvent i fs (.jobSucceeded .images payload tarOk)).1
      (handleEvent i fs (.jobSucceeded .images payload tarOk)).2.1
      (obs ++ (handleEvent i fs (.jobSucceeded .images payload tarOk)).2.2) := by
  simp only [evOK, Bool.and_eq_true] at hok
  obtain ⟨j, hj, hjrun⟩ : ∃ j, i.images_job = some j ∧ j.state = .running := by
    cases hgj : i.images_job with
    | none => rw [show getJob i .images = i.images_job from rfl, hgj] at hok; simp [jobRunning] at hok
    | some j =>
      rw [show getJob i .images = i.images_job from rfl, hgj] at hok
      simp [jobRunning] at hok
      exact ⟨j, rfl, hok⟩
  obtain ⟨ht0, ha0, hjs0, hl0, hn0⟩ := hInv.imagesRun halive
    (by simp [jobRunning, hj, hjrun])
  by_cases hreg : i.response_registries = []
  · have hred : handleEvent i fs (.jobSucceeded .images payload tarOk) =
        (({ i with images_job := some { j with state := .done } } : DkrImport), fs, [.finishedCb (some .EBADMSG)]) := by
      simp [handleEvent, setJob, getJob, hj, setJobState,
        dkr_import_job_on_finished, hreg]
    rw [hred]
    apply inv_dead_step (by simp [aliveB]) (by simp)
    · rintro ⟨u, hu⟩
      have hu2 : Obs.request .layer u ∈ obs := by
        rcases List.mem_append.mp hu with h2 | h2
        · exact h2
        · simp at h2
      exact hInv.layerReqAnc ⟨u, hu2⟩
    · exact (chains_extend_nil hInv.chainNM (by simp [nonMetaPcts])).1
    · exact (chains_extend_nil_m hInv.chainM (by simp [metaPcts])).1
    · intro hcb _
      exfalso
      rcases List.mem_append.mp hcb with h2 | h2
      · exact alive_no_cb halive none h2
      · simp at h2
  · have hmd : ∀ u : String, dkr_import_maybe_done ({ i with images_job := some { j with state := .done }, tags_job := some (newJob u) } : DkrImport) fs = (({ i with images_job := some { j with state := .done }, tags_job := some (newJob u) } : DkrImport), fs, []) :=
      fun u => maybe_done_false (by simp [dkr_import_is_done, jobDone, newJob])
    have hred : handleEvent i fs (.jobSucceeded .images payload tarOk) =
        (({ i with images_job := some { j with state := .done }, tags_job := some (newJob (tagsUrl i)) } : DkrImport), fs,
         [Obs.progressReport .DKR_RESOLVING 5, .request .tags (tagsUrl i)]) := by
      simp [handleEvent, setJob, getJob, hj, setJobState,
        dkr_import_job_on_finished, hreg, hmd,
        progressObs, dkr_import_report_progress, jobPercent, ht0,
        tagsUrl, registry0]
    rw [hred]
    have hgf : gFloor i ≤ 5 := by
      rw [gFloor, if_neg (by simp [hn0]), if_neg (by simp [ht0])]
      exact report_searching_le i
        (by have := hInv.pct100 halive .images; simpa [getJob] using this)
    have hge : (nonMetaPcts obs).getLast?.getD 0 ≤ 5 := by
      have := hInv.lastNM halive
      omega
    have hch := chains_extend_one hInv.chainNM
      (show nonMetaPcts [Obs.progressReport .DKR_RESOLVING 5,
        Obs.request .tags (tagsUrl i)] = [5] by simp [nonMetaPcts]) hge
    have hchm := chains_extend_nil_m hInv.chainM
      (show metaPcts [Obs.progressReport .DKR_RESOLVING 5,
        Obs.request .tags (tagsUrl i)] = [] by simp [metaPcts])
    refine ⟨?_, ?_, ?_, ?_, ?_, ?_, ?_, ?_, ?_, ?_, ?_, ?_, ?_, hch.1,
      hchm.1, ?_, ?_, ?_⟩
    · intro _ jid2
      cases jid2 with
      | images =>
        have := hInv.pct100 halive .images
        simpa [getJob, hj, jobPercent] using this
      | tags => simp [getJob, jobPercent, newJob]
      | ancestry => exact hInv.pct100 halive .ancestry
      | json => exact hInv.pct100 halive .json
      | layer => exact hInv.pct100 halive .layer
    · intro _; exact hInv.lenA halive
    · intro _; exact hInv.curLe halive
    · intro hni; exfalso; simp at hni
    · intro _; rfl
    · intro _; rfl
    · intro _ h2; exfalso; simp [jobRunning] at h2
    · intro _ _; exact ⟨ha0, hjs0, hl0, hn0⟩
    · intro _ h2
      exfalso
      have h3 : jobRunning i.ancestry_job = true := h2
      rw [ha0] at h3
      simp [jobRunning] at h3
    · intro _ h2
      exfalso
      have h3 : i.layer_job.isSome = true := h2
      rw [hl0] at h3
      simp at h3
    · rintro ⟨u, hu⟩
      have hu2 : Obs.request .layer u ∈ obs := by
        rcases List.mem_append.mp hu with h2 | h2
        · exact h2
        · simp at h2
      exact hInv.layerReqAnc ⟨u, hu2⟩
    · intro _
      refine ⟨(hInv.tempTar halive).1, ?_⟩
      intro hts
      exfalso
      have h3 := (hInv.tempTar halive).2 hts
      rw [hl0] at h3
      simp at h3
    · intro _ h2 _
      exfalso
      have h3 : i.layer_job.isSome = true := h2
      rw [hl0] at h3
      simp at h3
    · intro _
      rw [hch.2]
      simp [gFloor, hn0, dkr_import_report_progress, jobPercent, newJob]
    · intro _
      rw [hchm.2]
      exact hInv.lastM halive
    · intro hcb _
      exfalso
      rcases List.mem_append.mp hcb with h2 | h2
      · exact alive_no_cb halive none h2
      · simp at h2

theorem inv_step_succ_tags {i : DkrImport} {fs : FS} {obs : List Obs}
    {payload : List Char} {tarOk : Bool} (hInv : Inv i fs obs)
    (halive : aliveB obs = true)
    (hok : evOK i fs (.jobSucceeded .tags payload tarOk) = true) :
    Inv (handleEvent i fs (.jobSucceeded .tags payload tarOk)).1
      (handleEvent i fs (.jobSucceeded .tags payload tarOk)).2.1
      (obs ++ (handleEvent i fs (.jobSucceeded .tags payload tarOk)).2.2) := by
  simp only [evOK, Bool.and_eq_true] at hok
  obtain ⟨j, hj, hjrun⟩ : ∃ j, i.tags_job = some j ∧ j.state = .running := by
    cases hgj : i.tags_job with
    | none => rw [show getJob i .tags = i.tags_job from rfl, hgj] at hok; simp [jobRunning] at hok
    | some j =>
      rw [show getJob i .tags = i.tags_job from rfl, hgj] at hok
      simp [jobRunning] at hok
      exact ⟨j, rfl, hok⟩
  obtain ⟨ha0, hjs0, hl0, hn0⟩ := hInv.tagsRun halive
    (by simp [jobRunning, hj, hjrun])
  have himg : i.images_job.isSome = true := hInv.jobsImages (Or.inl (by simp [hj]))
  cases hpi : parse_id payload with
  | error e =>
    have hred : handleEvent i fs (.jobSucceeded .tags payload tarOk) =
        (({ i with tags_job := some { j with state := .done } } : DkrImport), fs, [.finishedCb (some e)]) := by
      simp [handleEvent, setJob, getJob, hj, setJobState,
        dkr_import_job_on_finished, hpi]
    rw [hred]
    apply inv_dead_step (by simp [aliveB])
    · exact himg
    · rintro ⟨u, hu⟩
      have hu2 : Obs.request .layer u ∈ obs := by
        rcases List.mem_append.mp hu with h2 | h2
        · exact h2
        · simp at h2
      exact hInv.layerReqAnc ⟨u, hu2⟩
    · exact (chains_extend_nil hInv.chainNM (by simp [nonMetaPcts])).1
    · exact (chains_extend_nil_m hInv.chainM (by simp [metaPcts])).1
    · intro hcb _
      exfalso
      rcases List.mem_append.mp hcb with h2 | h2
      · exact alive_no_cb halive none h2
      · simp at h2
  | ok id =>
    have hmd : ∀ u v : String, dkr_import_maybe_done ({ i with tags_job := some { j with state := .done }, id := some id, ancestry_job := some (newJob u), json_job := some (newJob v) } : DkrImport) fs = (({ i with tags_job := some { j with state := .done }, id := some id, ancestry_job := some (newJob u), json_job := some (newJob v) } : DkrImport), fs, []) :=
      fun u v => maybe_done_false (by simp [dkr_import_is_done, jobDone, newJob])
    have hred : handleEvent i fs (.jobSucceeded .tags payload tarOk) =
        (({ i with tags_job := some { j with state := .done }, id := some id, ancestry_job := some (newJob ("https://" ++ i.response_registries.headD "" ++ "/v1/images/" ++ id ++ "/ancestry")), json_job := some (newJob ("https://" ++ i.response_registries.headD "" ++ "/v1/images/" ++ id ++ "/json")) } : DkrImport), fs,
         [Obs.progressReport .DKR_METADATA 10,
          .request .ancestry ("https://" ++ i.response_registries.headD "" ++ "/v1/images/" ++ id ++ "/ancestry"),
          .request .json ("https://" ++ i.response_registries.headD "" ++ "/v1/images/" ++ id ++ "/json")]) := by
      simp [handleEvent, setJob, getJob, hj, setJobState,
        dkr_import_job_on_finished, hpi, hmd, progressObs,
        dkr_import_report_progress, jobPercent, ha0, hjs0,
        ancestryUrl, jsonUrl, registry0]
    rw [hred]
    have hmf : metaFloor i = 10 := by
      simp [metaFloor, dkr_import_report_progress, ha0, hjs0, jobPercent]
    have hge : (metaPcts obs).getLast?.getD 0 ≤ 10 := by
      have := hInv.lastM halive
      omega
    have hch := chains_extend_nil hInv.chainNM
      (show nonMetaPcts [Obs.progressReport .DKR_METADATA 10,
        Obs.request .ancestry ("https://" ++ i.response_registries.headD "" ++ "/v1/images/" ++ id ++ "/ancestry"),
        Obs.request .json ("https://" ++ i.response_registries.headD "" ++ "/v1/images/" ++ id ++ "/json")] = []
        by simp [nonMetaPcts])
    have hchm := chains_extend_one_m hInv.chainM
      (show metaPcts [Obs.progressReport .DKR_METADATA 10,
        Obs.request .ancestry ("https://" ++ i.response_registries.headD "" ++ "/v1/images/" ++ id ++ "/ancestry"),
        Obs.request .json ("https://" ++ i.response_registries.headD "" ++ "/v1/images/" ++ id ++ "/json")] = [10]
        by simp [metaPcts]) hge
    refine ⟨?_, ?_, ?_, ?_, ?_, ?_, ?_, ?_, ?_, ?_, ?_, ?_, ?_, hch.1,
      hchm.1, ?_, ?_, ?_⟩
    · intro _ jid2
      cases jid2 with
      | tags =>
        have := hInv.pct100 halive .tags
        simpa [getJob, hj, jobPercent] using this
      | ancestry => simp [getJob, jobPercent, newJob]
      | json => simp [getJob, jobPercent, newJob]
      | images => exact hInv.pct100 halive .images
      | layer => exact hInv.pct100 halive .layer
    · intro _; exact hInv.lenA halive
    · intro _; exact hInv.curLe halive
    · intro hni
      exfalso
      have hni2 : i.images_job = none := hni
      rw [hni2] at himg
      simp at himg
    · intro _; exact himg
    · intro _; exact himg
    · intro _ h2
      exfalso
      obtain ⟨hc, -⟩ := hInv.imagesRun halive h2
      rw [hj] at hc
      exact Option.noConfusion hc
    · intro _ h2; exfalso; simp [jobRunning] at h2
    · intro _ _; exact ⟨hl0, hn0⟩
    · intro _ h2
      exfalso
      have h3 : i.layer_job.isSome = true := h2
      rw [hl0] at h3
      simp at h3
    · rintro ⟨u, hu⟩
      exfalso
      have hu2 : Obs.request .layer u ∈ obs := by
        rcases List.mem_append.mp hu with h2 | h2
        · exact h2
        · simp at h2
      have := hInv.layerReqAnc ⟨u, hu2⟩
      rw [ha0] at this
      simp [jobDone] at this
    · intro _
      refine ⟨(hInv.tempTar halive).1, ?_⟩
      intro hts
      exfalso
      have h3 := (hInv.tempTar halive).2 hts
      rw [hl0] at h3
      simp at h3
    · intro _ h2 _
      exfalso
      have h3 : i.layer_job.isSome = true := h2
      rw [hl0] at h3
      simp at h3
    · intro _
      rw [hch.2]
      have hgf : gFloor ({ i with tags_job := some { j with state := .done }, id := some id, ancestry_job := some (newJob ("https://" ++ i.response_registries.headD "" ++ "/v1/images/" ++ id ++ "/ancestry")), json_job := some (newJob ("https://" ++ i.response_registries.headD "" ++ "/v1/images/" ++ id ++ "/json")) } : DkrImport) = gFloor i := by
        simp [gFloor, hn0, hj, dkr_import_report_progress, jobPercent]
      rw [hgf]
      exact hInv.lastNM halive
    · intro _
      rw [hchm.2]
      simp [metaFloor, dkr_import_report_progress, jobPercent, newJob]
    · intro hcb _
      exfalso
      rcases List.mem_append.mp hcb with h2 | h2
      · exact alive_no_cb halive none h2
      · simp at h2

theorem getLast_append_some {α : Type} (a : List α) {b : List α} {x : α}
    (h : b.getLast? = some x) : (a ++ b).getLast? = some x := by
  simp [List.getLast?_append, h]

/-- Shape of the observation tail produced by dkr_import_maybe_done when
the pull completes. -/
theorem doneObs_spec (o2 : List Obs) (r : Option Errno)
    (h : o2.all isPlain = true) :
    nonMetaPcts (Obs.progressReport .DKR_COPYING 95 :: o2 ++
      [.finishedCb r]) = [95] ∧
    metaPcts (Obs.progressReport .DKR_COPYING 95 :: o2 ++
      [.finishedCb r]) = [] ∧
    (reportsOf (Obs.progressReport .DKR_COPYING 95 :: o2 ++
      [.finishedCb r])).getLast? = some (.DKR_COPYING, 95) ∧
    aliveB (Obs.progressReport .DKR_COPYING 95 :: o2 ++
      [.finishedCb r]) = false := by
  obtain ⟨h1, h2, h3, h4, -, -⟩ := plain_obs_spec o2 h
  have hsh : (Obs.progressReport .DKR_COPYING 95 :: o2 ++ [.finishedCb r]) =
      ([Obs.progressReport .DKR_COPYING 95] ++ o2) ++ [.finishedCb r] := by
    simp
  refine ⟨?_, ?_, ?_, ?_⟩
  · rw [hsh, nonMetaPcts_append, nonMetaPcts_append, h1]
    simp [nonMetaPcts]
  · rw [hsh, metaPcts_append, metaPcts_append, h2]
    simp [metaPcts]
  · rw [hsh, reportsOf_append, reportsOf_append, h3]
    simp [reportsOf]
  · rw [hsh, aliveB_append]
    simp [aliveB]

theorem inv_step_succ_json {i : DkrImport} {fs : FS} {obs : List Obs}
    {payload : List Char} {tarOk : Bool} (hInv : Inv i fs obs)
    (halive : aliveB obs = true)
    (hok : evOK i fs (.jobSucceeded .json payload tarOk) = true) :
    Inv (handleEvent i fs (.jobSucceeded .json payload tarOk)).1
      (handleEvent i fs (.jobSucceeded .json payload tarOk)).2.1
      (obs ++ (handleEvent i fs (.jobSucceeded .json payload tarOk)).2.2) := by
  simp only [evOK, Bool.and_eq_true] at hok
  obtain ⟨j, hj, hjrun⟩ : ∃ j, i.json_job = some j ∧ j.state = .running := by
    cases hgj : i.json_job with
    | none => rw [show getJob i .json = i.json_job from rfl, hgj] at hok; simp [jobRunning] at hok
    | some j =>
      rw [show getJob i .json = i.json_job from rfl, hgj] at hok
      simp [jobRunning] at hok
      exact ⟨j, rfl, hok⟩
  have himg : i.images_job.isSome = true :=
    hInv.jobsImages (Or.inr (Or.inr (Or.inl (by simp [hj]))))
  by_cases hd : dkr_import_is_done ({ i with json_job := some { j with state := .done } } : DkrImport) = true
  · obtain ⟨i2, fs2, o2, r, hmd, hplain, hj1, hj2, hj3, hj4, hj5⟩ :=
      @maybe_done_done ({ i with json_job := some { j with state := .done } } : DkrImport) fs hd
    obtain ⟨hnm, hm, hrep, hdead⟩ := doneObs_spec o2 r hplain
    have hred : handleEvent i fs (.jobSucceeded .json payload tarOk) =
        (i2, fs2, Obs.progressReport .DKR_COPYING 95 :: o2 ++ [.finishedCb r]) := by
      simp [handleEvent, setJob, getJob, hj, setJobState,
        dkr_import_job_on_finished, hmd]
    rw [hred]
    apply inv_dead_step hdead
    · rw [hj1]
      exact himg
    · rintro ⟨u, hu⟩
      have hu2 : Obs.request .layer u ∈ obs := by
        rcases List.mem_append.mp hu with h2 | h2
        · exact h2
        · rcases List.mem_cons.mp h2 with h3 | h3
          · exact absurd h3 (by simp)
          · rcases List.mem_append.mp h3 with h4 | h4
            · exfalso
              have := List.all_eq_true.mp hplain _ h4
              simp [isPlain] at this
            · simp at h4
      rw [hj3]
      exact hInv.layerReqAnc ⟨u, hu2⟩
    · exact (chains_extend_one hInv.chainNM hnm (by
        have := hInv.lastNM halive
        have hg : gFloor i ≤ 95 := gFloor_le_95 i (hInv.pct100 halive)
          (hInv.curLe halive) (hInv.lenA halive)
          (fun jx hjx => (hInv.layerSome halive (by simp [hjx])).2.2.1)
        omega)).1
    · exact (chains_extend_nil_m hInv.chainM hm).1
    · intro hcb hnr
      rw [reportsOf_append]
      exact getLast_append_some _ hrep
  · have hd2 : dkr_import_is_done ({ i with json_job := some { j with state := .done } } : DkrImport) = false := by
      simpa using hd
    have hred : handleEvent i fs (.jobSucceeded .json payload tarOk) =
        (({ i with json_job := some { j with state := .done } } : DkrImport), fs, []) := by
      simp [handleEvent, setJob, getJob, hj, setJobState,
        dkr_import_job_on_finished, maybe_done_false hd2]
    rw [hred]
    simp only [List.append_nil]
    refine ⟨?_, ?_, ?_, ?_, ?_, ?_, ?_, ?_, ?_, ?_, ?_, ?_, ?_,
      hInv.chainNM, hInv.chainM, ?_, ?_, hInv.lastRep95⟩
    · intro _ jid2
      cases jid2 with
      | json =>
        have := hInv.pct100 halive .json
        simpa [getJob, hj, jobPercent] using this
      | images => exact hInv.pct100 halive .images
      | tags => exact hInv.pct100 halive .tags
      | ancestry => exact hInv.pct100 halive .ancestry
      | layer => exact hInv.pct100 halive .layer
    · intro _; exact hInv.lenA halive
    · intro _; exact hInv.curLe halive
    · intro hni
      exfalso
      have hni2 : i.images_job = none := hni
      rw [hni2] at himg
      simp at himg
    · intro _; exact himg
    · intro _; exact himg
    · intro _ h2
      exfalso
      obtain ⟨-, -, hc, -⟩ := hInv.imagesRun halive h2
      rw [hj] at hc
      exact Option.noConfusion hc
    · intro _ h2
      exfalso
      obtain ⟨-, hc, -⟩ := hInv.tagsRun halive h2
      rw [hj] at hc
      exact Option.noConfusion hc
    · intro _ h2
      exact hInv.ancRun halive h2
    · intro _ h2
      exact hInv.layerSome halive h2
    · exact hInv.layerReqAnc
    · intro _
      exact hInv.tempTar halive
    · intro _ h2 h3
      exact hInv.parentIn halive h2 h3
    · intro _
      exact hInv.lastNM halive
    · intro _
      have hmfe : metaFloor ({ i with json_job := some { j with state := .done } } : DkrImport) = metaFloor i := by
        simp [metaFloor, dkr_import_report_progress, hj, jobPercent]
      rw [hmfe]
      exact hInv.lastM halive

theorem inv_step_succ_ancestry {i : DkrImport} {fs : FS} {obs : List Obs}
    {payload : List Char} {tarOk : Bool} (hInv : Inv i fs obs)
    (halive : aliveB obs = true)
    (hok : evOK i fs (.jobSucceeded .ancestry payload tarOk) = true) :
    Inv (handleEvent i fs (.jobSucceeded .ancestry payload tarOk)).1
      (handleEvent i fs (.jobSucceeded .ancestry payload tarOk)).2.1
      (obs ++ (handleEvent i fs (.jobSucceeded .ancestry payload tarOk)).2.2) := by
  simp only [evOK, Bool.and_eq_true] at hok
  obtain ⟨j, hj, hjrun⟩ : ∃ j, i.ancestry_job = some j ∧ j.state = .running := by
    cases hgj : i.ancestry_job with
    | none => rw [show getJob i .ancestry = i.ancestry_job from rfl, hgj] at hok; simp [jobRunning] at hok
    | some j =>
      rw [show getJob i .ancestry = i.ancestry_job from rfl, hgj] at hok
      simp [jobRunning] at hok
      exact ⟨j, rfl, hok⟩
  obtain ⟨hl0, hn0⟩ := hInv.ancRun halive (by simp [jobRunning, hj, hjrun])
  have himg : i.images_job.isSome = true :=
    hInv.jobsImages (Or.inr (Or.inl (by simp [hj])))
  have hpct := hInv.pct100 halive
  have hgf10 : gFloor i ≤ 10 := by
    rw [gFloor, if_neg (by simp [hn0])]
    by_cases htg : i.tags_job.isSome = true
    · rw [if_pos htg]
      exact report_resolving_le i (by have := hpct .tags; simpa [getJob] using this)
    · rw [if_neg htg]
      have := report_searching_le i (by have := hpct .images; simpa [getJob] using this)
      omega
  have htempn : i.temp_path = none := by
    cases hx : i.temp_path with
    | none => rfl
    | some t =>
      exfalso
      have h5 := (hInv.tempTar halive).2 (by simp [hx])
      rw [hl0] at h5
      simp at h5
  have htar0 : i.tar_pid = 0 := by
    by_contra hc
    have h5 := (hInv.tempTar halive).1.mpr (by omega)
    rw [htempn] at h5
    simp at h5
  cases hpa : parse_ancestry payload with
  | error e =>
    have hred : handleEvent i fs (.jobSucceeded .ancestry payload tarOk) =
        (({ i with ancestry_job := some { j with state := .done } } : DkrImport), fs, [.finishedCb (some e)]) := by
      simp [handleEvent, setJob, getJob, hj, setJobState,
        dkr_import_job_on_finished, hpa]
    rw [hred]
    apply inv_dead_step (by simp [aliveB])
    · exact himg
    · intro _
      simp [jobDone]
    · exact (chains_extend_nil hInv.chainNM (by simp [nonMetaPcts])).1
    · exact (chains_extend_nil_m hInv.chainM (by simp [metaPcts])).1
    · intro hcb _
      exfalso
      rcases List.mem_append.mp hcb with h2 | h2
      · exact alive_no_cb halive none h2
      · simp at h2
  | ok l =>
    by_cases hguard : (l.length = 0 || decide (l.getLast? ≠ i.id)) = true
    · have hgp : l = [] ∨ ¬(l.getLast? = i.id) := by simpa using hguard
      have hred : handleEvent i fs (.jobSucceeded .ancestry payload tarOk) =
          (({ i with ancestry_job := some { j with state := .done } } : DkrImport), fs, [.finishedCb (some .EBADMSG)]) := by
        rcases hgp with h3 | h3
        · subst h3
          simp [handleEvent, setJob, getJob, hj, setJobState,
            dkr_import_job_on_finished, hpa]
        · simp [handleEvent, setJob, getJob, hj, setJobState,
            dkr_import_job_on_finished, hpa, h3]
      rw [hred]
      apply inv_dead_step (by simp [aliveB])
      · exact himg
      · intro _
        simp [jobDone]
      · exact (chains_extend_nil hInv.chainNM (by simp [nonMetaPcts])).1
      · exact (chains_extend_nil_m hInv.chainM (by simp [metaPcts])).1
      · intro hcb _
        exfalso
        rcases List.mem_append.mp hcb with h2 | h2
        · exact alive_no_cb halive none h2
        · simp at h2
    · obtain ⟨hlneL, hlast⟩ : (¬l = []) ∧ l.getLast? = i.id := by
        simpa [not_or] using hguard
      have hlen0 : l.length ≠ 0 := by simpa using hlneL
      obtain ⟨i3, o, heq, hupd, hmono, hbound, hparent, hdich⟩ :=
        pull_layer_spec ({ i with ancestry_job := some { j with state := .done }, layer_job := none, ancestry := l, n_ancestry := l.length, current_ancestry := 0 } : DkrImport) fs
      have e_img : i3.images_job = i.images_job := by rw [hupd]
      have e_tags : i3.tags_job = i.tags_job := by rw [hupd]
      have e_anc : i3.ancestry_job = some { j with state := .done } := by rw [hupd]
      have e_json : i3.json_job = i.json_job := by rw [hupd]
      have e_ancL : i3.ancestry = l := by rw [hupd]
      have e_n : i3.n_ancestry = l.length := by rw [hupd]
      have e_temp : i3.temp_path = i.temp_path := by rw [hupd]
      have e_tar : i3.tar_pid = i.tar_pid := by rw [hupd]
      have e_root : i3.image_root = i.image_root := by rw [hupd]
      have hcur3 : i3.current_ancestry ≤ l.length := hbound (Nat.zero_le _)
      rcases hdich with ⟨ho, hlj, hfp, hcl⟩ | ⟨lay, hlay, hnotin, hfp, hlj, ho, hlt⟩
      · -- every layer already existed: no layer request
        subst ho
        have hlj0 : i3.layer_job = none := by rw [hlj]
        by_cases hd : dkr_import_is_done i3 = true
        · obtain ⟨i4, fs4, o2, r, hmd, hplain, hj1, hj2, hj3, hj4, hj5⟩ :=
            @maybe_done_done i3 fs hd
          obtain ⟨hnm, hm, hrep, hdeadT⟩ := doneObs_spec o2 r hplain
          have hred : handleEvent i fs (.jobSucceeded .ancestry payload tarOk) =
              (i4, fs4, Obs.progressReport .DKR_DOWNLOADING 20 ::
                Obs.progressReport .DKR_COPYING 95 :: o2 ++ [.finishedCb r]) := by
            simp [handleEvent, setJob, getJob, hj, setJobState,
              dkr_import_job_on_finished, hpa, hlneL, hlast, heq, hmd, progressObs,
              dkr_import_report_progress, jobPercent, hl0]
          rw [hred]
          have hsh : (Obs.progressReport .DKR_DOWNLOADING 20 ::
              Obs.progressReport .DKR_COPYING 95 :: o2 ++ [.finishedCb r]) =
              [Obs.progressReport .DKR_DOWNLOADING 20] ++
                (Obs.progressReport .DKR_COPYING 95 :: o2 ++ [.finishedCb r]) := rfl
          have hnm2 : nonMetaPcts (Obs.progressReport .DKR_DOWNLOADING 20 ::
              Obs.progressReport .DKR_COPYING 95 :: o2 ++ [.finishedCb r]) = [20, 95] := by
            rw [hsh, nonMetaPcts_append, hnm]
            simp [nonMetaPcts]
          have hm2 : metaPcts (Obs.progressReport .DKR_DOWNLOADING 20 ::
              Obs.progressReport .DKR_COPYING 95 :: o2 ++ [.finishedCb r]) = [] := by
            rw [hsh, metaPcts_append, hm]
            simp [metaPcts]
          apply inv_dead_step
          · rw [hsh, aliveB_append, hdeadT]
            simp
          · rw [hj1, e_img]
            exact himg
          · intro _
            rw [hj3, e_anc]
            simp [jobDone]
          · rw [nonMetaPcts_append, hnm2]
            apply chain_append_le _ _ hInv.chainNM (by simp)
            intro y hy
            simp at hy
            have := hInv.lastNM halive
            omega
          · rw [metaPcts_append, hm2]
            simpa using hInv.chainM
          · intro _ _
            rw [reportsOf_append]
            apply getLast_append_some
            rw [hsh, reportsOf_append]
            exact getLast_append_some _ hrep
        · have hd2 : dkr_import_is_done i3 = false := by simpa using hd
          have hred : handleEvent i fs (.jobSucceeded .ancestry payload tarOk) =
              (i3, fs, [Obs.progressReport .DKR_DOWNLOADING 20]) := by
            simp [handleEvent, setJob, getJob, hj, setJobState,
              dkr_import_job_on_finished, hpa, hlneL, hlast, heq,
              maybe_done_false hd2, progressObs,
              dkr_import_report_progress, jobPercent, hl0]
          rw [hred]
          have hge : (nonMetaPcts obs).getLast?.getD 0 ≤ 20 := by
            have := hInv.lastNM halive
            omega
          have hch := chains_extend_one hInv.chainNM
            (show nonMetaPcts [Obs.progressReport .DKR_DOWNLOADING 20] = [20]
              by simp [nonMetaPcts]) hge
          have hchm := chains_extend_nil_m hInv.chainM
            (show metaPcts [Obs.progressReport .DKR_DOWNLOADING 20] = []
              by simp [metaPcts])
          refine ⟨?_, ?_, ?_, ?_, ?_, ?_, ?_, ?_, ?_, ?_, ?_, ?_, ?_, hch.1,
            hchm.1, ?_, ?_, ?_⟩
          · intro _ jid2
            cases jid2 with
            | images => rw [show getJob i3 .images = i3.images_job from rfl, e_img]; exact hpct .images
            | tags => rw [show getJob i3 .tags = i3.tags_job from rfl, e_tags]; exact hpct .tags
            | ancestry =>
              rw [show getJob i3 .ancestry = i3.ancestry_job from rfl, e_anc]
              have := hpct .ancestry
              simpa [getJob, hj, jobPercent] using this
            | json => rw [show getJob i3 .json = i3.json_job from rfl, e_json]; exact hpct .json
            | layer => rw [show getJob i3 .layer = i3.layer_job from rfl, hlj0]; simp [jobPercent]
          · intro _; rw [e_n, e_ancL]
          · intro _; rw [e_ancL]; exact hcur3
          · intro hni
            exfalso
            rw [e_img] at hni
            rw [hni] at himg
            simp at himg
          · intro _; rw [e_img]; exact himg
          · intro _; rw [e_img]; exact himg
          · intro _ h2
            exfalso
            rw [e_img] at h2
            obtain ⟨-, hc, -⟩ := hInv.imagesRun halive h2
            rw [hj] at hc
            exact Option.noConfusion hc
          · intro _ h2
            exfalso
            rw [e_tags] at h2
            obtain ⟨hc, -⟩ := hInv.tagsRun halive h2
            rw [hj] at hc
            exact Option.noConfusion hc
          · intro _ h2
            exfalso
            rw [e_anc] at h2
            simp [jobRunning] at h2
          · intro _ h2
            exfalso
            rw [hlj0] at h2
            simp at h2
          · intro _
            rw [e_anc]
            simp [jobDone]
          · intro _
            constructor
            · rw [e_temp, e_tar, htempn, htar0]
              simp
            · intro hts
              exfalso
              rw [e_temp, htempn] at hts
              simp at hts
          · intro _ h2 _
            exfalso
            rw [hlj0] at h2
            simp at h2
          · intro _
            rw [hch.2]
            simp only [Option.getD_some, gFloor]
            rw [if_pos (show i3.n_ancestry ≠ 0 from by rw [e_n]; exact hlen0)]
            simp only [dkr_import_report_progress, hlj0]
            exact le_trans (Nat.le_add_right 20 _) (Nat.le_add_right _ _)
          · intro _
            rw [hchm.2]
            have hmfe : metaFloor i3 = metaFloor i := by
              simp [metaFloor, dkr_import_report_progress, e_anc, e_json, hj,
                jobPercent]
            rw [hmfe]
            exact hInv.lastM halive
          · intro hcb _
            exfalso
            rcases List.mem_append.mp hcb with h2 | h2
            · exact alive_no_cb halive none h2
            · simp at h2
      · -- a layer request was issued
        subst ho
        have hd4 : dkr_import_is_done i3 = false := by
          simp [dkr_import_is_done, hlj, newJob]
        have hred : handleEvent i fs (.jobSucceeded .ancestry payload tarOk) =
            (i3, fs, [Obs.progressReport .DKR_DOWNLOADING 20,
              Obs.request .layer (layerUrl ({ i with ancestry_job := some { j with state := .done }, layer_job := none, ancestry := l, n_ancestry := l.length, current_ancestry := 0 } : DkrImport) lay)]) := by
          simp [handleEvent, setJob, getJob, hj, setJobState,
            dkr_import_job_on_finished, hpa, hlneL, hlast, heq,
            maybe_done_false hd4, progressObs,
            dkr_import_report_progress, jobPercent, hl0]
        rw [hred]
        have hge : (nonMetaPcts obs).getLast?.getD 0 ≤ 20 := by
          have := hInv.lastNM halive
          omega
        have hch := chains_extend_one hInv.chainNM
          (show nonMetaPcts [Obs.progressReport .DKR_DOWNLOADING 20,
            Obs.request .layer (layerUrl ({ i with ancestry_job := some { j with state := .done }, layer_job := none, ancestry := l, n_ancestry := l.length, current_ancestry := 0 } : DkrImport) lay)] = [20]
            by simp [nonMetaPcts]) hge
        have hchm := chains_extend_nil_m hInv.chainM
          (show metaPcts [Obs.progressReport .DKR_DOWNLOADING 20,
            Obs.request .layer (layerUrl ({ i with ancestry_job := some { j with state := .done }, layer_job := none, ancestry := l, n_ancestry := l.length, current_ancestry := 0 } : DkrImport) lay)] = []
            by simp [metaPcts])
        refine ⟨?_, ?_, ?_, ?_, ?_, ?_, ?_, ?_, ?_, ?_, ?_, ?_, ?_, hch.1,
          hchm.1, ?_, ?_, ?_⟩
        · intro _ jid2
          cases jid2 with
          | images => rw [show getJob i3 .images = i3.images_job from rfl, e_img]; exact hpct .images
          | tags => rw [show getJob i3 .tags = i3.tags_job from rfl, e_tags]; exact hpct .tags
          | ancestry =>
            rw [show getJob i3 .ancestry = i3.ancestry_job from rfl, e_anc]
            have := hpct .ancestry
            simpa [getJob, hj, jobPercent] using this
          | json => rw [show getJob i3 .json = i3.json_job from rfl, e_json]; exact hpct .json
          | layer => rw [show getJob i3 .layer = i3.layer_job from rfl, hlj]; simp [jobPercent, newJob]
        · intro _; rw [e_n, e_ancL]
        · intro _; rw [e_ancL]; exact hcur3
        · intro hni
          exfalso
          rw [e_img] at hni
          rw [hni] at himg
          simp at himg
        · intro _; rw [e_img]; exact himg
        · intro _; rw [e_img]; exact himg
        · intro _ h2
          exfalso
          rw [e_img] at h2
          obtain ⟨-, hc, -⟩ := hInv.imagesRun halive h2
          rw [hj] at hc
          exact Option.noConfusion hc
        · intro _ h2
          exfalso
          rw [e_tags] at h2
          obtain ⟨hc, -⟩ := hInv.tagsRun halive h2
          rw [hj] at hc
          exact Option.noConfusion hc
        · intro _ h2
          exfalso
          rw [e_anc] at h2
          simp [jobRunning] at h2
        · intro _ _
          refine ⟨?_, ?_, ?_, lay, ?_, ?_⟩
          · rw [e_anc]; simp [jobDone]
          · rw [e_n]; exact hlen0
          · rw [e_ancL]; exact hlt
          · rw [e_ancL]; exact hlay
          · rw [e_root]; exact hfp
        · intro _
          rw [e_anc]
          simp [jobDone]
        · intro _
          constructor
          · rw [e_temp, e_tar, htempn, htar0]
            simp
          · intro hts
            exfalso
            rw [e_temp, htempn] at hts
            simp at hts
        · intro _ _ hpos
          obtain ⟨b, hb1, hb2⟩ := hparent hpos
          refine ⟨b, ?_, ?_⟩
          · rw [e_ancL]; exact hb1
          · rw [e_root]; exact hb2
        · intro _
          rw [hch.2]
          simp only [Option.getD_some, gFloor]
          rw [if_pos (show i3.n_ancestry ≠ 0 from by rw [e_n]; exact hlen0)]
          simp only [dkr_import_report_progress, hlj, newJob]
          exact le_trans (Nat.le_add_right 20 _) (Nat.le_add_right _ _)
        · intro _
          rw [hchm.2]
          have hmfe : metaFloor i3 = metaFloor i := by
            simp [metaFloor, dkr_import_report_progress, e_anc, e_json, hj,
              jobPercent]
          rw [hmfe]
          exact hInv.lastM halive
        · intro hcb _
          exfalso
          rcases List.mem_append.mp hcb with h2 | h2
          · exact alive_no_cb halive none h2
          · simp at h2

theorem inv_step_succ_layer {i : DkrImport} {fs : FS} {obs : List Obs}
    {payload : List Char} {tarOk : Bool} (hInv : Inv i fs obs)
    (halive : aliveB obs = true)
    (hok : evOK i fs (.jobSucceeded .layer payload tarOk) = true) :
    Inv (handleEvent i fs (.jobSucceeded .layer payload tarOk)).1
      (handleEvent i fs (.jobSucceeded .layer payload tarOk)).2.1
      (obs ++ (handleEvent i fs (.jobSucceeded .layer payload tarOk)).2.2) := by
  obtain ⟨j, hj, hjrun, ht, hfin⟩ : ∃ j, i.layer_job = some j ∧
      j.state = .running ∧ i.temp_path.isSome = true ∧
      i.final_path.isSome = true := by
    simp only [evOK] at hok
    cases hgj : i.layer_job with
    | none =>
      rw [show getJob i .layer = i.layer_job from rfl, hgj] at hok
      simp [jobRunning] at hok
    | some j =>
      rw [show getJob i .layer = i.layer_job from rfl, hgj] at hok
      simp [jobRunning] at hok
      exact ⟨j, rfl, hok.1, hok.2.1, hok.2.2⟩
  obtain ⟨t, htv⟩ : ∃ t, i.temp_path = some t := Option.isSome_iff_exists.mp ht
  obtain ⟨hancd, hnz, hclt, lay, hlay, hfp⟩ :=
    hInv.layerSome halive (by simp [hj])
  have htarpos : 0 < i.tar_pid := (hInv.tempTar halive).1.mp ht
  have hpct := hInv.pct100 halive
  have himg : i.images_job.isSome = true :=
    hInv.jobsImages (Or.inr (Or.inr (Or.inr (by simp [hj]))))
  have hp100 : j.progress_percent ≤ 100 := by
    have := hpct .layer
    simpa [getJob, hj, jobPercent] using this
  cases tarOk with
  | false =>
    have hred : handleEvent i fs (.jobSucceeded .layer payload false) =
        (({ i with layer_job := some { j with state := .done }, tar_pid := 0 } : DkrImport), fs, [.finishedCb (some .EPROTO)]) := by
      simp [handleEvent, setJob, getJob, hj, setJobState,
        dkr_import_job_on_finished, htarpos]
    rw [hred]
    apply inv_dead_step (by simp [aliveB])
    · exact himg
    · intro _
      exact hancd
    · exact (chains_extend_nil hInv.chainNM (by simp [nonMetaPcts])).1
    · exact (chains_extend_nil_m hInv.chainM (by simp [metaPcts])).1
    · intro hcb _
      exfalso
      rcases List.mem_append.mp hcb with h2 | h2
      · exact alive_no_cb halive none h2
      · simp at h2
  | true =>
    by_cases hconf : layerPath i.image_root lay ∈ fs.dirs
    · -- the rename-conflict slip: success callback despite the failed rename
      have hred : handleEvent i fs (.jobSucceeded .layer payload true) =
          (({ i with layer_job := some { j with state := .done }, tar_pid := 0 } : DkrImport),
           ({ fs with ro := t :: fs.ro } : FS),
           [.setReadOnly t, .renameFailed t (layerPath i.image_root lay),
            .finishedCb none]) := by
        simp [handleEvent, setJob, getJob, hj, setJobState,
          dkr_import_job_on_finished, htarpos, htv, hfp, hconf]
      rw [hred]
      apply inv_dead_step (by simp [aliveB])
      · exact himg
      · intro _
        exact hancd
      · exact (chains_extend_nil hInv.chainNM (by simp [nonMetaPcts])).1
      · exact (chains_extend_nil_m hInv.chainM (by simp [metaPcts])).1
      · intro _ hnr
        exfalso
        exact hnr t (layerPath i.image_root lay) (by simp)
    · obtain ⟨i4, o, heq, hupd, hmono, hbound, hparent, hdich⟩ :=
        pull_layer_spec ({ i with layer_job := none, temp_path := none, final_path := none, current_ancestry := i.current_ancestry + 1, tar_pid := 0 } : DkrImport)
          ({ dirs := layerPath i.image_root lay :: fs.dirs.erase t, ro := layerPath i.image_root lay :: fs.ro } : FS)
      have e_img : i4.images_job = i.images_job := by rw [hupd]
      have e_tags : i4.tags_job = i.tags_job := by rw [hupd]
      have e_anc : i4.ancestry_job = i.ancestry_job := by rw [hupd]
      have e_json : i4.json_job = i.json_job := by rw [hupd]
      have e_ancL : i4.ancestry = i.ancestry := by rw [hupd]
      have e_n : i4.n_ancestry = i.n_ancestry := by rw [hupd]
      have e_temp : i4.temp_path = none := by rw [hupd]
      have e_tar : i4.tar_pid = 0 := by rw [hupd]
      have e_root : i4.image_root = i.image_root := by rw [hupd]
      have hm4 : i.current_ancestry + 1 ≤ i4.current_ancestry := hmono
      have hb4 : i4.current_ancestry ≤ i.ancestry.length :=
        hbound (by simpa using hclt)
      rcases hdich with ⟨ho, hlj, hfp4, hcl⟩ |
        ⟨lay2, hlay4, hnotin4, hfp4, hlj4, ho, hlt4⟩
      · subst ho
        have hlj0 : i4.layer_job = none := by rw [hlj]
        by_cases hd : dkr_import_is_done i4 = true
        · obtain ⟨i5, fs5, o2, r, hmd, hplain, hj1, hj2, hj3, hj4, hj5⟩ :=
            @maybe_done_done i4 ({ dirs := layerPath i.image_root lay :: fs.dirs.erase t, ro := layerPath i.image_root lay :: fs.ro } : FS) hd
          obtain ⟨hnm, hm, hrep, hdeadT⟩ := doneObs_spec o2 r hplain
          have hred : handleEvent i fs (.jobSucceeded .layer payload true) =
              (i5, fs5, Obs.setReadOnly t ::
                Obs.renamed t (layerPath i.image_root lay) ::
                Obs.progressReport .DKR_COPYING 95 :: o2 ++ [.finishedCb r]) := by
            simp [handleEvent, setJob, getJob, hj, setJobState,
              dkr_import_job_on_finished, htarpos, htv, hfp, hconf, heq, hmd]
          rw [hred]
          have hsh : (Obs.setReadOnly t ::
              Obs.renamed t (layerPath i.image_root lay) ::
              Obs.progressReport .DKR_COPYING 95 :: o2 ++ [.finishedCb r]) =
              [Obs.setReadOnly t, Obs.renamed t (layerPath i.image_root lay)] ++
                (Obs.progressReport .DKR_COPYING 95 :: o2 ++ [.finishedCb r]) := rfl
          have hgf95 : gFloor i ≤ 95 := gFloor_le_95 i hpct (hInv.curLe halive)
            (hInv.lenA halive)
            (fun jx hjx => (hInv.layerSome halive (by simp [hjx])).2.2.1)
          apply inv_dead_step
          · rw [hsh, aliveB_append, hdeadT]
            simp
          · rw [hj1, e_img]
            exact himg
          · intro _
            rw [hj3, e_anc]
            exact hancd
          · rw [nonMetaPcts_append]
            rw [show nonMetaPcts (Obs.setReadOnly t ::
              Obs.renamed t (layerPath i.image_root lay) ::
              Obs.progressReport .DKR_COPYING 95 :: o2 ++ [.finishedCb r]) =
                nonMetaPcts (Obs.progressReport .DKR_COPYING 95 :: o2 ++
                  [.finishedCb r]) from by rw [hsh, nonMetaPcts_append]; simp [nonMetaPcts]]
            rw [hnm]
            apply chain_append_le _ _ hInv.chainNM (by simp)
            intro y hy
            simp at hy
            have := hInv.lastNM halive
            omega
          · rw [metaPcts_append]
            rw [show metaPcts (Obs.setReadOnly t ::
              Obs.renamed t (layerPath i.image_root lay) ::
              Obs.progressReport .DKR_COPYING 95 :: o2 ++ [.finishedCb r]) =
                metaPcts (Obs.progressReport .DKR_COPYING 95 :: o2 ++
                  [.finishedCb r]) from by rw [hsh, metaPcts_append]; simp [metaPcts]]
            rw [hm]
            simpa using hInv.chainM
          · intro _ _
            rw [reportsOf_append]
            apply getLast_append_some
            rw [hsh, reportsOf_append]
            exact getLast_append_some _ hrep
        · have hd2 : dkr_import_is_done i4 = false := by simpa using hd
          have hred : handleEvent i fs (.jobSucceeded .layer payload true) =
              (i4, ({ dirs := layerPath i.image_root lay :: fs.dirs.erase t, ro := layerPath i.image_root lay :: fs.ro } : FS),
               [Obs.setReadOnly t, Obs.renamed t (layerPath i.image_root lay)]) := by
            simp [handleEvent, setJob, getJob, hj, setJobState,
              dkr_import_job_on_finished, htarpos, htv, hfp, hconf, heq,
              maybe_done_false hd2]
          rw [hred]
          have hch := chains_extend_nil hInv.chainNM
            (show nonMetaPcts [Obs.setReadOnly t,
              Obs.renamed t (layerPath i.image_root lay)] = []
              by simp [nonMetaPcts])
          have hchm := chains_extend_nil_m hInv.chainM
            (show metaPcts [Obs.setReadOnly t,
              Obs.renamed t (layerPath i.image_root lay)] = []
              by simp [metaPcts])
          refine ⟨?_, ?_, ?_, ?_, ?_, ?_, ?_, ?_, ?_, ?_, ?_, ?_, ?_, hch.1,
            hchm.1, ?_, ?_, ?_⟩
          · intro _ jid2
            cases jid2 with
            | images => rw [show getJob i4 .images = i4.images_job from rfl, e_img]; exact hpct .images
            | tags => rw [show getJob i4 .tags = i4.tags_job from rfl, e_tags]; exact hpct .tags
            | ancestry => rw [show getJob i4 .ancestry = i4.ancestry_job from rfl, e_anc]; exact hpct .ancestry
            | json => rw [show getJob i4 .json = i4.json_job from rfl, e_json]; exact hpct .json
            | layer => rw [show getJob i4 .layer = i4.layer_job from rfl, hlj0]; simp [jobPercent]
          · intro _; rw [e_n, e_ancL]; exact hInv.lenA halive
          · intro _; rw [e_ancL]; exact hb4
          · intro hni
            exfalso
            rw [e_img] at hni
            rw [hni] at himg
            simp at himg
          · intro _; rw [e_img]; exact himg
          · intro _; rw [e_img]; exact himg
          · intro _ h2
            exfalso
            rw [e_img] at h2
            obtain ⟨-, -, -, hc, -⟩ := hInv.imagesRun halive h2
            rw [hj] at hc
            exact Option.noConfusion hc
          · intro _ h2
            exfalso
            rw [e_tags] at h2
            obtain ⟨-, -, hc, -⟩ := hInv.tagsRun halive h2
            rw [hj] at hc
            exact Option.noConfusion hc
          · intro _ h2
            exfalso
            rw [e_anc] at h2
            exact jobRunning_not_done h2 hancd
          · intro _ h2
            exfalso
            rw [hlj0] at h2
            simp at h2
          · intro _
            rw [e_anc]
            exact hancd
          · intro _
            constructor
            · rw [e_temp, e_tar]
              simp
            · intro hts
              exfalso
              rw [e_temp] at hts
              simp at hts
          · intro _ h2 _
            exfalso
            rw [hlj0] at h2
            simp at h2
          · intro _
            rw [hch.2]
            show (nonMetaPcts obs).getLast?.getD 0 ≤ gFloor i4
            have hle : gFloor i ≤ gFloor i4 := by
              simp only [gFloor]
              rw [if_pos hnz, if_pos (show i4.n_ancestry ≠ 0 from by rw [e_n]; exact hnz)]
              simp only [dkr_import_report_progress, hj, hlj0, e_n]
              have := dl_progress_le i.n_ancestry i.current_ancestry
                i4.current_ancestry j.progress_percent hp100 (by omega)
              omega
            have := hInv.lastNM halive
            omega
          · intro _
            rw [hchm.2]
            have hmfe : metaFloor i4 = metaFloor i := by
              simp [metaFloor, dkr_import_report_progress, e_anc, e_json]
            rw [hmfe]
            exact hInv.lastM halive
          · intro hcb _
            exfalso
            rcases List.mem_append.mp hcb with h2 | h2
            · exact alive_no_cb halive none h2
            · simp at h2
      · subst ho
        have hd4 : dkr_import_is_done i4 = false := by
          simp [dkr_import_is_done, hlj4, newJob]
        have hred : handleEvent i fs (.jobSucceeded .layer payload true) =
            (i4, ({ dirs := layerPath i.image_root lay :: fs.dirs.erase t, ro := layerPath i.image_root lay :: fs.ro } : FS),
             [Obs.setReadOnly t, Obs.renamed t (layerPath i.image_root lay),
              Obs.request .layer (layerUrl ({ i with layer_job := none, temp_path := none, final_path := none, current_ancestry := i.current_ancestry + 1, tar_pid := 0 } : DkrImport) lay2)]) := by
          simp [handleEvent, setJob, getJob, hj, setJobState,
            dkr_import_job_on_finished, htarpos, htv, hfp, hconf, heq,
            maybe_done_false hd4]
        rw [hred]
        have hch := chains_extend_nil hInv.chainNM
          (show nonMetaPcts [Obs.setReadOnly t,
            Obs.renamed t (layerPath i.image_root lay),
            Obs.request .layer (layerUrl ({ i with layer_job := none, temp_path := none, final_path := none, current_ancestry := i.current_ancestry + 1, tar_pid := 0 } : DkrImport) lay2)] = []
            by simp [nonMetaPcts])
        have hchm := chains_extend_nil_m hInv.chainM
          (show metaPcts [Obs.setReadOnly t,
            Obs.renamed t (layerPath i.image_root lay),
            Obs.request .layer (layerUrl ({ i with layer_job := none, temp_path := none, final_path := none, current_ancestry := i.current_ancestry + 1, tar_pid := 0 } : DkrImport) lay2)] = []
            by simp [metaPcts])
        refine ⟨?_, ?_, ?_, ?_, ?_, ?_, ?_, ?_, ?_, ?_, ?_, ?_, ?_, hch.1,
          hchm.1, ?_, ?_, ?_⟩
        · intro _ jid2
          cases jid2 with
          | images => rw [show getJob i4 .images = i4.images_job from rfl, e_img]; exact hpct .images
          | tags => rw [show getJob i4 .tags = i4.tags_job from rfl, e_tags]; exact hpct .tags
          | ancestry => rw [show getJob i4 .ancestry = i4.ancestry_job from rfl, e_anc]; exact hpct .ancestry
          | json => rw [show getJob i4 .json = i4.json_job from rfl, e_json]; exact hpct .json
          | layer => rw [show getJob i4 .layer = i4.layer_job from rfl, hlj4]; simp [jobPercent, newJob]
        · intro _; rw [e_n, e_ancL]; exact hInv.lenA halive
        · intro _; rw [e_ancL]; exact hb4
        · intro hni
          exfalso
          rw [e_img] at hni
          rw [hni] at himg
          simp at himg
        · intro _; rw [e_img]; exact himg
        · intro _; rw [e_img]; exact himg
        · intro _ h2
          exfalso
          rw [e_img] at h2
          obtain ⟨-, -, -, hc, -⟩ := hInv.imagesRun halive h2
          rw [hj] at hc
          exact Option.noConfusion hc
        · intro _ h2
          exfalso
          rw [e_tags] at h2
          obtain ⟨-, -, hc, -⟩ := hInv.tagsRun halive h2
          rw [hj] at hc
          exact Option.noConfusion hc
        · intro _ h2
          exfalso
          rw [e_anc] at h2
          exact jobRunning_not_done h2 hancd
        · intro _ _
          refine ⟨?_, ?_, ?_, lay2, ?_, ?_⟩
          · rw [e_anc]; exact hancd
          · rw [e_n]; exact hnz
          · rw [e_ancL]; exact hlt4
          · rw [e_ancL]; exact hlay4
          · rw [e_root]; exact hfp4
        · intro _
          rw [e_anc]
          exact hancd
        · intro _
          constructor
          · rw [e_temp, e_tar]
            simp
          · intro hts
            exfalso
            rw [e_temp] at hts
            simp at hts
        · intro _ _ hpos
          by_cases hcc : i.current_ancestry + 1 < i4.current_ancestry
          · obtain ⟨b, hb1, hb2⟩ := hparent hcc
            refine ⟨b, ?_, ?_⟩
            · rw [e_ancL]; exact hb1
            · rw [e_root]; exact hb2
          · have hc4 : i4.current_ancestry = i.current_ancestry + 1 := by omega
            refine ⟨lay, ?_, ?_⟩
            · rw [e_ancL, hc4]
              simpa using hlay
            · rw [e_root]; simp
        · intro _
          rw [hch.2]
          show (nonMetaPcts obs).getLast?.getD 0 ≤ gFloor i4
          have hle : gFloor i ≤ gFloor i4 := by
            simp only [gFloor]
            rw [if_pos hnz, if_pos (show i4.n_ancestry ≠ 0 from by rw [e_n]; exact hnz)]
            simp only [dkr_import_report_progress, hj, hlj4, newJob, e_n,
              Nat.zero_mul, Nat.zero_div]
            have := dl_progress_le i.n_ancestry i.current_ancestry
              i4.current_ancestry j.progress_percent hp100 (by omega)
            omega
          have := hInv.lastNM halive
          omega
        · intro _
          rw [hchm.2]
          have hmfe : metaFloor i4 = metaFloor i := by
            simp [metaFloor, dkr_import_report_progress, e_anc, e_json]
          rw [hmfe]
          exact hInv.lastM halive
        · intro hcb _
          exfalso
          rcases List.mem_append.mp hcb with h2 | h2
          · exact alive_no_cb halive none h2
          · simp at h2

theorem inv_init {index_url : String} {image_root : Option String}
    {i : DkrImport} (h : dkr_import_new index_url image_root = some i)
    (fs : FS) : Inv i fs [] := by
  unfold dkr_import_new at h
  split at h
  · exact absurd h (by simp)
  · injection h with hi
    subst hi
    refine ⟨?_, ?_, ?_, ?_, ?_, ?_, ?_, ?_, ?_, ?_, ?_, ?_, ?_, ?_, ?_,
      ?_, ?_, ?_⟩
    · intro _ jid
      cases jid <;> simp [getJob, jobPercent]
    · intro _; rfl
    · intro _; simp
    · intro _; exact ⟨rfl, rfl⟩
    · intro h2
      rcases h2 with h3 | h3 | h3 | h3 <;> simp at h3
    · rintro ⟨r, hr⟩
      simp at hr
    · intro _ h2
      simp [jobRunning] at h2
    · intro _ h2
      simp [jobRunning] at h2
    · intro _ h2
      simp [jobRunning] at h2
    · intro _ h2
      simp at h2
    · rintro ⟨u, hu⟩
      simp at hu
    · intro _
      simp
    · intro _ h2
      simp at h2
    · simp [nonMetaPcts]
    · simp [metaPcts]
    · intro _
      simp [nonMetaPcts, gFloor]
    · intro _
      simp [metaPcts]
    · intro h2
      simp at h2

theorem inv_pull {i : DkrImport} {fs : FS} {obs : List Obs} {name : String}
    {tag l : Option String} {force : Bool} {i2 : DkrImport} {o : List Obs}
    (hInv : Inv i fs obs)
    (hp : dkr_import_pull i name tag l force = (none, i2, o)) :
    Inv i2 fs (obs ++ o) := by
  unfold dkr_import_pull at hp
  split at hp
  · simp at hp
  · split at hp
    · simp at hp
    · split at hp
      · simp at hp
      · split at hp
        · simp at hp
        · rename_i hname htag hlocal hbusy
          have himgN : i.images_job = none :=
            Option.not_isSome_iff_eq_none.mp hbusy
          obtain ⟨hobs, hn0⟩ := hInv.obsEmpty himgN
          subst hobs
          have halive : aliveB [] = true := rfl
          have ht0 : i.tags_job = none := by
            cases hx : i.tags_job with
            | none => rfl
            | some v =>
              have := hInv.jobsImages (Or.inl (by simp [hx]))
              rw [himgN] at this
              simp at this
          have ha0 : i.ancestry_job = none := by
            cases hx : i.ancestry_job with
            | none => rfl
            | some v =>
              have := hInv.jobsImages (Or.inr (Or.inl (by simp [hx])))
              rw [himgN] at this
              simp at this
          have hjs0 : i.json_job = none := by
            cases hx : i.json_job with
            | none => rfl
            | some v =>
              have := hInv.jobsImages (Or.inr (Or.inr (Or.inl (by simp [hx]))))
              rw [himgN] at this
              simp at this
          have hl0 : i.layer_job = none := by
            cases hx : i.layer_job with
            | none => rfl
            | some v =>
              have := hInv.jobsImages (Or.inr (Or.inr (Or.inr (by simp [hx]))))
              rw [himgN] at this
              simp at this
          have htempn : i.temp_path = none := by
            cases hx : i.temp_path with
            | none => rfl
            | some t =>
              exfalso
              have h5 := (hInv.tempTar halive).2 (by simp [hx])
              rw [hl0] at h5
              simp at h5
          have htar0 : i.tar_pid = 0 := by
            by_contra hc
            have h5 := (hInv.tempTar halive).1.mpr (by omega)
            rw [htempn] at h5
            simp at h5
          obtain ⟨hi2, ho⟩ : i2 = ({ i with localName := l, force_local := force, name := some name, tag := some (tag.getD "latest"), images_job := some (newJob (imagesUrl i name)) } : DkrImport) ∧ o = [.request .images (imagesUrl i name)] := by
            have hp2 := hp.symm
            simp at hp2
            exact ⟨hp2.1, hp2.2⟩
          subst hi2
          subst ho
          refine ⟨?_, ?_, ?_, ?_, ?_, ?_, ?_, ?_, ?_, ?_, ?_, ?_, ?_, ?_,
            ?_, ?_, ?_, ?_⟩
          · intro _ jid
            cases jid with
            | images => simp [getJob, jobPercent, newJob]
            | tags => exact hInv.pct100 halive .tags
            | ancestry => exact hInv.pct100 halive .ancestry
            | json => exact hInv.pct100 halive .json
            | layer => exact hInv.pct100 halive .layer
          · intro _; exact hInv.lenA halive
          · intro _; exact hInv.curLe halive
          · intro hni; exfalso; simp at hni
          · intro _; rfl
          · intro _; rfl
          · intro _ _
            exact ⟨ht0, ha0, hjs0, hl0, hn0⟩
          · intro _ h2
            exfalso
            have h3 : jobRunning i.tags_job = true := h2
            rw [ht0] at h3
            simp [jobRunning] at h3
          · intro _ h2
            exfalso
            have h3 : jobRunning i.ancestry_job = true := h2
            rw [ha0] at h3
            simp [jobRunning] at h3
          · intro _ h2
            exfalso
            have h3 : i.layer_job.isSome = true := h2
            rw [hl0] at h3
            simp at h3
          · rintro ⟨u, hu⟩
            exfalso
            simp at hu
          · intro _
            constructor
            · rw [show ({ i with localName := l, force_local := force, name := some name, tag := some (tag.getD "latest"), images_job := some (newJob (imagesUrl i name)) } : DkrImport).temp_path = i.temp_path from rfl, htempn, htar0]
              simp
            · intro hts
              exfalso
              rw [show ({ i with localName := l, force_local := force, name := some name, tag := some (tag.getD "latest"), images_job := some (newJob (imagesUrl i name)) } : DkrImport).temp_path = i.temp_path from rfl, htempn] at hts
              simp at hts
          · intro _ h2 _
            exfalso
            have h3 : i.layer_job.isSome = true := h2
            rw [hl0] at h3
            simp at h3
          · simp [nonMetaPcts]
          · simp [metaPcts]
          · intro _
            simp [nonMetaPcts]
          · intro _
            simp [metaPcts]
          · intro h2 _
            exfalso
            simp at h2

/-- Every reachable configuration satisfies the session invariant. -/
theorem reach_inv {i : DkrImport} {fs : FS} {obs : List Obs}
    (h : Reach i fs obs) : Inv i fs obs := by
  induction h with
  | init index_url image_root fs i hnew => exact inv_init hnew fs
  | pull i fs obs name tag l force i2 o h hp ih => exact inv_pull ih hp
  | step i fs obs e i2 fs2 o h halive hok hstep ih =>
    cases e with
    | headerToken tok =>
      have hgen : Inv (handleEvent i fs (.headerToken tok)).1
          (handleEvent i fs (.headerToken tok)).2.1
          (obs ++ (handleEvent i fs (.headerToken tok)).2.2) :=
        inv_step_headerToken ih halive hok
      rw [hstep] at hgen
      exact hgen
    | headerRegistries raw =>
      have hgen := inv_step_headerRegistries ih halive hok
      rw [hstep] at hgen
      exact hgen
    | jobProgress jid pct =>
      have hgen := inv_step_progress ih halive hok
      rw [hstep] at hgen
      exact hgen
    | jobSucceeded jid payload tarOk =>
      cases jid with
      | images =>
        have hgen := inv_step_succ_images ih halive hok
        rw [hstep] at hgen
        exact hgen
      | tags =>
        have hgen := inv_step_succ_tags ih halive hok
        rw [hstep] at hgen
        exact hgen
      | ancestry =>
        have hgen := inv_step_succ_ancestry ih halive hok
        rw [hstep] at hgen
        exact hgen
      | json =>
        have hgen := inv_step_succ_json ih halive hok
        rw [hstep] at hgen
        exact hgen
      | layer =>
        have hgen := inv_step_succ_layer ih halive hok
        rw [hstep] at hgen
        exact hgen
    | jobFailed jid err =>
      have hgen : Inv (handleEvent i fs (.jobFailed jid err)).1
          (handleEvent i fs (.jobFailed jid err)).2.1
          (obs ++ (handleEvent i fs (.jobFailed jid err)).2.2) :=
        inv_step_jobFailed ih halive hok
      rw [hstep] at hgen
      exact hgen
    | openDisk suffix =>
      have hgen := inv_step_openDisk ih halive hok
      rw [hstep] at hgen
      exact hgen
    | externalMkdir p =>
      have hgen : Inv (handleEvent i fs (.externalMkdir p)).1
          (handleEvent i fs (.externalMkdir p)).2.1
          (obs ++ (handleEvent i fs (.externalMkdir p)).2.2) :=
        inv_step_external ih halive
      rw [hstep] at hgen
      exact hgen

theorem reach_run (es : List Ev) :
    ∀ {i : DkrImport} {fs : FS} {obs : List Obs}
      {cfg : DkrImport × FS × List Obs}, Reach i fs obs →
      runEvents i fs obs es = some cfg → Reach cfg.1 cfg.2.1 cfg.2.2 := by
  induction es with
  | nil =>
    intro i fs obs cfg h hr
    simp only [runEvents] at hr
    injection hr with h2
    subst h2
    exact h
  | cons e es ih =>
    intro i fs obs cfg h hr
    simp only [runEvents] at hr
    split at hr
    · rename_i hcond
      rw [Bool.and_eq_true] at hcond
      exact ih (Reach.step i fs obs e _ _ _ h hcond.1 hcond.2 rfl) hr
    · exact absurd hr (by simp)

theorem pull0_eq :
    dkr_import_pull sess0 "foo" none none false = (none, pull0.2.1, pull0.2.2) :=
  rfl

theorem sess0_new : dkr_import_new "http://idx.example" none = some sess0 := by
  decide

/-- Every configuration an executable run produces is reachable. -/
theorem reach_cfgOf (fs : FS) (evs : List Ev)
    (h : (runFrom fs evs).isSome = true) :
    Reach (cfgOf fs evs).1 (cfgOf fs evs).2.1 (cfgOf fs evs).2.2 := by
  have h0 : Reach sess0 fs [] :=
    Reach.init "http://idx.example" none fs sess0 sess0_new
  have h1 : Reach pull0.2.1 fs pull0.2.2 := by
    have h2 := Reach.pull sess0 fs [] "foo" none none false pull0.2.1
      pull0.2.2 h0 pull0_eq
    simpa using h2
  obtain ⟨cfg, hcfg⟩ := Option.isSome_iff_exists.mp h
  have hr : runFrom fs evs =
      some ((cfgOf fs evs).1, (cfgOf fs evs).2.1, (cfgOf fs evs).2.2) := by
    simp [cfgOf, hcfg]
  exact reach_run evs h1 hr

/-! ### Tokenization lemmas -/

theorem lexListF_congr :
    ∀ f1 : Nat, ∀ cs : List Char, ∀ f2 : Nat, cs.length < f1 → cs.length < f2 →
      lexListF f1 cs = lexListF f2 cs := by
  intro f1
  induction f1 with
  | zero => intro cs f2 h1 _; omega
  | succ f ih =>
    intro cs f2 h1 h2
    cases f2 with
    | zero => omega
    | succ g =>
      simp only [lexListF]
      cases h : json_tokenize cs with
      | none => rfl
      | some tr =>
        obtain ⟨t, rest⟩ := tr
        cases t with
        | eof => rfl
        | arrayOpen =>
          have hr : rest.length < cs.length :=
            json_tokenize_shrink cs _ rest h (by simp)
          simp only [ih rest g (by omega) (by omega)]
        | arrayClose =>
          have hr : rest.length < cs.length :=
            json_tokenize_shrink cs _ rest h (by simp)
          simp only [ih rest g (by omega) (by omega)]
        | comma =>
          have hr : rest.length < cs.length :=
            json_tokenize_shrink cs _ rest h (by simp)
          simp only [ih rest g (by omega) (by omega)]
        | str s =>
          have hr : rest.length < cs.length :=
            json_tokenize_shrink cs _ rest h (by simp)
          simp only [ih rest g (by omega) (by omega)]

theorem lexList_none {cs : List Char} (h : json_tokenize cs = none) :
    lexList cs = ([], false) := by
  simp only [lexList, lexListF, h]

theorem lexList_eof {cs : List Char} {r : List Char}
    (h : json_tokenize cs = some (.eof, r)) : lexList cs = ([], true) := by
  simp only [lexList, lexListF, h]

theorem lexListF_succ (f : Nat) (cs : List Char) :
    lexListF (f + 1) cs =
      match json_tokenize cs with
      | none => ([], false)
      | some (.eof, _) => ([], true)
      | some (t, rest) => (t :: (lexListF f rest).1, (lexListF f rest).2) := rfl

theorem lexList_cons {cs rest : List Char} {t : JsonToken}
    (h : json_tokenize cs = some (t, rest)) (ht : t ≠ .eof) :
    lexList cs = (t :: (lexList rest).1, (lexList rest).2) := by
  have hr : rest.length < cs.length := json_tokenize_shrink cs t rest h ht
  have hcong : lexListF cs.length rest = lexListF (rest.length + 1) rest :=
    lexListF_congr _ _ _ (by omega) (by omega)
  show lexListF (cs.length + 1) cs = _
  rw [lexListF_succ, h]
  cases t with
  | eof => exact absurd rfl ht
  | arrayOpen => simp only [lexList, hcong]
  | arrayClose => simp only [lexList, hcong]
  | comma => simp only [lexList, hcong]
  | str s => simp only [lexList, hcong]

/-- parse_ancestry_loop agrees with the token-level parser run on the
payload's token stream, for any sufficient fuel. -/
theorem parse_loop_eq_parseTokens :
    ∀ fuel : Nat, ∀ cs : List Char, ∀ st l n, cs.length < fuel →
      parse_ancestry_loop fuel cs st l n =
        parseTokens (lexList cs).1 (lexList cs).2 st l n := by
  intro fuel
  induction fuel with
  | zero => intro cs st l n h; omega
  | succ f ih =>
    intro cs st l n h
    simp only [parse_ancestry_loop]
    cases htok : json_tokenize cs with
    | none =>
      rw [lexList_none htok]
      cases st <;> simp [parseTokens]
    | some tr =>
      obtain ⟨t, rest⟩ := tr
      cases t with
      | eof =>
        rw [lexList_eof htok]
        cases st <;> simp [parseTokens]
      | arrayOpen =>
        rw [lexList_cons htok (by simp)]
        have hr : rest.length < f :=
          lt_of_lt_of_le (json_tokenize_shrink cs _ rest htok (by simp)) (by omega)
        cases st <;> simp [parseTokens, ih rest _ l n hr]
      | arrayClose =>
        rw [lexList_cons htok (by simp)]
        have hr : rest.length < f :=
          lt_of_lt_of_le (json_tokenize_shrink cs _ rest htok (by simp)) (by omega)
        cases st <;> simp [parseTokens, ih rest _ l n hr]
      | comma =>
        rw [lexList_cons htok (by simp)]
        have hr : rest.length < f :=
          lt_of_lt_of_le (json_tokenize_shrink cs _ rest htok (by simp)) (by omega)
        cases st <;> simp [parseTokens, ih rest _ l n hr]
      | str s =>
        rw [lexList_cons htok (by simp)]
        have hr : rest.length < f :=
          lt_of_lt_of_le (json_tokenize_shrink cs _ rest htok (by simp)) (by omega)
        cases st <;> simp only [parseTokens] <;> split <;>
          simp [ih rest _ _ _ hr]

/-! ### Characterization of the token-level parser -/

theorem accepts_nil {st : AncestryState} {ids : List String} :
    ¬ Accepts st [] ids := fun h => by cases h

theorem accepts_item_cons {t : JsonToken} {ts : List JsonToken} {ids : List String} :
    Accepts .STATE_ITEM (t :: ts) ids ↔
      (t = .arrayClose ∧ ts = [] ∧ ids = []) ∨
      (∃ s ids2, t = .str s ∧ ids = s :: ids2 ∧ Accepts .STATE_COMMA ts ids2) := by
  constructor
  · intro h
    cases h with
    | closeItem => exact Or.inl ⟨rfl, rfl, rfl⟩
    | strStep s ts ids2 h2 => exact Or.inr ⟨s, ids2, rfl, rfl, h2⟩
  · intro h
    rcases h with ⟨rfl, rfl, rfl⟩ | ⟨s, ids2, rfl, rfl, h2⟩
    · exact .closeItem
    · exact .strStep s ts ids2 h2

theorem accepts_comma_cons {t : JsonToken} {ts : List JsonToken} {ids : List String} :
    Accepts .STATE_COMMA (t :: ts) ids ↔
      (t = .arrayClose ∧ ts = [] ∧ ids = []) ∨
      (t = .comma ∧ Accepts .STATE_ITEM ts ids) := by
  constructor
  · intro h
    cases h with
    | closeComma => exact Or.inl ⟨rfl, rfl, rfl⟩
    | commaStep ts ids h2 => exact Or.inr ⟨rfl, h2⟩
  · intro h
    rcases h with ⟨rfl, rfl, rfl⟩ | ⟨rfl, h2⟩
    · exact .closeComma
    · exact .commaStep ts ids h2

theorem parseTokens_end_ok {ts : List JsonToken} {ok : Bool} {l : List String}
    {n : Nat} {lr : List String} :
    parseTokens ts ok .STATE_END l n = .ok lr ↔
      ts = [] ∧ ok = true ∧ l ≠ [] ∧ strv_is_uniq l = true ∧ lr = l.reverse := by
  cases ts with
  | nil =>
    cases ok with
    | false => simp [parseTokens]
    | true =>
      simp only [parseTokens, if_true]
      by_cases hl : l = []
      · simp [hl]
      · by_cases hu : strv_is_uniq l = true
        · simp [hl, hu, eq_comm]
        · simp [hl, hu]
  | cons t ts => cases t <;> simp [parseTokens]

theorem parseTokens_end_error {ts : List JsonToken} {ok : Bool} {l : List String}
    {n : Nat} {e : Errno} (h : parseTokens ts ok .STATE_END l n = .error e) :
    e = .EBADMSG := by
  cases ts with
  | nil =>
    cases ok with
    | false =>
      simp [parseTokens] at h
      exact h.symm
    | true =>
      simp only [parseTokens, if_true] at h
      by_cases hl : l = []
      · simp [hl] at h; exact h.symm
      · by_cases hu : strv_is_uniq l = true
        · simp [hl, hu] at h
        · simp [hl, hu] at h; exact h.symm
  | cons t ts =>
    cases t <;> simp [parseTokens] at h <;> exact h.symm

/-- What the parser accepts from the ITEM and COMMA states: the token run
must be accepted by the grammar relation, and the collected strings must be
valid, within the layer bound, and (together with the accumulator) non-empty
and duplicate-free. -/
theorem parseTokens_ok_char :
    ∀ ts : List JsonToken, ∀ ok : Bool, ∀ l : List String, ∀ n : Nat,
      ∀ lr : List String, n ≤ LAYERS_MAX →
      ((parseTokens ts ok .STATE_ITEM l n = .ok lr ↔
         ∃ ids, Accepts .STATE_ITEM ts ids ∧ ok = true ∧
           (∀ s ∈ ids, dkr_id_is_valid s = true) ∧ n + ids.length ≤ LAYERS_MAX ∧
           l ++ ids ≠ [] ∧ strv_is_uniq (l ++ ids) = true ∧
           lr = (l ++ ids).reverse) ∧
       (parseTokens ts ok .STATE_COMMA l n = .ok lr ↔
         ∃ ids, Accepts .STATE_COMMA ts ids ∧ ok = true ∧
           (∀ s ∈ ids, dkr_id_is_valid s = true) ∧ n + ids.length ≤ LAYERS_MAX ∧
           l ++ ids ≠ [] ∧ strv_is_uniq (l ++ ids) = true ∧
           lr = (l ++ ids).reverse)) := by
  intro ts
  induction ts with
  | nil =>
    intro ok l n lr hn
    constructor
    · constructor
      · intro h; exfalso; cases ok <;> simp [parseTokens] at h
      · rintro ⟨ids, hacc, -⟩; exact absurd hacc accepts_nil
    · constructor
      · intro h; exfalso; cases ok <;> simp [parseTokens] at h
      · rintro ⟨ids, hacc, -⟩; exact absurd hacc accepts_nil
  | cons t ts ih =>
    intro ok l n lr hn
    constructor
    · -- ITEM state
      cases t with
      | str s =>
        by_cases hv : dkr_id_is_valid s = true
        · by_cases hbig : LAYERS_MAX < n + 1
          · constructor
            · intro h; exfalso
              simp [parseTokens, hv, hbig] at h
            · rintro ⟨ids, hacc, -, -, hlen, -⟩
              exfalso
              rcases accepts_item_cons.mp hacc with ⟨hne0, -⟩ | ⟨s2, ids2, -, hids, -⟩
              · exact JsonToken.noConfusion hne0
              · subst hids; simp at hlen; omega
          · constructor
            · intro h
              simp only [parseTokens, hv, Bool.not_true, Bool.false_eq_true,
                if_false, hbig] at h
              obtain ⟨ids2, hacc2, hok, hval2, hlen2, hne2, huni2, hlr2⟩ :=
                ((ih ok (l ++ [s]) (n + 1) lr (by omega)).2).mp h
              refine ⟨s :: ids2,
                accepts_item_cons.mpr (Or.inr ⟨s, ids2, rfl, rfl, hacc2⟩),
                hok, ?_, ?_, ?_, ?_, ?_⟩
              · intro x hx
                rcases List.mem_cons.mp hx with rfl | hx
                · exact hv
                · exact hval2 x hx
              · simp only [List.length_cons]; omega
              · simp
              · have hsplit : l ++ s :: ids2 = (l ++ [s]) ++ ids2 := by simp
                rw [hsplit]
                exact huni2
              · have hsplit : l ++ s :: ids2 = (l ++ [s]) ++ ids2 := by simp
                rw [hsplit]
                exact hlr2
            · rintro ⟨ids, hacc, hok, hval, hlen, hne, huni, hlr⟩
              rcases accepts_item_cons.mp hacc with ⟨hne0, -⟩ | ⟨s2, ids2, hts, hids, hacc2⟩
              · exact absurd hne0 (by simp)
              · injection hts with hs2
                subst hs2; subst hids
                simp only [parseTokens, hv, Bool.not_true, Bool.false_eq_true,
                  if_false, hbig]
                refine ((ih ok (l ++ [s]) (n + 1) lr (by omega)).2).mpr
                  ⟨ids2, hacc2, hok, ?_, ?_, ?_, ?_, ?_⟩
                · intro x hx; exact hval x (List.mem_cons_of_mem _ hx)
                · simp at hlen; omega
                · simp
                · have hsplit : l ++ s :: ids2 = (l ++ [s]) ++ ids2 := by simp
                  rw [← hsplit]
                  exact huni
                · have hsplit : l ++ s :: ids2 = (l ++ [s]) ++ ids2 := by simp
                  rw [← hsplit]
                  exact hlr
        · constructor
          · intro h; exfalso
            simp [parseTokens, hv] at h
          · rintro ⟨ids, hacc, -, hval, -⟩
            exfalso
            rcases accepts_item_cons.mp hacc with ⟨hne0, -⟩ | ⟨s2, ids2, hts, hids, -⟩
            · exact JsonToken.noConfusion hne0
            · injection hts with hs2
              subst hs2; subst hids
              exact hv (hval s (List.mem_cons_self s ids2))
      | arrayClose =>
        constructor
        · intro h
          have h2 := parseTokens_end_ok.mp h
          obtain ⟨rfl, hok, hne0, huni, hlr⟩ := h2
          exact ⟨[], .closeItem, hok, by simp, by simpa using hn,
            by simpa using hne0, by simpa using huni, by simpa using hlr⟩
        · rintro ⟨ids, hacc, hok, hval, hlen, hne0, huni, hlr⟩
          rcases accepts_item_cons.mp hacc with ⟨-, rfl, rfl⟩ | ⟨s2, ids2, hts, -⟩
          · exact parseTokens_end_ok.mpr ⟨rfl, hok, by simpa using hne0,
              by simpa using huni, by simpa using hlr⟩
          · exact JsonToken.noConfusion hts
      | arrayOpen =>
        constructor
        · intro h; exfalso; simp [parseTokens] at h
        · rintro ⟨ids, hacc, -⟩
          exfalso
          rcases accepts_item_cons.mp hacc with ⟨hts, -⟩ | ⟨s2, ids2, hts, -⟩ <;>
            exact JsonToken.noConfusion hts
      | comma =>
        constructor
        · intro h; exfalso; simp [parseTokens] at h
        · rintro ⟨ids, hacc, -⟩
          exfalso
          rcases accepts_item_cons.mp hacc with ⟨hts, -⟩ | ⟨s2, ids2, hts, -⟩ <;>
            exact JsonToken.noConfusion hts
      | eof =>
        constructor
        · intro h; exfalso; simp [parseTokens] at h
        · rintro ⟨ids, hacc, -⟩
          exfalso
          rcases accepts_item_cons.mp hacc with ⟨hts, -⟩ | ⟨s2, ids2, hts, -⟩ <;>
            exact JsonToken.noConfusion hts
    · -- COMMA state
      cases t with
      | comma =>
        constructor
        · intro h
          simp only [parseTokens] at h
          obtain ⟨ids2, hacc2, hok, hval2, hlen2, hne2, huni2, hlr2⟩ :=
            ((ih ok l n lr hn).1).mp h
          exact ⟨ids2, accepts_comma_cons.mpr (Or.inr ⟨rfl, hacc2⟩), hok,
            hval2, hlen2, hne2, huni2, hlr2⟩
        · rintro ⟨ids, hacc, hok, hval, hlen, hne0, huni, hlr⟩
          rcases accepts_comma_cons.mp hacc with ⟨hts, -⟩ | ⟨-, hacc2⟩
          · exact absurd hts (by simp)
          · simp only [parseTokens]
            exact ((ih ok l n lr hn).1).mpr ⟨ids, hacc2, hok, hval, hlen, hne0, huni, hlr⟩
      | arrayClose =>
        constructor
        · intro h
          obtain ⟨rfl, hok, hne0, huni, hlr⟩ := parseTokens_end_ok.mp h
          exact ⟨[], .closeComma, hok, by simp, by simpa using hn,
            by simpa using hne0, by simpa using huni, by simpa using hlr⟩
        · rintro ⟨ids, hacc, hok, hval, hlen, hne0, huni, hlr⟩
          rcases accepts_comma_cons.mp hacc with ⟨-, rfl, rfl⟩ | ⟨hts, -⟩
          · exact parseTokens_end_ok.mpr ⟨rfl, hok, by simpa using hne0,
              by simpa using huni, by simpa using hlr⟩
          · exact JsonToken.noConfusion hts
      | arrayOpen =>
        constructor
        · intro h; exfalso; simp [parseTokens] at h
        · rintro ⟨ids, hacc, -⟩
          exfalso
          rcases accepts_comma_cons.mp hacc with ⟨hts, -⟩ | ⟨hts, -⟩ <;>
            exact JsonToken.noConfusion hts
      | str s =>
        constructor
        · intro h; exfalso; simp [parseTokens] at h
        · rintro ⟨ids, hacc, -⟩
          exfalso
          rcases accepts_comma_cons.mp hacc with ⟨hts, -⟩ | ⟨hts, -⟩ <;>
            exact JsonToken.noConfusion hts
      | eof =>
        constructor
        · intro h; exfalso; simp [parseTokens] at h
        · rintro ⟨ids, hacc, -⟩
          exfalso
          rcases accepts_comma_cons.mp hacc with ⟨hts, -⟩ | ⟨hts, -⟩ <;>
            exact JsonToken.noConfusion hts

/-- The shape of the token runs accepted from the ITEM and COMMA states:
comma-separated strings, an optional trailing comma, then the closing
bracket. -/
theorem accepts_shape : ∀ {st ts ids}, Accepts st ts ids →
    (match st with
     | .STATE_ITEM => ts = idsTokens ids ++ [.arrayClose] ∨
         (ids ≠ [] ∧ ts = idsTokens ids ++ [.comma, .arrayClose])
     | .STATE_COMMA => ts = sepTokens ids ++ [.arrayClose] ∨
         ts = sepTokens ids ++ [.comma, .arrayClose]
     | _ => True) := by
  intro st ts ids h
  induction h with
  | closeItem => left; simp [idsTokens]
  | closeComma => left; simp [sepTokens]
  | strStep s ts ids h ih =>
    rcases ih with h1 | h2
    · left; simp [idsTokens, h1]
    · right
      exact ⟨List.cons_ne_nil s ids, by simp [idsTokens, h2]⟩
  | commaStep ts ids h ih =>
    rcases ih with h1 | ⟨hne, h2⟩
    · cases ids with
      | nil =>
        right
        simp only [idsTokens, List.nil_append] at h1
        simp [sepTokens, h1]
      | cons a l =>
        left
        simp [sepTokens, idsTokens, h1]
    · cases ids with
      | nil => exact absurd rfl hne
      | cons a l =>
        right
        simp [sepTokens, idsTokens, h2]

/-- The converse: every token run of the accepted shape has a derivation. -/
theorem accepts_of_shape : ∀ ids : List String, ∀ ts : List JsonToken,
    (ts = idsTokens ids ++ [.arrayClose] → Accepts .STATE_ITEM ts ids) ∧
    (ids ≠ [] → ts = idsTokens ids ++ [.comma, .arrayClose] →
      Accepts .STATE_ITEM ts ids) ∧
    (ts = sepTokens ids ++ [.arrayClose] → Accepts .STATE_COMMA ts ids) ∧
    (ts = sepTokens ids ++ [.comma, .arrayClose] → Accepts .STATE_COMMA ts ids) := by
  intro ids
  induction ids with
  | nil =>
    intro ts
    refine ⟨?_, ?_, ?_, ?_⟩
    · rintro rfl
      simp only [idsTokens, List.nil_append]
      exact .closeItem
    · intro h; exact absurd rfl h
    · rintro rfl
      simp only [sepTokens, List.nil_append]
      exact .closeComma
    · rintro rfl
      simp only [sepTokens, List.nil_append]
      exact .commaStep _ _ .closeItem
  | cons a l ih =>
    intro ts
    refine ⟨?_, ?_, ?_, ?_⟩
    · rintro rfl
      simp only [idsTokens, List.cons_append]
      exact .strStep a _ l ((ih _).2.2.1 rfl)
    · intro _
      rintro rfl
      simp only [idsTokens, List.cons_append]
      exact .strStep a _ l ((ih _).2.2.2 rfl)
    · rintro rfl
      simp only [sepTokens, List.cons_append]
      exact .commaStep _ _ (.strStep a _ l ((ih _).2.2.1 rfl))
    · rintro rfl
      simp only [sepTokens, List.cons_append]
      exact .commaStep _ _ (.strStep a _ l ((ih _).2.2.2 rfl))

theorem accepts_item_iff {ts : List JsonToken} {ids : List String} :
    Accepts .STATE_ITEM ts ids ↔
      (ts = idsTokens ids ++ [.arrayClose] ∨
       (ids ≠ [] ∧ ts = idsTokens ids ++ [.comma, .arrayClose])) := by
  constructor
  · intro h; exact accepts_shape h
  · rintro (h | ⟨hne, h⟩)
    · exact (accepts_of_shape ids ts).1 h
    · exact (accepts_of_shape ids ts).2.1 hne h

/-- Every error of the token-level parser is EBADMSG or EFBIG. -/
theorem parseTokens_error_mem :
    ∀ ts : List JsonToken, ∀ ok st l n e,
      parseTokens ts ok st l n = .error e → e = .EBADMSG ∨ e = .EFBIG := by
  intro ts
  induction ts with
  | nil =>
    intro ok st l n e h
    cases st with
    | STATE_END => exact Or.inl (parseTokens_end_error h)
    | STATE_BEGIN => cases ok <;> simp [parseTokens] at h <;> exact Or.inl h.symm
    | STATE_ITEM => cases ok <;> simp [parseTokens] at h <;> exact Or.inl h.symm
    | STATE_COMMA => cases ok <;> simp [parseTokens] at h <;> exact Or.inl h.symm
  | cons t ts ih =>
    intro ok st l n e h
    cases st with
    | STATE_END => exact Or.inl (parseTokens_end_error h)
    | STATE_BEGIN =>
      cases t with
      | arrayOpen =>
        simp only [parseTokens] at h
        exact ih ok _ l n e h
      | arrayClose => simp [parseTokens] at h; exact Or.inl h.symm
      | comma => simp [parseTokens] at h; exact Or.inl h.symm
      | str s => simp [parseTokens] at h; exact Or.inl h.symm
      | eof => simp [parseTokens] at h; exact Or.inl h.symm
    | STATE_ITEM =>
      cases t with
      | str s =>
        by_cases hv : dkr_id_is_valid s = true
        · by_cases hbig : LAYERS_MAX < n + 1
          · simp [parseTokens, hv, hbig] at h
            exact Or.inr h.symm
          · simp only [parseTokens, hv, Bool.not_true, Bool.false_eq_true,
              if_false, hbig] at h
            exact ih ok _ _ _ e h
        · simp [parseTokens, hv] at h
          exact Or.inl h.symm
      | arrayClose =>
        simp only [parseTokens] at h
        exact ih ok _ l n e h
      | arrayOpen => simp [parseTokens] at h; exact Or.inl h.symm
      | comma => simp [parseTokens] at h; exact Or.inl h.symm
      | eof => simp [parseTokens] at h; exact Or.inl h.symm
    | STATE_COMMA =>
      cases t with
      | comma =>
        simp only [parseTokens] at h
        exact ih ok _ l n e h
      | arrayClose =>
        simp only [parseTokens] at h
        exact ih ok _ l n e h
      | arrayOpen => simp [parseTokens] at h; exact Or.inl h.symm
      | str s => simp [parseTokens] at h; exact Or.inl h.symm
      | eof => simp [parseTokens] at h; exact Or.inl h.symm

/-- Exactly when the parser reports EFBIG from the ITEM and COMMA states:
the token run continues with comma-separated valid strings up to the layer
bound and then one more valid string. -/
theorem parseTokens_efbig_char :
    ∀ ts : List JsonToken, ∀ ok : Bool, ∀ l : List String, ∀ n : Nat,
      n ≤ LAYERS_MAX →
      ((parseTokens ts ok .STATE_ITEM l n = .error .EFBIG ↔
         ∃ ids s rest, ts = pairTokens ids ++ .str s :: rest ∧
           (∀ x ∈ ids, dkr_id_is_valid x = true) ∧ dkr_id_is_valid s = true ∧
           n + ids.length = LAYERS_MAX) ∧
       (parseTokens ts ok .STATE_COMMA l n = .error .EFBIG ↔
         ∃ ids s rest, ts = .comma :: (pairTokens ids ++ .str s :: rest) ∧
           (∀ x ∈ ids, dkr_id_is_valid x = true) ∧ dkr_id_is_valid s = true ∧
           n + ids.length = LAYERS_MAX)) := by
  intro ts
  induction ts with
  | nil =>
    intro ok l n hn
    constructor
    · constructor
      · intro h; exfalso; cases ok <;> simp [parseTokens] at h
      · rintro ⟨ids, s, rest, hts, -⟩
        exact absurd hts (by cases ids <;> simp [pairTokens])
    · constructor
      · intro h; exfalso; cases ok <;> simp [parseTokens] at h
      · rintro ⟨ids, s, rest, hts, -⟩
        exact absurd hts (by cases ids <;> simp [pairTokens])
  | cons t ts ih =>
    intro ok l n hn
    constructor
    · -- ITEM state
      cases t with
      | str s0 =>
        by_cases hv : dkr_id_is_valid s0 = true
        · by_cases hbig : LAYERS_MAX < n + 1
          · constructor
            · intro _h
              exact ⟨[], s0, ts, by simp [pairTokens], by simp, hv, by simp only [List.length_nil]; omega⟩
            · intro _h
              simp [parseTokens, hv, hbig]
          · constructor
            · intro h
              simp only [parseTokens, hv, Bool.not_true, Bool.false_eq_true,
                if_false, hbig] at h
              obtain ⟨ids2, s, rest, hts, hval2, hvs, hlen⟩ :=
                ((ih ok (l ++ [s0]) (n + 1) (by omega)).2).mp h
              refine ⟨s0 :: ids2, s, rest, by simp [pairTokens, hts], ?_, hvs, ?_⟩
              · intro x hx
                rcases List.mem_cons.mp hx with rfl | hx
                · exact hv
                · exact hval2 x hx
              · simp only [List.length_cons]; omega
            · rintro ⟨ids, s, rest, hts, hval, hvs, hlen⟩
              cases ids with
              | nil =>
                exfalso
                simp only [pairTokens, List.nil_append] at hts
                simp at hlen
                omega
              | cons a ids2 =>
                simp only [pairTokens, List.cons_append, List.cons.injEq] at hts
                obtain ⟨ha, hts2⟩ := hts
                injection ha with ha2
                subst ha2
                simp only [parseTokens, hv, Bool.not_true, Bool.false_eq_true,
                  if_false, hbig]
                refine ((ih ok (l ++ [s0]) (n + 1) (by omega)).2).mpr
                  ⟨ids2, s, rest, hts2, ?_, hvs, ?_⟩
                · intro x hx; exact hval x (List.mem_cons_of_mem _ hx)
                · simp only [List.length_cons] at hlen; omega
        · constructor
          · intro h; exfalso; simp [parseTokens, hv] at h
          · rintro ⟨ids, s, rest, hts, hval, hvs, -⟩
            exfalso
            cases ids with
            | nil =>
              simp only [pairTokens, List.nil_append, List.cons.injEq] at hts
              obtain ⟨ha, -⟩ := hts
              injection ha with ha2
              exact hv (ha2 ▸ hvs)
            | cons a ids2 =>
              simp only [pairTokens, List.cons_append, List.cons.injEq] at hts
              obtain ⟨ha, -⟩ := hts
              injection ha with ha2
              exact hv (ha2 ▸ hval a (List.mem_cons_self a ids2))
      | arrayClose =>
        constructor
        · intro h
          exfalso
          have h2 := @parseTokens_end_error ts ok l n _ h
          exact Errno.noConfusion h2
        · rintro ⟨ids, s, rest, hts, -⟩
          exact absurd hts (by cases ids <;> simp [pairTokens])
      | arrayOpen =>
        constructor
        · intro h; exfalso; simp [parseTokens] at h
        · rintro ⟨ids, s, rest, hts, -⟩
          exact absurd hts (by cases ids <;> simp [pairTokens])
      | comma =>
        constructor
        · intro h; exfalso; simp [parseTokens] at h
        · rintro ⟨ids, s, rest, hts, -⟩
          exact absurd hts (by cases ids <;> simp [pairTokens])
      | eof =>
        constructor
        · intro h; exfalso; simp [parseTokens] at h
        · rintro ⟨ids, s, rest, hts, -⟩
          exact absurd hts (by cases ids <;> simp [pairTokens])
    · -- COMMA state
      cases t with
      | comma =>
        constructor
        · intro h
          simp only [parseTokens] at h
          obtain ⟨ids, s, rest, hts, hval, hvs, hlen⟩ :=
            ((ih ok l n hn).1).mp h
          exact ⟨ids, s, rest, by simp [hts], hval, hvs, hlen⟩
        · rintro ⟨ids, s, rest, hts, hval, hvs, hlen⟩
          simp only [List.cons.injEq, true_and] at hts
          simp only [parseTokens]
          exact ((ih ok l n hn).1).mpr ⟨ids, s, rest, hts, hval, hvs, hlen⟩
      | arrayClose =>
        constructor
        · intro h
          exfalso
          have h2 := @parseTokens_end_error ts ok l n _ h
          exact Errno.noConfusion h2
        · rintro ⟨ids, s, rest, hts, -⟩
          exact absurd hts (by simp)
      | arrayOpen =>
        constructor
        · intro h; exfalso; simp [parseTokens] at h
        · rintro ⟨ids, s, rest, hts, -⟩
          exact absurd hts (by simp)
      | str s1 =>
        constructor
        · intro h; exfalso; simp [parseTokens] at h
        · rintro ⟨ids, s, rest, hts, -⟩
          exact absurd hts (by simp)
      | eof =>
        constructor
        · intro h; exfalso; simp [parseTokens] at h
        · rintro ⟨ids, s, rest, hts, -⟩
          exact absurd hts (by simp)

theorem parseTokens_begin_ok {ts : List JsonToken} {ok : Bool} {lr : List String} :
    parseTokens ts ok .STATE_BEGIN [] 0 = .ok lr ↔
      ∃ ts2 ids, ts = .arrayOpen :: ts2 ∧ Accepts .STATE_ITEM ts2 ids ∧
        ok = true ∧ (∀ s ∈ ids, dkr_id_is_valid s = true) ∧
        ids.length ≤ LAYERS_MAX ∧ ids ≠ [] ∧ strv_is_uniq ids = true ∧
        lr = ids.reverse := by
  cases ts with
  | nil =>
    constructor
    · intro h; exfalso; cases ok <;> simp [parseTokens] at h
    · rintro ⟨ts2, ids, hts, -⟩; exact absurd hts (by simp)
  | cons t ts2 =>
    cases t with
    | arrayOpen =>
      simp only [parseTokens]
      rw [(parseTokens_ok_char ts2 ok [] 0 lr (Nat.zero_le _)).1]
      constructor
      · rintro ⟨ids, hacc, hok, hval, hlen, hne, huni, hlr⟩
        exact ⟨ts2, ids, rfl, hacc, hok, hval, by simpa using hlen,
          by simpa using hne, by simpa using huni, by simpa using hlr⟩
      · rintro ⟨ts3, ids, hts, hacc, hok, hval, hlen, hne, huni, hlr⟩
        obtain ⟨-, rfl⟩ := List.cons.inj hts
        exact ⟨ids, hacc, hok, hval, by simpa using hlen, by simpa using hne,
          by simpa using huni, by simpa using hlr⟩
    | arrayClose =>
      constructor
      · intro h; exfalso; simp [parseTokens] at h
      · rintro ⟨ts3, ids, hts, -⟩; exact absurd hts (by simp)
    | comma =>
      constructor
      · intro h; exfalso; simp [parseTokens] at h
      · rintro ⟨ts3, ids, hts, -⟩; exact absurd hts (by simp)
    | str s =>
      constructor
      · intro h; exfalso; simp [parseTokens] at h
      · rintro ⟨ts3, ids, hts, -⟩; exact absurd hts (by simp)
    | eof =>
      constructor
      · intro h; exfalso; simp [parseTokens] at h
      · rintro ⟨ts3, ids, hts, -⟩; exact absurd hts (by simp)

theorem parseTokens_begin_efbig {ts : List JsonToken} {ok : Bool} :
    parseTokens ts ok .STATE_BEGIN [] 0 = .error .EFBIG ↔
      ∃ ts2 ids s rest, ts = .arrayOpen :: ts2 ∧
        ts2 = pairTokens ids ++ .str s :: rest ∧
        (∀ x ∈ ids, dkr_id_is_valid x = true) ∧ dkr_id_is_valid s = true ∧
        ids.length = LAYERS_MAX := by
  cases ts with
  | nil =>
    constructor
    · intro h; exfalso; cases ok <;> simp [parseTokens] at h
    · rintro ⟨ts2, ids, s, rest, hts, -⟩; exact absurd hts (by simp)
  | cons t ts2 =>
    cases t with
    | arrayOpen =>
      simp only [parseTokens]
      rw [(parseTokens_efbig_char ts2 ok [] 0 (Nat.zero_le _)).1]
      constructor
      · rintro ⟨ids, s, rest, hts, hval, hvs, hlen⟩
        exact ⟨ts2, ids, s, rest, rfl, hts, hval, hvs, by omega⟩
      · rintro ⟨ts3, ids, s, rest, hts, hts2, hval, hvs, hlen⟩
        obtain ⟨-, rfl⟩ := List.cons.inj hts
        exact ⟨ids, s, rest, hts2, hval, hvs, by omega⟩
    | arrayClose =>
      constructor
      · intro h; exfalso; simp [parseTokens] at h
      · rintro ⟨ts3, ids, s, rest, hts, -⟩; exact absurd hts (by simp)
    | comma =>
      constructor
      · intro h; exfalso; simp [parseTokens] at h
      · rintro ⟨ts3, ids, s, rest, hts, -⟩; exact absurd hts (by simp)
    | str s1 =>
      constructor
      · intro h; exfalso; simp [parseTokens] at h
      · rintro ⟨ts3, ids, s, rest, hts, -⟩; exact absurd hts (by simp)
    | eof =>
      constructor
      · intro h; exfalso; simp [parseTokens] at h
      · rintro ⟨ts3, ids, s, rest, hts, -⟩; exact absurd hts (by simp)

theorem pairTokens_append_str :
    ∀ ids : List String, ∀ s rest,
      pairTokens ids ++ .str s :: rest = idsTokens (ids ++ [s]) ++ rest := by
  intro ids
  induction ids with
  | nil => intro s rest; simp [pairTokens, idsTokens, sepTokens]
  | cons a l ih =>
    intro s rest
    simp only [pairTokens, List.cons_append, idsTokens]
    rw [ih s rest]
    cases l with
    | nil => simp [idsTokens, sepTokens]
    | cons b m => simp [idsTokens, sepTokens]

theorem parse_ancestry_eq_parseTokens (p : List Char) (hp : p.length ≠ 0)
    (hnul : p.contains NUL = false) :
    parse_ancestry p =
      parseTokens (lexList p).1 (lexList p).2 .STATE_BEGIN [] 0 := by
  simp only [parse_ancestry, hp, hnul, if_false, Bool.false_eq_true]
  exact parse_loop_eq_parseTokens (p.length + 1) p .STATE_BEGIN [] 0 (by omega)

/-- Full characterization of parse_ancestry: it succeeds exactly on
non-empty NUL-free payloads whose token stream is an array of valid layer
ids (optionally with a trailing comma), non-empty, duplicate-free, of at
most LAYERS_MAX entries, and returns the list reversed.  It reports EFBIG
exactly when the token stream starts with LAYERS_MAX + 1 comma-separated
valid ids, and every other failure is EBADMSG. -/
theorem parse_ancestry_char (p : List Char) :
    (∀ lr, parse_ancestry p = .ok lr ↔
       (p ≠ [] ∧ p.contains NUL = false ∧ ∃ ids,
         ((lexList p).1 = specAncestryTokens ids ∨
          (ids ≠ [] ∧ (lexList p).1 = specAncestryTokensTrailing ids)) ∧
         (lexList p).2 = true ∧
         (∀ s ∈ ids, dkr_id_is_valid s = true) ∧ ids ≠ [] ∧
         strv_is_uniq ids = true ∧ ids.length ≤ LAYERS_MAX ∧
         lr = ids.reverse)) ∧
    (parse_ancestry p = .error .EFBIG ↔
       (p ≠ [] ∧ p.contains NUL = false ∧ hugeAncestry p)) ∧
    (∀ e, parse_ancestry p = .error e → e = .EBADMSG ∨ e = .EFBIG) := by
  by_cases hp : p.length = 0
  · have hpn : p = [] := List.length_eq_zero.mp hp
    subst hpn
    refine ⟨?_, ?_, ?_⟩
    · intro lr
      constructor
      · intro h; exfalso; simp [parse_ancestry] at h
      · rintro ⟨hne, -⟩; exact absurd rfl hne
    · constructor
      · intro h; exfalso; simp [parse_ancestry] at h
      · rintro ⟨hne, -⟩; exact absurd rfl hne
    · intro e h
      simp [parse_ancestry] at h
      exact Or.inl h.symm
  · by_cases hnul : p.contains NUL = true
    · have hmem : NUL ∈ p := by simpa using hnul
      refine ⟨?_, ?_, ?_⟩
      · intro lr
        constructor
        · intro h; exfalso; simp [parse_ancestry, hp, hmem] at h
        · rintro ⟨-, hn2, -⟩
          rw [hnul] at hn2
          exact Bool.noConfusion hn2
      · constructor
        · intro h; exfalso; simp [parse_ancestry, hp, hmem] at h
        · rintro ⟨-, hn2, -⟩
          rw [hnul] at hn2
          exact Bool.noConfusion hn2
      · intro e h
        simp [parse_ancestry, hp, hmem] at h
        exact Or.inl h.symm
    · have hnul2 : p.contains NUL = false := by
        cases hcc : p.contains NUL with
        | false => rfl
        | true => exact absurd hcc hnul
      have hpn : p ≠ [] := by
        intro hh; subst hh; simp at hp
      have heq := parse_ancestry_eq_parseTokens p hp hnul2
      refine ⟨?_, ?_, ?_⟩
      · intro lr
        rw [heq, parseTokens_begin_ok]
        constructor
        · rintro ⟨ts2, ids, hts, hacc, hok, hval, hlen, hne, huni, hlr⟩
          refine ⟨hpn, hnul2, ids, ?_, hok, hval, hne, huni, hlen, hlr⟩
          rcases accepts_item_iff.mp hacc with hsh | ⟨hne2, hsh⟩
          · left
            rw [hts, hsh]; rfl
          · right
            exact ⟨hne2, by rw [hts, hsh]; rfl⟩
        · rintro ⟨-, -, ids, hsh, hok, hval, hne, huni, hlen, hlr⟩
          rcases hsh with hsh | ⟨hne2, hsh⟩
          · simp only [specAncestryTokens] at hsh
            exact ⟨idsTokens ids ++ [.arrayClose], ids, hsh,
              accepts_item_iff.mpr (Or.inl rfl), hok, hval, hlen, hne, huni, hlr⟩
          · simp only [specAncestryTokensTrailing] at hsh
            exact ⟨idsTokens ids ++ [.comma, .arrayClose], ids, hsh,
              accepts_item_iff.mpr (Or.inr ⟨hne2, rfl⟩), hok, hval, hlen, hne, huni, hlr⟩
      · rw [heq, parseTokens_begin_efbig]
        constructor
        · rintro ⟨ts2, ids, s, rest, hts, hts2, hval, hvs, hlen⟩
          refine ⟨hpn, hnul2, ids ++ [s], rest, by simp [hlen], ?_, ?_⟩
          · intro x hx
            rcases List.mem_append.mp hx with hx | hx
            · exact hval x hx
            · rw [List.mem_singleton.mp hx]; exact hvs
          · rw [hts, hts2, pairTokens_append_str]
        · rintro ⟨-, -, ids2, rest, hlen, hval, hsh⟩
          rcases List.eq_nil_or_concat ids2 with rfl | ⟨ids, s, rfl⟩
          · simp [LAYERS_MAX] at hlen
          · rw [List.concat_eq_append] at hsh hval hlen
            refine ⟨idsTokens (ids ++ [s]) ++ rest, ids, s, rest, hsh,
              (pairTokens_append_str ids s rest).symm, ?_, ?_, ?_⟩
            · intro x hx; exact hval x (List.mem_append.mpr (Or.inl hx))
            · exact hval s (List.mem_append.mpr (Or.inr (List.mem_singleton.mpr rfl)))
            · simp at hlen; omega
      · intro e h
        rw [heq] at h
        exact parseTokens_error_mem _ _ _ _ _ _ h

/-! ## The claims -/

/-- C1, counterexample: the concrete run evsC1 reaches a configuration whose
observations already contain a layer request while the json METADATA job is
still running — dkr_import_job_on_finished starts the DOWNLOAD phase as soon
as the ancestry response alone has arrived. -/
theorem C1_cex : ∃ i fs obs, Reach i fs obs ∧
    (∃ u, Obs.request .layer u ∈ obs) ∧ jobRunning i.json_job = true :=
  ⟨(cfgOf fs0 evsC1).1, (cfgOf fs0 evsC1).2.1, (cfgOf fs0 evsC1).2.2,
   reach_cfgOf fs0 evsC1 (by decide),
   ⟨"https://reg.example/v1/images/" ++ idA ++ "/layer", by decide⟩,
   by decide⟩

/-- C1 (amended): in every reachable configuration, a layer request in the
observations implies that the ancestry job has completed successfully; the
json job need not have finished when DOWNLOAD begins. -/
theorem C1_download_requires_ancestry {i : DkrImport} {fs : FS}
    {obs : List Obs} {u : String} (h : Reach i fs obs)
    (hu : Obs.request .layer u ∈ obs) : jobDone i.ancestry_job = true :=
  (reach_inv h).layerReqAnc ⟨u, hu⟩

/-- C1, witness: the amended theorem applied to the evsC1 run. -/
theorem C1_witness : jobDone (cfgOf fs0 evsC1).1.ancestry_job = true :=
  C1_download_requires_ancestry (reach_cfgOf fs0 evsC1 (by decide))
    (show Obs.request .layer
      ("https://reg.example/v1/images/" ++ idA ++ "/layer") ∈
        (cfgOf fs0 evsC1).2.2 by decide)

/-- C3: full characterization of parse_ancestry.  It succeeds exactly on
NUL-free non-empty payloads whose token stream matches the quoted grammar
or its trailing-comma variant (the state machine of import-dkr.c also
accepts a comma before the closing bracket), with valid, non-empty, unique
ids of count at most LAYERS_MAX, returning the reversed sequence; streams
opening with more than LAYERS_MAX valid ids give EFBIG, and every other
failure is EBADMSG. -/
theorem C3_parse_ancestry (p : List Char) :
    (∀ lr, parse_ancestry p = .ok lr ↔
       (p ≠ [] ∧ p.contains NUL = false ∧ ∃ ids,
         ((lexList p).1 = specAncestryTokens ids ∨
          (ids ≠ [] ∧ (lexList p).1 = specAncestryTokensTrailing ids)) ∧
         (lexList p).2 = true ∧
         (∀ s ∈ ids, dkr_id_is_valid s = true) ∧ ids ≠ [] ∧
         strv_is_uniq ids = true ∧ ids.length ≤ LAYERS_MAX ∧
         lr = ids.reverse)) ∧
    (parse_ancestry p = .error .EFBIG ↔
       (p ≠ [] ∧ p.contains NUL = false ∧ hugeAncestry p)) ∧
    (∀ e, parse_ancestry p = .error e → e = .EBADMSG ∨ e = .EFBIG) :=
  parse_ancestry_char p

/-- C3, counterexample: a payload with a trailing comma is accepted by
parse_ancestry although its token stream matches the quoted grammar for no
id sequence. -/
theorem C3_cex : parse_ancestry c3Payload = .ok [idA] ∧
    ∀ ids : List String, (lexList c3Payload).1 ≠ specAncestryTokens ids := by
  constructor
  · rfl
  · intro ids
    have hlex : (lexList c3Payload).1 =
        [.arrayOpen, .str idA, .comma, .arrayClose] := by decide
    rw [hlex]
    cases ids with
    | nil => simp [specAncestryTokens, idsTokens]
    | cons s l =>
      cases l with
      | nil => simp [specAncestryTokens, idsTokens, sepTokens]
      | cons s2 l2 => simp [specAncestryTokens, idsTokens, sepTokens]

/-- C3, witness: the characterization applied to the trailing-comma payload. -/
theorem C3_witness : c3Payload ≠ [] ∧ c3Payload.contains NUL = false ∧
    ∃ ids,
      ((lexList c3Payload).1 = specAncestryTokens ids ∨
       (ids ≠ [] ∧ (lexList c3Payload).1 = specAncestryTokensTrailing ids)) ∧
      (lexList c3Payload).2 = true ∧
      (∀ s ∈ ids, dkr_id_is_valid s = true) ∧ ids ≠ [] ∧
      strv_is_uniq ids = true ∧ ids.length ≤ LAYERS_MAX ∧
      [idA] = ids.reverse :=
  ((C3_parse_ancestry c3Payload).1 [idA]).mp (by rfl)

/-- C5, counterexample: the evsC5 run completes successfully (the callback
fires with success) while the full sequence of reported percent values is
not weakly monotone: a METADATA report falls below the prior DOWNLOADING
value. -/
theorem C5_cex : ∃ i fs obs, Reach i fs obs ∧ Obs.finishedCb none ∈ obs ∧
    (reportsOf obs).map Prod.snd = [5, 10, 12, 20, 13, 95] ∧
    ¬ List.Chain' (· ≤ ·) [5, 10, 12, 20, 13, 95] :=
  ⟨(cfgOf fs0 evsC5).1, (cfgOf fs0 evsC5).2.1, (cfgOf fs0 evsC5).2.2,
   reach_cfgOf fs0 evsC5 (by decide), by decide, by decide,
   by simp [List.chain'_cons]⟩

/-- C5 (amended): the reported percent values are weakly monotone within
the non-METADATA track and within the METADATA track separately, and a
successful completion without the rename slip ends with the COPYING report
at 95. -/
theorem C5_progress_tracks {i : DkrImport} {fs : FS} {obs : List Obs}
    (h : Reach i fs obs) :
    List.Chain' (· ≤ ·) (nonMetaPcts obs) ∧
    List.Chain' (· ≤ ·) (metaPcts obs) ∧
    (Obs.finishedCb none ∈ obs → noRenameFail obs →
      (reportsOf obs).getLast? = some (.DKR_COPYING, 95)) :=
  ⟨(reach_inv h).chainNM, (reach_inv h).chainM, (reach_inv h).lastRep95⟩

/-- C5, witness: the amended theorem applied to the evsC5 run. -/
theorem C5_witness :
    List.Chain' (· ≤ ·) (nonMetaPcts (cfgOf fs0 evsC5).2.2) ∧
    List.Chain' (· ≤ ·) (metaPcts (cfgOf fs0 evsC5).2.2) ∧
    (Obs.finishedCb none ∈ (cfgOf fs0 evsC5).2.2 →
      noRenameFail (cfgOf fs0 evsC5).2.2 →
      (reportsOf (cfgOf fs0 evsC5).2.2).getLast? = some (.DKR_COPYING, 95)) :=
  C5_progress_tracks (reach_cfgOf fs0 evsC5 (by decide))

/-- C8, counterexample: after a failed tar extraction the callback has
fired, yet temp_path is still set while the tar child handle is cleared —
the stated iff between temp_path and the child fails in that observable
state. -/
theorem C8_cex : ∃ i fs obs, Reach i fs obs ∧ i.temp_path.isSome = true ∧
    i.tar_pid = 0 :=
  ⟨(cfgOf fs0 evsC8).1, (cfgOf fs0 evsC8).2.1, (cfgOf fs0 evsC8).2.2,
   reach_cfgOf fs0 evsC8 (by decide), by decide, by decide⟩

/-- C8 (amended): while the pull is still live (no completion callback
fired), temp_path is set exactly when the tar child is, and only while a
layer job exists. -/
theorem C8_temp_tar {i : DkrImport} {fs : FS} {obs : List Obs}
    (h : Reach i fs obs) (halive : aliveB obs = true) :
    (i.temp_path.isSome = true ↔ 0 < i.tar_pid) ∧
    (i.temp_path.isSome = true → i.layer_job.isSome = true) :=
  (reach_inv h).tempTar halive

/-- C8, witness: the amended invariant at the post-open-disk state of the
evsC8w run, where extraction is in progress. -/
theorem C8_witness :
    ((cfgOf fs0 evsC8w).1.temp_path.isSome = true ↔
      0 < (cfgOf fs0 evsC8w).1.tar_pid) ∧
    ((cfgOf fs0 evsC8w).1.temp_path.isSome = true →
      (cfgOf fs0 evsC8w).1.layer_job.isSome = true) :=
  C8_temp_tar (reach_cfgOf fs0 evsC8w (by decide)) (by decide)

/-- C9: dkr_import_pull rejects an invalid name, an invalid non-null tag
and an invalid non-null local name with EINVAL, leaving the session and the
observations untouched; with valid arguments it reports EBUSY when an
images job already exists, and a null tag defaults to latest. -/
theorem C9_pull_validation (i : DkrImport) (name : String)
    (tag l : Option String) (force : Bool) :
    (dkr_name_is_valid name = false →
      dkr_import_pull i name tag l force = (some .EINVAL, i, [])) ∧
    (∀ t, tag = some t → dkr_tag_is_valid t = false →
      dkr_import_pull i name tag l force = (some .EINVAL, i, [])) ∧
    (∀ s, l = some s → machine_name_is_valid s = false →
      dkr_import_pull i name tag l force = (some .EINVAL, i, [])) ∧
    (dkr_name_is_valid name = true →
      (∀ t, tag = some t → dkr_tag_is_valid t = true) →
      (∀ s, l = some s → machine_name_is_valid s = true) →
      i.images_job.isSome = true →
      dkr_import_pull i name tag l force = (some .EBUSY, i, [])) ∧
    (dkr_name_is_valid name = true →
      (∀ t, tag = some t → dkr_tag_is_valid t = true) →
      (∀ s, l = some s → machine_name_is_valid s = true) →
      i.images_job = none → tag = none →
      (dkr_import_pull i name tag l force).2.1.tag = some "latest" ∧
      (dkr_import_pull i name tag l force).1 = none) := by
  refine ⟨?_, ?_, ?_, ?_, ?_⟩
  · intro hn
    simp [dkr_import_pull, hn]
  · intro t ht hbad
    subst ht
    by_cases hn : dkr_name_is_valid name = true
    · simp [dkr_import_pull, hn, hbad]
    · have hn2 : dkr_name_is_valid name = false := by simpa using hn
      simp [dkr_import_pull, hn2]
  · intro s hs hbad
    subst hs
    cases tag with
    | none =>
      by_cases hn : dkr_name_is_valid name = true
      · simp [dkr_import_pull, hn, hbad]
      · have hn2 : dkr_name_is_valid name = false := by simpa using hn
        simp [dkr_import_pull, hn2]
    | some t =>
      by_cases hn : dkr_name_is_valid name = true
      · by_cases ht2 : dkr_tag_is_valid t = true
        · simp [dkr_import_pull, hn, ht2, hbad]
        · have ht3 : dkr_tag_is_valid t = false := by simpa using ht2
          simp [dkr_import_pull, hn, ht3]
      · have hn2 : dkr_name_is_valid name = false := by simpa using hn
        simp [dkr_import_pull, hn2]
  · intro hn htg hlc hbusy
    cases tag with
    | none =>
      cases l with
      | none => simp [dkr_import_pull, hn, hbusy]
      | some s => simp [dkr_import_pull, hn, hlc s rfl, hbusy]
    | some t =>
      cases l with
      | none => simp [dkr_import_pull, hn, htg t rfl, hbusy]
      | some s => simp [dkr_import_pull, hn, htg t rfl, hlc s rfl, hbusy]
  · intro hn htg hlc himgN htagN
    subst htagN
    cases l with
    | none => simp [dkr_import_pull, hn, himgN]
    | some s => simp [dkr_import_pull, hn, hlc s rfl, himgN]

/-- C9, witness: a name with a blank is rejected with EINVAL and nothing
else happens. -/
theorem C9_witness :
    dkr_import_pull sess0 "Foo Bar" none none false =
      (some .EINVAL, sess0, []) :=
  (C9_pull_validation sess0 "Foo Bar" none none false).1 (by decide)

/-- C10: once any completion callback has fired on a session, every further
well-formed dkr_import_pull call on it returns EBUSY: the images job
reference is never cleared by the completion path. -/
theorem C10_session_single_use {i : DkrImport} {fs : FS} {obs : List Obs}
    {r : Option Errno} (h : Reach i fs obs)
    (hcb : Obs.finishedCb r ∈ obs) (name : String) (tag l : Option String)
    (force : Bool) (hname : dkr_name_is_valid name = true)
    (htag : ∀ t, tag = some t → dkr_tag_is_valid t = true)
    (hloc : ∀ s, l = some s → machine_name_is_valid s = true) :
    dkr_import_pull i name tag l force = (some .EBUSY, i, []) := by
  have himg := (reach_inv h).cbImages ⟨r, hcb⟩
  cases tag with
  | none =>
    cases l with
    | none => simp [dkr_import_pull, hname, himg]
    | some s => simp [dkr_import_pull, hname, hloc s rfl, himg]
  | some t =>
    cases l with
    | none => simp [dkr_import_pull, hname, htag t rfl, himg]
    | some s => simp [dkr_import_pull, hname, htag t rfl, hloc s rfl, himg]

/-- C10, witness: pulling again on the completed evsC5 session returns
EBUSY. -/
theorem C10_witness :
    dkr_import_pull (cfgOf fs0 evsC5).1 "foo" none none false =
      (some .EBUSY, (cfgOf fs0 evsC5).1, []) :=
  C10_session_single_use (reach_cfgOf fs0 evsC5 (by decide))
    (show Obs.finishedCb none ∈ (cfgOf fs0 evsC5).2.2 by decide)
    "foo" none none false (by decide) (fun t ht => by simp at ht)
    (fun s hs => by simp at hs)

/-- C2: contrary to the specification, when sealing a layer finds that
final_path already exists (a race with another pull), the completion
callback fires with success — the code's error slip leaves r at 0 — and
the temp subvolume is not removed: temp_path stays set and the directory
tree is unchanged. -/
theorem C2_rename_conflict {i : DkrImport} {fs : FS} {obs : List Obs}
    {payload : List Char} (h : Reach i fs obs)
    (halive : aliveB obs = true)
    (hok : evOK i fs (.jobSucceeded .layer payload true) = true)
    (hconf : (i.final_path.getD "") ∈ fs.dirs) :
    (handleEvent i fs (.jobSucceeded .layer payload true)).2.2 =
      [.setReadOnly (i.temp_path.getD ""),
       .renameFailed (i.temp_path.getD "") (i.final_path.getD ""),
       .finishedCb none] ∧
    (handleEvent i fs (.jobSucceeded .layer payload true)).1.temp_path =
      i.temp_path ∧
    (handleEvent i fs (.jobSucceeded .layer payload true)).2.1.dirs =
      fs.dirs := by
  obtain ⟨j, hj, hjrun, ht, hfin⟩ : ∃ j, i.layer_job = some j ∧
      j.state = .running ∧ i.temp_path.isSome = true ∧
      i.final_path.isSome = true := by
    simp only [evOK] at hok
    cases hgj : i.layer_job with
    | none =>
      rw [show getJob i .layer = i.layer_job from rfl, hgj] at hok
      simp [jobRunning] at hok
    | some j =>
      rw [show getJob i .layer = i.layer_job from rfl, hgj] at hok
      simp [jobRunning] at hok
      exact ⟨j, rfl, hok.1, hok.2.1, hok.2.2⟩
  have htarpos : 0 < i.tar_pid := ((reach_inv h).tempTar halive).1.mp ht
  simp [handleEvent, setJob, getJob, hj, setJobState,
    dkr_import_job_on_finished, htarpos, hconf]

/-- C2, witness: in the evsC2 run a racing mkdir created the final
directory; the layer completion then reports success with the temp
subvolume left in place. -/
theorem C2_witness :
    (handleEvent (cfgOf fs0 evsC2).1 (cfgOf fs0 evsC2).2.1
      (.jobSucceeded .layer [] true)).2.2 =
      [.setReadOnly ((cfgOf fs0 evsC2).1.temp_path.getD ""),
       .renameFailed ((cfgOf fs0 evsC2).1.temp_path.getD "")
         ((cfgOf fs0 evsC2).1.final_path.getD ""),
       .finishedCb none] ∧
    (handleEvent (cfgOf fs0 evsC2).1 (cfgOf fs0 evsC2).2.1
      (.jobSucceeded .layer [] true)).1.temp_path =
      (cfgOf fs0 evsC2).1.temp_path ∧
    (handleEvent (cfgOf fs0 evsC2).1 (cfgOf fs0 evsC2).2.1
      (.jobSucceeded .layer [] true)).2.1.dirs =
      (cfgOf fs0 evsC2).2.1.dirs :=
  C2_rename_conflict (reach_cfgOf fs0 evsC2 (by decide)) (by decide)
    (by decide) (by decide)

/-- C4: when the ancestry response parses but its reversed sequence does
not end in the resolved image id, the callback fires with EBADMSG and the
step changes nothing: no layer request is among the observations and the
filesystem is untouched. -/
theorem C4_ancestry_mismatch {i : DkrImport} {fs : FS} {obs : List Obs}
    {payload : List Char} {tarOk : Bool} {l : List String}
    (h : Reach i fs obs) (halive : aliveB obs = true)
    (hok : evOK i fs (.jobSucceeded .ancestry payload tarOk) = true)
    (hpa : parse_ancestry payload = .ok l)
    (hne : ¬(l.getLast? = i.id)) :
    (handleEvent i fs (.jobSucceeded .ancestry payload tarOk)).2.2 =
      [.finishedCb (some .EBADMSG)] ∧
    (handleEvent i fs (.jobSucceeded .ancestry payload tarOk)).2.1 = fs := by
  constructor
  · simp [handleEvent, setJob, getJob, setJobState,
      dkr_import_job_on_finished, hpa, hne]
  · simp [handleEvent, setJob, getJob, setJobState,
      dkr_import_job_on_finished, hpa, hne]

/-- C4, witness: feeding the idB ancestry to the session resolved to idA
yields exactly the EBADMSG callback and no filesystem change. -/
theorem C4_witness :
    (handleEvent (cfgOf fs0 evsMeta).1 (cfgOf fs0 evsMeta).2.1
      (.jobSucceeded .ancestry pAncB true)).2.2 =
      [.finishedCb (some .EBADMSG)] ∧
    (handleEvent (cfgOf fs0 evsMeta).1 (cfgOf fs0 evsMeta).2.1
      (.jobSucceeded .ancestry pAncB true)).2.1 = (cfgOf fs0 evsMeta).2.1 :=
  C4_ancestry_mismatch (reach_cfgOf fs0 evsMeta (by decide)) (by decide)
    (by decide) (by rfl) (by decide)

/-- C6: when every id of the parsed ancestry already has its final
directory present and the other three transfer jobs have completed, the
ancestry completion finishes the whole pull: the DOWNLOAD loop advances
past every layer without issuing a single layer request or creating a
layer job, the completion callback fires with success, and the filesystem
is unchanged except for the optional local working copy — exactly that
copy when a local name was given (and it can be placed), nothing
otherwise.  This is the second-pull scenario: all layers exist from the
first pull. -/
theorem C6_existing_layers {i : DkrImport} {fs : FS} {obs : List Obs}
    {payload : List Char} {tarOk : Bool} {l : List String}
    (h : Reach i fs obs) (halive : aliveB obs = true)
    (hok : evOK i fs (.jobSucceeded .ancestry payload tarOk) = true)
    (hpa : parse_ancestry payload = .ok l) (hlast : l.getLast? = i.id)
    (hlne : ¬l = [])
    (hall : ∀ s ∈ l, fs.dirs.contains (layerPath i.image_root s) = true)
    (himgd : jobDone i.images_job = true)
    (htagd : jobDone i.tags_job = true)
    (hjsond : jobDone i.json_job = true)
    (hfinN : i.final_path = none)
    (hcopy : ∀ m, i.localName = some m →
      fs.dirs.contains (localPath i.image_root m) = false ∨
      i.force_local = true) :
    (∀ u, Obs.request .layer u ∉
      (handleEvent i fs (.jobSucceeded .ancestry payload tarOk)).2.2) ∧
    Obs.finishedCb none ∈
      (handleEvent i fs (.jobSucceeded .ancestry payload tarOk)).2.2 ∧
    (handleEvent i fs (.jobSucceeded .ancestry payload tarOk)).1.layer_job =
      none ∧
    (i.localName = none →
      (handleEvent i fs (.jobSucceeded .ancestry payload tarOk)).2.1 = fs) ∧
    (∀ m, i.localName = some m →
      (handleEvent i fs (.jobSucceeded .ancestry payload tarOk)).2.1 =
        ({ fs with dirs := localPath i.image_root m ::
            fs.dirs.erase (localPath i.image_root m) } : FS)) := by
  obtain ⟨j, hj, hjrun⟩ : ∃ j, i.ancestry_job = some j ∧ j.state = .running := by
    simp only [evOK, Bool.and_eq_true] at hok
    cases hgj : i.ancestry_job with
    | none =>
      rw [show getJob i .ancestry = i.ancestry_job from rfl, hgj] at hok
      simp [jobRunning] at hok
    | some j =>
      rw [show getJob i .ancestry = i.ancestry_job from rfl, hgj] at hok
      simp [jobRunning] at hok
      exact ⟨j, rfl, hok⟩
  obtain ⟨hl0, hn0⟩ := (reach_inv h).ancRun halive
    (by simp [jobRunning, hj, hjrun])
  obtain ⟨i3, o, heq, hupd, hmono, hbound, hparent, hdich⟩ :=
    pull_layer_spec ({ i with ancestry_job := some { j with state := .done }, layer_job := none, ancestry := l, n_ancestry := l.length, current_ancestry := 0 } : DkrImport) fs
  have e_img : i3.images_job = i.images_job := by rw [hupd]
  have e_tags : i3.tags_job = i.tags_job := by rw [hupd]
  have e_anc : i3.ancestry_job = some { j with state := .done } := by rw [hupd]
  have e_json : i3.json_job = i.json_job := by rw [hupd]
  have e_local : i3.localName = i.localName := by rw [hupd]
  have e_root : i3.image_root = i.image_root := by rw [hupd]
  have e_id : i3.id = i.id := by rw [hupd]
  have e_force : i3.force_local = i.force_local := by rw [hupd]
  rcases hdich with ⟨ho, hlj, hfp, hcl⟩ |
    ⟨lay, hlay, hnotin, hfp, hlj, ho, hlt⟩
  · subst ho
    have hlj0 : i3.layer_job = none := by rw [hlj]
    have hfin3 : i3.final_path = none := by rw [hfp]; exact hfinN
    have hancd3 : jobDone (some { j with state := JobState.done } :
        Option ImportJob) = true := by simp [jobDone]
    have hd : dkr_import_is_done i3 = true := by
      simp [dkr_import_is_done, e_img, e_tags, e_anc, e_json, hlj0,
        himgd, htagd, hjsond, hcl, hancd3]
    cases hlcl : i.localName with
    | none =>
      have hlc3 : i3.localName = none := e_local.trans hlcl
      have hmd : dkr_import_maybe_done i3 fs =
          (i3, fs, [Obs.progressReport .DKR_COPYING 95, .finishedCb none]) := by
        simp [dkr_import_maybe_done, hd, dkr_import_make_local_copy, hlc3,
          progressObs, dkr_import_report_progress]
      have hred : handleEvent i fs (.jobSucceeded .ancestry payload tarOk) =
          (i3, fs, [Obs.progressReport .DKR_DOWNLOADING 20,
            Obs.progressReport .DKR_COPYING 95, .finishedCb none]) := by
        simp [handleEvent, setJob, getJob, hj, setJobState,
          dkr_import_job_on_finished, hpa, hlne, hlast, heq, hmd,
          progressObs, dkr_import_report_progress, jobPercent, hl0]
      rw [hred]
      refine ⟨?_, ?_, hlj0, ?_, ?_⟩
      · intro u
        simp
      · simp
      · intro _
        rfl
      · intro m h5
        exact Option.noConfusion h5
    | some m =>
      have hlc3 : i3.localName = some m := e_local.trans hlcl
      obtain ⟨lastv, hlv⟩ : ∃ v, l.getLast? = some v :=
        Option.isSome_iff_exists.mp (List.getLast?_isSome.mpr hlne)
      have hidv : i.id = some lastv := hlast.symm.trans hlv
      have hmemv : lastv ∈ l := by
        have h7 := List.getLast?_eq_getLast l hlne
        rw [h7] at hlv
        injection hlv with h8
        exact h8 ▸ List.getLast_mem hlne
      have hcontF : fs.dirs.contains
          (layerPath i.image_root (i.id.getD "")) = true := by
        rw [hidv]
        exact hall lastv hmemv
      have hcontF2 : layerPath i.image_root (i.id.getD "") ∈ fs.dirs := by
        simpa using hcontF
      have hmd : dkr_import_maybe_done i3 fs =
          (({ i3 with final_path := some (layerPath i.image_root (i.id.getD "")) } : DkrImport),
           ({ fs with dirs := localPath i.image_root m :: fs.dirs.erase (localPath i.image_root m) } : FS),
           [Obs.progressReport .DKR_COPYING 95,
            Obs.localCopy (layerPath i.image_root (i.id.getD ""))
              (localPath i.image_root m), .finishedCb none]) := by
        rcases hcopy m hlcl with hc1 | hc2
        · have hc1b : localPath i.image_root m ∉ fs.dirs := by simpa using hc1
          simp [dkr_import_maybe_done, hd, dkr_import_make_local_copy, hlc3,
            hfin3, e_root, e_id, e_force, import_make_local_copy, hcontF,
            hcontF2, hc1, hc1b, progressObs, dkr_import_report_progress]
        · simp [dkr_import_maybe_done, hd, dkr_import_make_local_copy, hlc3,
            hfin3, e_root, e_id, e_force, import_make_local_copy, hcontF,
            hcontF2, hc2, progressObs, dkr_import_report_progress]
      have hred : handleEvent i fs (.jobSucceeded .ancestry payload tarOk) =
          (({ i3 with final_path := some (layerPath i.image_root (i.id.getD "")) } : DkrImport),
           ({ fs with dirs := localPath i.image_root m :: fs.dirs.erase (localPath i.image_root m) } : FS),
           [Obs.progressReport .DKR_DOWNLOADING 20,
            Obs.progressReport .DKR_COPYING 95,
            Obs.localCopy (layerPath i.image_root (i.id.getD ""))
              (localPath i.image_root m), .finishedCb none]) := by
        simp [handleEvent, setJob, getJob, hj, setJobState,
          dkr_import_job_on_finished, hpa, hlne, hlast, heq, hmd,
          progressObs, dkr_import_report_progress, jobPercent, hl0]
      rw [hred]
      refine ⟨?_, ?_, hlj0, ?_, ?_⟩
      · intro u
        simp
      · simp
      · intro h4
        exact Option.noConfusion h4
      · intro m2 h5
        injection h5 with h6
        subst h6
        rfl
  · exfalso
    have h5 : l[i3.current_ancestry]? = some lay := hlay
    have hm : lay ∈ l := by
      obtain ⟨h6, h7⟩ := List.getElem?_eq_some.mp h5
      exact h7 ▸ List.getElem_mem h6
    have haux : fs.dirs.contains (layerPath i.image_root lay) = false := hnotin
    rw [hall lay hm] at haux
    exact Bool.noConfusion haux

/-- C6, witness: after the first pull left layer idA in place, the second
pull's ancestry completion (json already done) issues no layer request,
fires the success callback, and leaves the filesystem exactly as it was
(no local copy was requested). -/
theorem C6_witness :
    (∀ u, Obs.request .layer u ∉
      (handleEvent (cfgOf fsC6 evsC6).1 (cfgOf fsC6 evsC6).2.1
        (.jobSucceeded .ancestry pAncA true)).2.2) ∧
    Obs.finishedCb none ∈
      (handleEvent (cfgOf fsC6 evsC6).1 (cfgOf fsC6 evsC6).2.1
        (.jobSucceeded .ancestry pAncA true)).2.2 ∧
    (handleEvent (cfgOf fsC6 evsC6).1 (cfgOf fsC6 evsC6).2.1
      (.jobSucceeded .ancestry pAncA true)).1.layer_job = none ∧
    ((cfgOf fsC6 evsC6).1.localName = none →
      (handleEvent (cfgOf fsC6 evsC6).1 (cfgOf fsC6 evsC6).2.1
        (.jobSucceeded .ancestry pAncA true)).2.1 = (cfgOf fsC6 evsC6).2.1) ∧
    (∀ m, (cfgOf fsC6 evsC6).1.localName = some m →
      (handleEvent (cfgOf fsC6 evsC6).1 (cfgOf fsC6 evsC6).2.1
        (.jobSucceeded .ancestry pAncA true)).2.1 =
        ({ (cfgOf fsC6 evsC6).2.1 with dirs := localPath (cfgOf fsC6 evsC6).1.image_root m :: (cfgOf fsC6 evsC6).2.1.dirs.erase (localPath (cfgOf fsC6 evsC6).1.image_root m) } : FS)) :=
  C6_existing_layers (reach_cfgOf fsC6 evsC6 (by decide)) (by decide)
    (by decide) (by rfl) (by decide) (by decide) (by decide) (by decide)
    (by decide) (by decide) (by decide)
    (fun m hm => by
      rw [show (cfgOf fsC6 evsC6).1.localName = none from by decide] at hm
      exact Option.noConfusion hm)

/-- C7: the open-disk callback sets temp_path to final_path with the random
suffix appended, ensures the parent directory, and creates the temp
subvolume as a writable snapshot of the parent layer when the cursor is
positive (every reachable such state has the parent present) or as a fresh
subvolume when the cursor is zero. -/
theorem C7_open_disk {i : DkrImport} {fs : FS} {obs : List Obs}
    {suffix : String} (h : Reach i fs obs) (halive : aliveB obs = true)
    (hok : evOK i fs (.openDisk suffix) = true) :
    (handleEvent i fs (.openDisk suffix)).1.temp_path =
      some (tempfn_random (i.final_path.getD "") suffix) ∧
    Obs.mkdirParents (parentDir (tempfn_random (i.final_path.getD "") suffix)) ∈
      (handleEvent i fs (.openDisk suffix)).2.2 ∧
    (0 < i.current_ancestry →
      ∃ b, i.ancestry[i.current_ancestry - 1]? = some b ∧
        Obs.subvolSnapshot (layerPath i.image_root b)
          (tempfn_random (i.final_path.getD "") suffix) false ∈
          (handleEvent i fs (.openDisk suffix)).2.2) ∧
    (i.current_ancestry = 0 →
      Obs.subvolMake (tempfn_random (i.final_path.getD "") suffix) ∈
        (handleEvent i fs (.openDisk suffix)).2.2) := by
  have hInv := reach_inv h
  have hok2 := hok
  simp only [evOK, Bool.and_eq_true] at hok2
  obtain ⟨⟨⟨⟨⟨hlrun, hfs⟩, htn⟩, htar⟩, hsuf⟩, hfresh⟩ := hok2
  obtain ⟨final, hfinal⟩ : ∃ f, i.final_path = some f := by
    cases hf : i.final_path with
    | none => rw [hf] at hfs; simp at hfs
    | some f => exact ⟨f, rfl⟩
  obtain ⟨hancd, hn0, hclt, lay, hlay, hfp⟩ := hInv.layerSome halive
    (jobRunning_isSome hlrun)
  have hanc_ne : i.ancestry ≠ [] := by
    intro hh
    rw [hh] at hlay
    simp at hlay
  by_cases hc0 : i.current_ancestry = 0
  · have hbase : dkr_import_current_base_layer i = none := by
      simp [dkr_import_current_base_layer, hanc_ne, hc0]
    have hred : handleEvent i fs (.openDisk suffix) =
        (({ i with temp_path := some (tempfn_random final suffix), tar_pid := 1 } : DkrImport), ({ fs with dirs := tempfn_random final suffix :: parentDir (tempfn_random final suffix) :: fs.dirs } : FS), [.mkdirParents (parentDir (tempfn_random final suffix)), .subvolMake (tempfn_random final suffix)]) := by
      simp [handleEvent, dkr_import_job_on_open_disk, hfinal, hbase]
    rw [hred]
    refine ⟨by simp [hfinal], by simp [hfinal], ?_, ?_⟩
    · intro hpos
      exact absurd hc0 (by omega)
    · intro _
      simp [hfinal]
  · have hcpos : 0 < i.current_ancestry := Nat.pos_of_ne_zero hc0
    obtain ⟨b, hb1, hb2⟩ := hInv.parentIn halive (jobRunning_isSome hlrun) hcpos
    have hbase : dkr_import_current_base_layer i = some b := by
      simp [dkr_import_current_base_layer, hanc_ne, hc0, hb1]
    have hcont : layerPath i.image_root b ∈ fs.dirs := by
      simpa using hb2
    have hred : handleEvent i fs (.openDisk suffix) =
        (({ i with temp_path := some (tempfn_random final suffix), tar_pid := 1 } : DkrImport), ({ fs with dirs := tempfn_random final suffix :: parentDir (tempfn_random final suffix) :: fs.dirs } : FS), [.mkdirParents (parentDir (tempfn_random final suffix)), .subvolSnapshot (layerPath i.image_root b) (tempfn_random final suffix) false]) := by
      simp [handleEvent, dkr_import_job_on_open_disk, hfinal, hbase, hcont]
    rw [hred]
    refine ⟨by simp [hfinal], by simp [hfinal], ?_, ?_⟩
    · intro _
      exact ⟨b, hb1, by simp [hfinal]⟩
    · intro h0
      exact absurd h0 hc0

/-- C7, witness: opening the disk for the first layer of the evsC1 run
creates the suffixed temp path as a fresh subvolume under an ensured
parent. -/
theorem C7_witness :
    (handleEvent (cfgOf fs0 evsC1).1 (cfgOf fs0 evsC1).2.1
      (.openDisk "rnd")).1.temp_path =
      some (tempfn_random ((cfgOf fs0 evsC1).1.final_path.getD "") "rnd") ∧
    Obs.mkdirParents (parentDir
      (tempfn_random ((cfgOf fs0 evsC1).1.final_path.getD "") "rnd")) ∈
      (handleEvent (cfgOf fs0 evsC1).1 (cfgOf fs0 evsC1).2.1
        (.openDisk "rnd")).2.2 ∧
    (0 < (cfgOf fs0 evsC1).1.current_ancestry →
      ∃ b, (cfgOf fs0 evsC1).1.ancestry[(cfgOf fs0 evsC1).1.current_ancestry - 1]? =
          some b ∧
        Obs.subvolSnapshot (layerPath (cfgOf fs0 evsC1).1.image_root b)
          (tempfn_random ((cfgOf fs0 evsC1).1.final_path.getD "") "rnd") false ∈
          (handleEvent (cfgOf fs0 evsC1).1 (cfgOf fs0 evsC1).2.1
            (.openDisk "rnd")).2.2) ∧
    ((cfgOf fs0 evsC1).1.current_ancestry = 0 →
      Obs.subvolMake
        (tempfn_random ((cfgOf fs0 evsC1).1.final_path.getD "") "rnd") ∈
        (handleEvent (cfgOf fs0 evsC1).1 (cfgOf fs0 evsC1).2.1
          (.openDisk "rnd")).2.2) :=
  C7_open_disk (reach_cfgOf fs0 evsC1 (by decide)) (by decide) (by decide)

end Dkr
